import Mathlib

/-!
# ARIES log manager (`LogMgr.cpp`): a shallow embedding

The development follows `src/LogMgr.cpp` function by function.  The class
`LogMgr` holds the transaction table, the dirty page table and the log tail;
it talks to a `StorageEngine` through a pointer.  The engine, the log record
classes and the constants `NULL_LSN`, `NULL_TX` live in headers that are not
part of the sources at hand; they are modelled below from the specification
and marked as such.
-/

namespace LogMgr

/-! ## Constants and record types (from the absent header `LogRecord.h`) -/

/-- Modelled from the spec: the sentinel `NULL_LSN` ("no such record") of the absent
header.  `flushLogTail` treats every negative LSN as "nothing to flush" and `undo`
uses `NULL_LSN` as the "no index yet" value of an `int` index, so it is `-1`. -/
def NULL_LSN : Int := -1

/-- Modelled from the spec: the sentinel `NULL_TX` carried by system records. -/
def NULL_TX : Int := -1

/-- Modelled from the spec: the record type tags of the absent header. -/
inductive TxType where
  | UPDATE | COMMIT | ABORT | END | CLR | BEGIN_CKPT | END_CKPT
  deriving DecidableEq, Repr

/-- Modelled from the spec: the status of a transaction table entry. -/
inductive TxStatus where
  | U | C
  deriving DecidableEq, Repr

/-- Modelled from the spec: `txTableEntry` of the absent header. -/
structure txTableEntry where
  lastLSN : Int
  status : TxStatus
  deriving DecidableEq, Repr

/-- The entry `std::map::operator[]` creates for a key that is absent
(value-initialised: zero LSN, first enumerator). -/
def txTableEntry.fresh : txTableEntry := ⟨0, TxStatus.U⟩

/-! ## `std::map<int, V>` as a key-sorted association list -/

/-- `m.find(k)`: the value bound to `k`, if any. -/
def mfind {β : Type} : List (Int × β) → Int → Option β
  | [], _ => none
  | (k', v) :: rest, k => if k' = k then some v else mfind rest k

/-- `m[k] = v`: replaces the binding of `k` or inserts it at its place in key
order. -/
def minsert {β : Type} : List (Int × β) → Int → β → List (Int × β)
  | [], k, v => [(k, v)]
  | (k', v') :: rest, k, v =>
    if k' = k then (k, v) :: rest
    else if k < k' then (k, v) :: (k', v') :: rest
    else (k', v') :: minsert rest k v

/-- `m.erase(k)`. -/
def merase {β : Type} (m : List (Int × β)) (k : Int) : List (Int × β) :=
  m.filter (fun kv => decide (kv.1 ≠ k))

/-- The transaction table `map<int, txTableEntry>`. -/
abbrev TxTable := List (Int × txTableEntry)

/-- The dirty page table `map<int, int>`. -/
abbrev DirtyPageTable := List (Int × Int)

/-- The type tags of the records that consist of the header only.  The base class
`LogRecord` is only ever constructed with these tags (`LogMgr.cpp` lines 203, 309,
346, 394, 408, 411), and the parser yields the subclass that goes with the tag. -/
inductive HeaderType where
  | COMMIT | ABORT | END | BEGIN_CKPT
  deriving DecidableEq, Repr

/-- The tag of a header-only record as a `TxType`. -/
def HeaderType.toTxType : HeaderType → TxType
  | .COMMIT => TxType.COMMIT
  | .ABORT => TxType.ABORT
  | .END => TxType.END
  | .BEGIN_CKPT => TxType.BEGIN_CKPT

/-- Modelled from the spec: the class hierarchy `LogRecord` / `UpdateLogRecord` /
`CompensationLogRecord` / `ChkptLogRecord` of the absent header, as one tagged
variant.  A `dynamic_cast` to a subclass is a match on the constructor. -/
inductive LogRecord where
  | plain (lsn prevLSN txID : Int) (type : HeaderType)
  | update (lsn prevLSN txID pageID offset : Int) (beforeImage afterImage : String)
  | clr (lsn prevLSN txID pageID offset : Int) (afterImage : String) (undoNextLSN : Int)
  | chkpt (lsn prevLSN txID : Int) (txTable : TxTable) (dirtyPageTable : DirtyPageTable)
  deriving DecidableEq, Repr

namespace LogRecord

/-- `getLSN()`. -/
def getLSN : LogRecord → Int
  | plain l _ _ _ => l
  | update l _ _ _ _ _ _ => l
  | clr l _ _ _ _ _ _ => l
  | chkpt l _ _ _ _ => l

/-- `getprevLSN()`. -/
def getprevLSN : LogRecord → Int
  | plain _ p _ _ => p
  | update _ p _ _ _ _ _ => p
  | clr _ p _ _ _ _ _ => p
  | chkpt _ p _ _ _ => p

/-- `getTxID()`. -/
def getTxID : LogRecord → Int
  | plain _ _ t _ => t
  | update _ _ t _ _ _ _ => t
  | clr _ _ t _ _ _ _ => t
  | chkpt _ _ t _ _ => t

/-- `getType()`. -/
def getType : LogRecord → TxType
  | plain _ _ _ ty => ty.toTxType
  | update .. => TxType.UPDATE
  | clr .. => TxType.CLR
  | chkpt .. => TxType.END_CKPT

end LogRecord

/-! ## The storage engine (absent from the sources, modelled from the spec §6) -/

/-- Modelled from the spec: a page of the storage engine, its bytes by position
and its pageLSN. -/
structure Page where
  content : Int → Char
  pageLSN : Int

/-- Modelled from the spec: the calls the log manager makes on the engine that a test
harness records (spec §8, scenario 6). -/
inductive EngineCall where
  | updateLog (r : LogRecord)
  | pageWrite (pageID offset : Int) (bytes : String) (lsn : Int)
  deriving DecidableEq, Repr

/-- Modelled from the spec: the storage engine of the absent `StorageEngine.h`.
`lsnCounter` is the LSN the next `nextLSN()` returns (LSNs are minted strictly
increasing and are never negative, negative values being sentinels); `log` is the
durable log, kept as records since serialisation round-trips; `oracle` holds the
engine's answers to the coming `pageWrite` calls (`false`: the write is refused;
when it is used up every write is accepted); `calls` records the `updateLog` and
`pageWrite` calls in the order they were made. -/
structure StorageEngine where
  lsnCounter : Nat
  log : List LogRecord
  master : Int
  pages : Int → Page
  oracle : List Bool
  calls : List EngineCall

namespace StorageEngine

/-- `nextLSN()`: a fresh LSN, larger than every LSN minted before. -/
def nextLSN (e : StorageEngine) : Int × StorageEngine :=
  ((e.lsnCounter : Int), { e with lsnCounter := e.lsnCounter + 1 })

/-- `updateLog(line)`: appends the record to the durable log. -/
def updateLog (e : StorageEngine) (r : LogRecord) : StorageEngine :=
  { e with log := e.log ++ [r], calls := e.calls ++ [EngineCall.updateLog r] }

/-- `getLog()`. -/
def getLog (e : StorageEngine) : List LogRecord := e.log

/-- `getLSN(pageID)`: the pageLSN of the page. -/
def getLSN (e : StorageEngine) (pageID : Int) : Int := (e.pages pageID).pageLSN

/-- `store_master(lsn)`. -/
def store_master (e : StorageEngine) (lsn : Int) : StorageEngine := { e with master := lsn }

/-- `get_master()`. -/
def get_master (e : StorageEngine) : Int := e.master

/-- The bytes of a page after `bytes` were written at `offset`. -/
def writeBytes (c : Int → Char) (offset : Int) (bytes : String) : Int → Char :=
  fun i =>
    if offset ≤ i ∧ i < offset + (bytes.data.length : Int) then
      bytes.data.getD (i - offset).toNat ' '
    else c i

/-- The pages after an accepted `pageWrite`. -/
def writePage (pages : Int → Page) (pageID offset : Int) (bytes : String) (lsn : Int) :
    Int → Page :=
  fun q => if q = pageID then ⟨writeBytes (pages q).content offset bytes, lsn⟩ else pages q

/-- `pageWrite(pageID, offset, bytes, newPageLSN)`: answers with the head of the
oracle; an accepted write puts the bytes into the page and sets its pageLSN, a
refused one leaves the pages as they are. -/
def pageWrite (e : StorageEngine) (pageID offset : Int) (bytes : String) (lsn : Int) :
    Bool × StorageEngine :=
  let e1 := { e with calls := e.calls ++ [EngineCall.pageWrite pageID offset bytes lsn] }
  match e.oracle with
  | [] => (true, { e1 with pages := writePage e.pages pageID offset bytes lsn })
  | true :: rest =>
    (true, { e1 with pages := writePage e.pages pageID offset bytes lsn, oracle := rest })
  | false :: rest => (false, { e1 with oracle := rest })

end StorageEngine

/-! ## The log manager -/

/-- The members of `class LogMgr` together with the engine `se` points to. -/
structure State where
  tx_table : TxTable
  dirty_page_table : DirtyPageTable
  logtail : List LogRecord
  se : StorageEngine

/-- `LogMgr::getLastLSN` (lines 14-20). -/
def getLastLSN (s : State) (txnum : Int) : Int :=
  match mfind s.tx_table txnum with
  | some e => e.lastLSN
  | none => NULL_LSN

/-- `tx_table[txnum].lastLSN = lsn` on the table. -/
def tableSetLastLSN (t : TxTable) (txnum lsn : Int) : TxTable :=
  minsert t txnum { (mfind t txnum).getD txTableEntry.fresh with lastLSN := lsn }

/-- `tx_table[txnum].status = st` on the table. -/
def tableSetStatus (t : TxTable) (txnum : Int) (st : TxStatus) : TxTable :=
  minsert t txnum { (mfind t txnum).getD txTableEntry.fresh with status := st }

/-- `LogMgr::setLastLSN` (lines 26-28). -/
def setLastLSN (s : State) (txnum lsn : Int) : State :=
  { s with tx_table := tableSetLastLSN s.tx_table txnum lsn }

/-- The `while` loop of `flushLogTail` (lines 40-46): writes the longest prefix of
the tail whose LSNs are at most `maxLSN` to the engine and returns what is left. -/
def flushLoop (maxLSN : Int) : List LogRecord → StorageEngine → StorageEngine × List LogRecord
  | [], e => (e, [])
  | r :: rs, e =>
    if r.getLSN ≤ maxLSN then flushLoop maxLSN rs (e.updateLog r) else (e, r :: rs)

/-- `LogMgr::flushLogTail` (lines 37-48). -/
def flushLogTail (s : State) (maxLSN : Int) : State :=
  if maxLSN ≥ 0 then
    let res := flushLoop maxLSN s.logtail s.se
    { s with se := res.1, logtail := res.2 }
  else s

/-- `LogMgr::write` (lines 444-461): the new state and the returned LSN. -/
def write (s : State) (txid page_id offset : Int) (input oldtext : String) : State × Int :=
  let m := s.se.nextLSN
  let lsn := m.1
  let prev_lsn := match mfind s.tx_table txid with
    | some e => e.lastLSN
    | none => NULL_LSN
  let logtail := s.logtail ++ [LogRecord.update lsn prev_lsn txid page_id offset oldtext input]
  let t1 := tableSetLastLSN s.tx_table txid lsn
  let t2 := tableSetStatus t1 txid TxStatus.U
  let dpt := match mfind s.dirty_page_table page_id with
    | none => minsert s.dirty_page_table page_id lsn
    | some _ => s.dirty_page_table
  ({ tx_table := t2, dirty_page_table := dpt, logtail := logtail, se := m.2 }, lsn)

/-- `LogMgr::commit` (lines 404-415). -/
def commit (s : State) (txid : Int) : State :=
  match mfind s.tx_table txid with
  | some e =>
    let prev_lsn := e.lastLSN
    let m := s.se.nextLSN
    let lsn_in := m.1
    let s1 : State :=
      { s with se := m.2, logtail := s.logtail ++ [LogRecord.plain lsn_in prev_lsn txid .COMMIT] }
    let s2 := flushLogTail s1 lsn_in
    let m2 := s2.se.nextLSN
    { s2 with se := m2.2,
              logtail := s2.logtail ++ [LogRecord.plain m2.1 lsn_in txid .END],
              tx_table := merase s2.tx_table txid }
  | none => s

/-- `LogMgr::pageFlushed` (lines 422-427). -/
def pageFlushed (s : State) (page_id : Int) : State :=
  let s1 := flushLogTail s (s.se.getLSN page_id)
  { s1 with dirty_page_table := merase s1.dirty_page_table page_id }

/-! ### Analysis -/

/-- The search loop of `analyze` (lines 57-62): from index `i` downwards, while
`i > 0`, the first index whose record has the master LSN; `0` when there is none. -/
def searchMaster (log : List LogRecord) (master : Int) : Nat → Nat
  | 0 => 0
  | i + 1 =>
    match log[i + 1]? with
    | some r => if r.getLSN = master then i + 1 else searchMaster log master i
    | none => searchMaster log master i

/-- One turn of the scanning loop of `analyze` (lines 74-113) on the two tables. -/
def analyzeStep (tabs : TxTable × DirtyPageTable) (r : LogRecord) : TxTable × DirtyPageTable :=
  let lsn := r.getLSN
  let txID := r.getTxID
  match r with
  | .plain _ _ _ .COMMIT =>
    (tableSetLastLSN (tableSetStatus tabs.1 txID TxStatus.C) txID lsn, tabs.2)
  | .plain _ _ _ .END => (merase tabs.1 txID, tabs.2)
  | .plain _ _ _ .ABORT =>
    (tableSetStatus (tableSetLastLSN tabs.1 txID lsn) txID TxStatus.U, tabs.2)
  | .plain _ _ _ .BEGIN_CKPT => tabs
  | .update _ _ _ pageID _ _ _ =>
    (tableSetStatus (tableSetLastLSN tabs.1 txID lsn) txID TxStatus.U,
      match mfind tabs.2 pageID with
      | none => minsert tabs.2 pageID lsn
      | some _ => tabs.2)
  | .clr _ _ _ pageID _ _ _ =>
    (tableSetStatus (tableSetLastLSN tabs.1 txID lsn) txID TxStatus.U,
      match mfind tabs.2 pageID with
      | none => minsert tabs.2 pageID lsn
      | some _ => tabs.2)
  | .chkpt .. => tabs

/-- The scanning loop of `analyze` (lines 73-115) over the records from the start
index on. -/
def analyzeScan (tabs : TxTable × DirtyPageTable) (recs : List LogRecord) :
    TxTable × DirtyPageTable :=
  recs.foldl analyzeStep tabs

/-- Lines 65-69 of `analyze`: the tables are taken from the record when the
`dynamic_cast` to `ChkptLogRecord` succeeds, and stay as they are otherwise. -/
def seedTables (s : State) (r : LogRecord) : TxTable × DirtyPageTable :=
  match r with
  | .chkpt _ _ _ tt dpt => (tt, dpt)
  | _ => (s.tx_table, s.dirty_page_table)

/-- `LogMgr::analyze` (lines 53-116).  `none` stands for an access outside the
bounds of `log` (lines 58 and 65), which is undefined behaviour. -/
def analyze (s : State) (log : List LogRecord) : Option State :=
  if s.se.get_master ≠ NULL_LSN then
    match log with
    | [] => none
    | _ :: _ =>
      let chkpt := searchMaster log s.se.get_master (log.length - 1) + 1
      match log[chkpt]? with
      | none => none
      | some r =>
        let res := analyzeScan (seedTables s r) (log.drop chkpt)
        some { s with tx_table := res.1, dirty_page_table := res.2 }
  else
    let res := analyzeScan (s.tx_table, s.dirty_page_table) log
    some { s with tx_table := res.1, dirty_page_table := res.2 }

/-! ### Redo -/

/-- The smallest recLSN of the dirty page table (lines 126-133), starting from the
value `recLSN` holds so far. -/
def minRecLSN (recLSN : Int) : DirtyPageTable → Int
  | [] => recLSN
  | (_, l) :: rest => minRecLSN (if l < recLSN then l else recLSN) rest

/-- The index search of `redo` (lines 135-140): the first index at or after `i`
whose record has LSN `recLSN`, given the records from `i` on; `0` when none has. -/
def findStart (recLSN : Int) : List LogRecord → Nat → Nat
  | [], _ => 0
  | r :: rs, i => if r.getLSN = recLSN then i else findStart recLSN rs (i + 1)

/-- The redo loop (lines 141-195): the flag is `false` when a page write was refused,
and the loop stops there. -/
def redoLoop (dpt : DirtyPageTable) : List LogRecord → StorageEngine → Bool × StorageEngine
  | [], e => (true, e)
  | r :: rs, e =>
    match r with
    | .update lsn _ _ pageID offset _ afterImage =>
      match mfind dpt pageID with
      | some recLSN =>
        if recLSN ≤ lsn ∧ e.getLSN pageID < lsn then
          let w := e.pageWrite pageID offset afterImage lsn
          if w.1 then redoLoop dpt rs w.2 else (false, w.2)
        else redoLoop dpt rs e
      | none => redoLoop dpt rs e
    | .clr lsn _ _ pageID offset afterImage _ =>
      match mfind dpt pageID with
      | some recLSN =>
        if recLSN ≤ lsn ∧ e.getLSN pageID < lsn then
          let w := e.pageWrite pageID offset afterImage lsn
          if w.1 then redoLoop dpt rs w.2 else (false, w.2)
        else redoLoop dpt rs e
      | none => redoLoop dpt rs e
    | _ => redoLoop dpt rs e

/-- The last loop of `redo` (lines 198-209) over the entries of the transaction
table in key order: every committed transaction gets an END record and leaves the
table.  Returns the entries kept, the tail and the engine. -/
def redoEnds : TxTable → List LogRecord → StorageEngine →
    TxTable × List LogRecord × StorageEngine
  | [], tail, e => ([], tail, e)
  | (txid, ent) :: rest, tail, e =>
    if ent.status = TxStatus.C then
      let m := e.nextLSN
      redoEnds rest (tail ++ [LogRecord.plain m.1 ent.lastLSN txid .END]) m.2
    else
      let res := redoEnds rest tail e
      ((txid, ent) :: res.1, res.2.1, res.2.2)

/-- `LogMgr::redo` (lines 123-211): the returned flag and the new state. -/
def redo (s : State) (log : List LogRecord) : Bool × State :=
  let afterPages : Bool × StorageEngine :=
    match s.dirty_page_table with
    | [] => (true, s.se)
    | (_, l0) :: _ =>
      let recLSN := minRecLSN l0 s.dirty_page_table
      let start := findStart recLSN log 0
      redoLoop s.dirty_page_table (log.drop start) s.se
  if afterPages.1 then
    let res := redoEnds s.tx_table s.logtail afterPages.2
    (true, { s with tx_table := res.1, logtail := res.2.1, se := res.2.2 })
  else (false, { s with se := afterPages.2 })

/-! ### Undo -/

/-- `priority_queue<int>::push` on a max-heap kept as a descending list. -/
def heapPush : List Int → Int → List Int
  | [], x => [x]
  | y :: ys, x => if y ≤ x then x :: y :: ys else y :: heapPush ys x

/-- The test of lines 239-240 and 254-255: the record is an UPDATE or a CLR. -/
def isUndoable (r : LogRecord) : Bool :=
  decide (r.getType = TxType.UPDATE) || decide (r.getType = TxType.CLR)

/-- The loops that fill `ToUndo` (lines 237-247 and 252-262), run from index `n - 1`
down to `0`: pushes the LSN of every record that passes `cond` and sets `start` to
the first such index met when `start` is still `NULL_LSN`. -/
def buildToUndo (cond : LogRecord → Bool) (log : List LogRecord) :
    Nat → List Int → Int → List Int × Int
  | 0, heap, start => (heap, start)
  | i + 1, heap, start =>
    match log[i]? with
    | some r =>
      if cond r then
        buildToUndo cond log i (heapPush heap r.getLSN)
          (if start = NULL_LSN then (i : Int) else start)
      else buildToUndo cond log i heap start
    | none => buildToUndo cond log i heap start

/-- Lines 272-296 of `undo`, the compensation of the UPDATE record with the given
fields: the CLR is appended to the tail, the table entry of the transaction gets the
LSN of the CLR, and the before image is written to the page with the LSN of the
UPDATE record.  The flag is the answer of `pageWrite`. -/
def undoCompensate (log : List LogRecord) (abort_one : Bool) (s : State)
    (lsn prevLSN txID pageID offset : Int) (beforeImage : String) : Bool × State :=
  let undoNext := prevLSN
  let prev_lsn :=
    if abort_one then
      match s.logtail.getLast? with
      | none => (log.getLast?.map LogRecord.getLSN).getD NULL_LSN
      | some l => l.getLSN
    else lsn
  let m := s.se.nextLSN
  let CLR_lsn := m.1
  let w := m.2.pageWrite pageID offset beforeImage lsn
  (w.1, { s with
    logtail := s.logtail ++
      [LogRecord.clr CLR_lsn prev_lsn txID pageID offset beforeImage undoNext],
    tx_table := tableSetLastLSN s.tx_table txID CLR_lsn,
    se := w.2 })

/-- Lines 309-311 of `undo`: the END record is appended and the transaction is erased
from the table. -/
def undoEnd (s : State) (prev_lsn tx_id : Int) : State :=
  let m := s.se.nextLSN
  { s with
    logtail := s.logtail ++ [LogRecord.plain m.1 prev_lsn tx_id .END],
    tx_table := merase s.tx_table tx_id,
    se := m.2 }

/-- Lines 271-315 of `undo`: what is done with the record `log[start]` when its LSN
is on top of `ToUndo`.  `none` stands for undefined behaviour (the failed
`dynamic_cast` of line 302 is dereferenced).  Otherwise the result holds a flag, which
is `true` when `undo` returns at this point (lines 297 and 313), the value of the
local variable `tx_id` and the state. -/
def undoRecord (log : List LogRecord) (abort_one : Bool) (r : LogRecord) (tx_id : Int)
    (s : State) : Option (Bool × Int × State) :=
  match r with
  | .update lsn prevLSN txID pageID offset beforeImage _ =>
    let c := undoCompensate log abort_one s lsn prevLSN txID pageID offset beforeImage
    if c.1 then
      let prev_lsn := (c.2.logtail.getLast?.map LogRecord.getLSN).getD NULL_LSN
      if prevLSN = NULL_LSN then some (abort_one, txID, undoEnd c.2 prev_lsn txID)
      else some (false, txID, c.2)
    else some (true, txID, c.2)
  | .clr lsn _ _ _ _ _ undoNextLSN =>
    if undoNextLSN = NULL_LSN then some (abort_one, tx_id, undoEnd s lsn tx_id)
    else some (false, tx_id, s)
  | _ => none

/-- The main loop of `undo` (lines 269-319).  The first argument is `start + 1`, the
list is `ToUndo` from its top, `tx_id` is the local variable of line 224, which keeps
its value from one turn to the next (`undoNext` and `prev_lsn` are assigned in every
turn before they are read).  `none` stands for undefined behaviour: an access
`log[start]` outside the log, or that of `undoRecord`. -/
def undoLoop (log : List LogRecord) (abort_one : Bool) :
    Nat → List Int → Int → State → Option State
  | _, [], _, s => some s
  | 0, _ :: _, _, _ => none
  | i + 1, top :: rest, tx_id, s =>
    match log[i]? with
    | none => none
    | some r =>
      if top = r.getLSN then
        match undoRecord log abort_one r tx_id s with
        | none => none
        | some (true, _, s1) => some s1
        | some (false, tx1, s1) => undoLoop log abort_one i rest tx1 s1
      else undoLoop log abort_one i (top :: rest) tx_id s

/-- The test `undo` applies when it runs as the undo pass (lines 238-240). -/
def undoPassCond (tab : TxTable) (r : LogRecord) : Bool :=
  (mfind tab r.getTxID).isSome && isUndoable r

/-- The test `undo` applies when it aborts `txnum` (lines 253-255). -/
def abortCond (txnum : Int) (r : LogRecord) : Bool :=
  decide (r.getTxID = txnum) && isUndoable r

/-- `LogMgr::undo` (lines 218-321); `txnum` defaults to `NULL_TX` in the call of
`recover`. -/
def undo (s : State) (log : List LogRecord) (txnum : Int) : Option State :=
  match s.tx_table with
  | [] => some s
  | _ :: _ =>
    if txnum = NULL_TX then
      let b := buildToUndo (undoPassCond s.tx_table) log log.length [] NULL_LSN
      undoLoop log false (b.2 + 1).toNat b.1 NULL_TX s
    else
      match mfind s.tx_table txnum with
      | some _ =>
        let b := buildToUndo (abortCond txnum) log log.length [] NULL_LSN
        undoLoop log true (b.2 + 1).toNat b.1 NULL_TX s
      | none => some s

/-! ### The entry points -/

/-- Lines 344-348 of `abort`: the ABORT record is appended to the tail and becomes
the last record of the transaction. -/
def abortRecord (s : State) (txid prev_lsn : Int) : State :=
  let m := s.se.nextLSN
  let lsn_in := m.1
  let s1 : State :=
    { s with
      se := m.2,
      logtail := s.logtail ++ [LogRecord.plain lsn_in prev_lsn txid HeaderType.ABORT] }
  setLastLSN s1 txid lsn_in

/-- `LogMgr::abort` (lines 339-352). -/
def abort (s : State) (txid : Int) : Option State :=
  let log := s.se.getLog
  match mfind s.tx_table txid with
  | some e =>
    let s2 := abortRecord s txid e.lastLSN
    undo s2 (log ++ s2.logtail) txid
  | none => some s

/-- The loops of lines 365-370 and 377-382: drops the records before the last one
whose LSN is `master_record`, looking from index `n - 1` down to `0`. -/
def dropToMaster (log : List LogRecord) (master_record : Int) : Nat → List LogRecord
  | 0 => log
  | i + 1 =>
    match log[i]? with
    | some r => if r.getLSN = master_record then log.drop i else dropToMaster log master_record i
    | none => dropToMaster log master_record i

/-- Lines 363-384 of `checkpoint`: the tables are rebuilt by `analyze` from the
durable log, or from the durable log followed by the tail when the tail is not
empty, cut at the last record that has the master LSN. -/
def checkpointAnalyze (s0 : State) : Option State :=
  let disk := s0.se.getLog
  let master_record := s0.se.get_master
  match s0.logtail with
  | [] =>
    match disk with
    | [] => some s0
    | _ :: _ => analyze s0 (dropToMaster disk master_record disk.length)
  | _ :: _ =>
    let log := disk ++ s0.logtail
    analyze s0 (dropToMaster log master_record log.length)

/-- `LogMgr::checkpoint` (lines 357-399). -/
def checkpoint (s : State) : Option State :=
  let m1 := s.se.nextLSN
  let lsn_in_begin := m1.1
  let m2 := m1.2.nextLSN
  let lsn_in_end := m2.1
  let s0 : State := { s with se := m2.2 }
  match checkpointAnalyze s0 with
  | none => none
  | some s1 =>
    let s2 : State := { s1 with se := s1.se.store_master lsn_in_begin }
    let s3 : State :=
      { s2 with logtail := s2.logtail ++
          [LogRecord.plain lsn_in_begin NULL_LSN NULL_TX .BEGIN_CKPT,
           LogRecord.chkpt lsn_in_end lsn_in_begin NULL_TX s2.tx_table s2.dirty_page_table] }
    some (flushLogTail s3 lsn_in_end)

/-- `LogMgr::recover` (lines 432-439), on the parsed log. -/
def recover (s : State) (log : List LogRecord) : Option State :=
  match analyze s log with
  | none => none
  | some s1 =>
    let r := redo s1 log
    if r.1 then undo r.2 log NULL_TX else some r.2

/-! ## Predicates used in the statements -/

/-- The LSNs of the records never go down along the list. -/
def LsnAscending (l : List LogRecord) : Prop :=
  l.Pairwise (fun a b => a.getLSN ≤ b.getLSN)

/-- The LSNs of the records go strictly up along the list. -/
def LsnStrict (l : List LogRecord) : Prop :=
  l.Pairwise (fun a b => a.getLSN < b.getLSN)

/-- Every LSN of the list is below the LSN the engine mints next. -/
def BelowNext (l : List LogRecord) (e : StorageEngine) : Prop :=
  ∀ r ∈ l, r.getLSN < (e.lsnCounter : Int)

/-! ## Concrete states for the worked examples -/

/-- Pages that hold blanks and have pageLSN `NULL_LSN`. -/
def blankPages : Int → Page := fun _ => ⟨fun _ => ' ', NULL_LSN⟩

/-- An engine that mints LSNs from `1`, with an empty durable log, no master record,
blank pages, and that accepts every page write. -/
def initEngine : StorageEngine := ⟨1, [], NULL_LSN, blankPages, [], []⟩

/-- The initial state of the scenarios of the spec: empty tables, empty tail. -/
def initState : State := ⟨[], [], [], initEngine⟩

/-- A state with two updates of transaction `7` in the tail, the first one on page
`1`, whose pageLSN is `1`, the second one on page `2`. -/
def twoUpdatesState : State :=
  { tx_table := [(7, ⟨2, TxStatus.U⟩)],
    dirty_page_table := [(1, 1), (2, 2)],
    logtail := [LogRecord.update 1 NULL_LSN 7 1 0 " " "a", LogRecord.update 2 1 7 2 0 " " "b"],
    se := { initEngine with
      lsnCounter := 3,
      pages := fun q => if q = 1 then ⟨fun _ => 'a', 1⟩ else blankPages q } }

/-- The master record is fit for `analyze`: there is none, or the last record of
disk-log ++ log-tail that has the master LSN is followed by another record. -/
def MasterInLog (s : State) : Prop :=
  s.se.master = NULL_LSN ∨
  ∃ pre r nxt post, s.se.log ++ s.logtail = pre ++ r :: nxt :: post ∧
    r.getLSN = s.se.master ∧ ∀ x ∈ nxt :: post, x.getLSN ≠ s.se.master

/-- A state after one checkpoint: the durable log holds an update, BEGIN_CKPT `2` and
END_CKPT `3`, the master record is `2`, and one more update waits in the tail. -/
def checkpointedState : State :=
  { tx_table := [(7, ⟨4, TxStatus.U⟩)],
    dirty_page_table := [(1, 1)],
    logtail := [LogRecord.update 4 1 7 1 1 " " "b"],
    se := { initEngine with
      lsnCounter := 5,
      master := 2,
      log := [LogRecord.update 1 NULL_LSN 7 1 0 " " "a",
              LogRecord.plain 2 NULL_LSN NULL_TX .BEGIN_CKPT,
              LogRecord.chkpt 3 2 NULL_TX [(7, ⟨1, TxStatus.U⟩)] [(1, 1)]] } }

/-- The state in which `abort(1)` enters `undo` after `write(1, 1, 0, "ab", "  ")` on
an engine that refuses the next page write: the UPDATE and the ABORT record are in
the tail, the transaction has `lastLSN = 2`. -/
def refusedUndoState : State :=
  { tx_table := [(1, ⟨2, TxStatus.U⟩)],
    dirty_page_table := [(1, 1)],
    logtail := [LogRecord.update 1 NULL_LSN 1 1 0 "  " "ab", LogRecord.plain 2 1 1 .ABORT],
    se := { initEngine with lsnCounter := 3, oracle := [false] } }

/-! ## Runs of the log manager -/

/-- The calls made on the log manager during normal operation, and the two things the
engine does on its own between them: it changes a page (content and pageLSN), and it
mints an LSN for itself. -/
inductive Op where
  | write (txID pageID offset : Int) (newBytes oldBytes : String)
  | commit (txID : Int)
  | abort (txID : Int)
  | pageFlushed (pageID : Int)
  | checkpoint
  | engineSetPage (pageID : Int) (page : Page)
  | engineNextLSN

/-- The operation is a call of `checkpoint()`. -/
def Op.isCheckpoint : Op → Bool
  | .checkpoint => true
  | _ => false

/-- The operation is the call `pageFlushed(p)`. -/
def Op.isFlushOf (p : Int) : Op → Bool
  | .pageFlushed q => decide (q = p)
  | _ => false

/-- The operation is a call of `write` on page `p`. -/
def Op.isWriteOf (p : Int) : Op → Bool
  | .write _ q _ _ _ => decide (q = p)
  | _ => false

/-- One operation; `none` when the call runs into undefined behaviour. -/
def step (s : State) : Op → Option State
  | .write txID pageID offset newBytes oldBytes =>
    some (write s txID pageID offset newBytes oldBytes).1
  | .commit txID => some (commit s txID)
  | .abort txID => abort s txID
  | .pageFlushed pageID => some (pageFlushed s pageID)
  | .checkpoint => checkpoint s
  | .engineSetPage pageID page =>
    some { s with se := { s.se with pages := fun q => if q = pageID then page else s.se.pages q } }
  | .engineNextLSN => some { s with se := s.se.nextLSN.2 }

/-- A sequence of operations, from left to right. -/
def run (s : State) : List Op → Option State
  | [] => some s
  | op :: rest =>
    match step s op with
    | none => none
    | some s1 => run s1 rest

/-- The initial state: empty tables, empty log tail, empty durable log, no master
record.  The LSN counter, the pages and the answers of the engine are arbitrary. -/
def Initial (s : State) : Prop :=
  s.tx_table = [] ∧ s.dirty_page_table = [] ∧ s.logtail = [] ∧ s.se.log = [] ∧
  s.se.master = NULL_LSN

/-- The whole log: disk-log ++ log-tail. -/
def AllLog (s : State) : List LogRecord := s.se.log ++ s.logtail

/-- `l` is the maximum LSN of the records of `L` with `txID = t`. -/
def IsMaxLSNOf (t : Int) (l : Int) (L : List LogRecord) : Prop :=
  (∃ r ∈ L, r.getTxID = t ∧ r.getLSN = l) ∧ ∀ r ∈ L, r.getTxID = t → r.getLSN ≤ l

/-- Every transaction of the table other than `NULL_TX` has as `lastLSN` the maximum
LSN of its records in `L`. -/
def TableMax (tab : TxTable) (L : List LogRecord) : Prop :=
  ∀ t e, mfind tab t = some e → t ≠ NULL_TX → IsMaxLSNOf t e.lastLSN L

/-- The record is a checkpoint record (BEGIN_CKPT or END_CKPT). -/
def LogRecord.isCkpt (r : LogRecord) : Bool :=
  decide (r.getType = TxType.BEGIN_CKPT) || decide (r.getType = TxType.END_CKPT)

/-- The invariant of the runs: the whole log has strictly increasing LSNs, all of
them minted (not negative, below the next LSN); checkpoint records carry `NULL_TX`;
the transaction table holds the maximum LSN of each of its transactions; and a master
record names a BEGIN_CKPT of the log that is followed by its END_CKPT, whose snapshot
of the transaction table held the maximum LSNs of the log before the checkpoint. -/
structure Inv (s : State) : Prop where
  strict : LsnStrict (AllLog s)
  bounds : ∀ r ∈ AllLog s, 0 ≤ r.getLSN ∧ r.getLSN < (s.se.lsnCounter : Int)
  sysrec : ∀ r ∈ AllLog s, r.isCkpt = true → r.getTxID = NULL_TX
  table : TableMax s.tx_table (AllLog s)
  master : s.se.master = NULL_LSN ∨
    ∃ pre E tt dpt post,
      AllLog s = pre ++ LogRecord.plain s.se.master NULL_LSN NULL_TX .BEGIN_CKPT ::
        LogRecord.chkpt E s.se.master NULL_TX tt dpt :: post ∧
      TableMax tt pre

/-- The invariant of the scanning loop of `analyze` for the transaction table: after
the records `done`, a transaction of the table other than `NULL_TX` either has the
maximum LSN of its records in `done` as `lastLSN`, or has no record in `done`
and still has the `lastLSN` it had in the table `tab0` the scan started from. -/
def ScanInv (tab0 tab : TxTable) (done : List LogRecord) : Prop :=
  ∀ t e, mfind tab t = some e → t ≠ NULL_TX →
    IsMaxLSNOf t e.lastLSN done ∨
    ((∀ r ∈ done, r.getTxID ≠ t) ∧ ∃ e0, mfind tab0 t = some e0 ∧ e0.lastLSN = e.lastLSN)

/-- The property the harness of spec §8, scenario 6 checks on the recorded calls:
every `pageWrite` with page LSN `L` comes after an `updateLog` of each of the given
records with `lsn ≤ L`. -/
def WalRespected (calls : List EngineCall) (appended : List LogRecord) : Prop :=
  ∀ pre post p off b L, calls = pre ++ EngineCall.pageWrite p off b L :: post →
    ∀ r ∈ appended, r.getLSN ≤ L → EngineCall.updateLog r ∈ pre

/-- Every record of the durable log was passed to `updateLog`. -/
def LogCalled (s : State) : Prop :=
  ∀ r ∈ s.se.log, EngineCall.updateLog r ∈ s.se.calls

/-! ## Notions for the undo pass -/

/-- The records of `undo` taken one after the other from a list, instead of through
`ToUndo` and the index `start`.  On a log with strictly increasing LSNs the main loop
of `undo` does just this with the records it collected, from the last one to the
first one (`undoLoop_eq_undoList`). -/
def undoList (log : List LogRecord) (abort_one : Bool) :
    List LogRecord → Int → State → Option State
  | [], _, s => some s
  | r :: rs, tx_id, s =>
    match undoRecord log abort_one r tx_id s with
    | none => none
    | some (true, _, s1) => some s1
    | some (false, tx1, s1) => undoList log abort_one rs tx1 s1

/-- The engine accepts every page write to come. -/
def AcceptsAll (e : StorageEngine) : Prop := ∀ b ∈ e.oracle, b = true

/-- The UPDATE records of transaction `T` in the log, in log order. -/
def updatesOf (T : Int) (log : List LogRecord) : List LogRecord :=
  log.filter (fun r => decide (r.getTxID = T) && decide (r.getType = TxType.UPDATE))

/-- The record `c` is a CLR that compensates the UPDATE record `u`: same
transaction, page and offset, the before image of `u` as after image, and the prevLSN
of `u` as undoNextLSN. -/
def Compensates (u c : LogRecord) : Prop :=
  match u, c with
  | .update _ uprev tx pg off before _, .clr _ _ tx2 pg2 off2 after2 undoNext =>
    tx2 = tx ∧ pg2 = pg ∧ off2 = off ∧ after2 = before ∧ undoNext = uprev
  | _, _ => False

/-- The UPDATE records of `T` in the log form one chain: the first of them, and no
other, has `prevLSN = NULL_LSN`. -/
def ChainedUpdates (T : Int) (log : List LogRecord) : Prop :=
  ∃ u rest, updatesOf T log = u :: rest ∧ u.getprevLSN = NULL_LSN ∧
    ∀ x ∈ rest, x.getprevLSN ≠ NULL_LSN

/-! ## Notions for the page state after recovery -/

/-- A fresh log manager (empty tables, empty tail) bound to the engine. -/
def freshOn (e : StorageEngine) : State := ⟨[], [], [], e⟩

/-- A write on one page: offset, bytes and the new pageLSN. -/
structure PWrite where
  offset : Int
  bytes : String
  lsn : Int

/-- The page after the write (what an accepted `pageWrite` does to its page). -/
def applyPW (pg : Page) (w : PWrite) : Page :=
  ⟨StorageEngine.writeBytes pg.content w.offset w.bytes, w.lsn⟩

/-- The write is made only if the pageLSN is below its LSN (the test of `redo`,
lines 163 and 181). -/
def condPW (pg : Page) (w : PWrite) : Page :=
  if pg.pageLSN < w.lsn then applyPW pg w else pg

/-- The position `x` lies in the bytes of the write. -/
def PWrite.covers (w : PWrite) (x : Int) : Bool :=
  decide (w.offset ≤ x ∧ x < w.offset + (w.bytes.data.length : Int))

/-- The write `redo` considers for page `p` at the record `r` (lines 156-162 and
176-180): the record is an UPDATE or CLR of page `p`, the page is in the dirty page
table and its recLSN is at most the LSN of the record. -/
def redoView (dpt : DirtyPageTable) (p : Int) (r : LogRecord) : Option PWrite :=
  match r with
  | .update lsn _ _ pageID offset _ afterImage =>
    if pageID = p then
      match mfind dpt pageID with
      | some recLSN => if recLSN ≤ lsn then some ⟨offset, afterImage, lsn⟩ else none
      | none => none
    else none
  | .clr lsn _ _ pageID offset afterImage _ =>
    if pageID = p then
      match mfind dpt pageID with
      | some recLSN => if recLSN ≤ lsn then some ⟨offset, afterImage, lsn⟩ else none
      | none => none
    else none
  | _ => none

/-- The write `undo` makes on page `p` for the record `r` (lines 295-296): the before
image of an UPDATE of page `p`, with the LSN of that UPDATE as pageLSN. -/
def undoView (p : Int) (r : LogRecord) : Option PWrite :=
  match r with
  | .update lsn _ _ pageID offset beforeImage _ =>
    if pageID = p then some ⟨offset, beforeImage, lsn⟩ else none
  | _ => none

/-- The records `redo` scans (lines 125-141): none when the dirty page table is
empty, else the log from the index found for the smallest recLSN. -/
def redoRecs (dpt : DirtyPageTable) (log : List LogRecord) : List LogRecord :=
  match dpt with
  | [] => []
  | (_, l0) :: _ => log.drop (findStart (minRecLSN l0 dpt) log 0)

/-- The transaction table `redo` leaves (lines 198-209): the committed transactions
are gone. -/
def afterRedoTable (tab : TxTable) : TxTable :=
  tab.filter (fun kv => !decide (kv.2.status = TxStatus.C))

/-- What `redo` does to page `p` at the record `r`. -/
def redoPageStep (dpt : DirtyPageTable) (p : Int) (pg : Page) (r : LogRecord) : Page :=
  match redoView dpt p r with
  | some w => condPW pg w
  | none => pg

/-- What `undo` does to page `p` at the record `r`, when the engine accepts the
write. -/
def undoPageStep (p : Int) (pg : Page) (r : LogRecord) : Page :=
  match undoView p r with
  | some w => applyPW pg w
  | none => pg

/-- The initial state on an engine that refuses the first page write and accepts the
following ones. -/
def refusingInitState : State := { initState with se := { initEngine with oracle := [false] } }

/-- An engine like `initEngine` that mints LSNs from `3`. -/
def engineFrom3 : StorageEngine := { initEngine with lsnCounter := 3 }

/-! ## Notions for the analysis pass -/

/-- The record is a COMMIT, ABORT, UPDATE or CLR record of transaction `t`. -/
def LogRecord.isTxRecordOf (t : Int) (r : LogRecord) : Bool :=
  decide (r.getTxID = t) &&
    (decide (r.getType = TxType.COMMIT) || decide (r.getType = TxType.ABORT) ||
      decide (r.getType = TxType.UPDATE) || decide (r.getType = TxType.CLR))

/-- The record is an END record of transaction `t`. -/
def LogRecord.isEndOf (t : Int) (r : LogRecord) : Bool :=
  decide (r.getTxID = t) && decide (r.getType = TxType.END)

/-- The record is an UPDATE or a CLR on page `p`. -/
def LogRecord.touches (p : Int) : LogRecord → Bool
  | .update _ _ _ pageID _ _ _ => decide (pageID = p)
  | .clr _ _ _ pageID _ _ _ => decide (pageID = p)
  | _ => false

/-! ## Notions for the redo pass -/

/-- The page, the offset and the after image of an UPDATE or CLR record. -/
def LogRecord.redoArgs : LogRecord → Option (Int × Int × String)
  | .update _ _ _ pageID offset _ afterImage => some (pageID, offset, afterImage)
  | .clr _ _ _ pageID offset afterImage _ => some (pageID, offset, afterImage)
  | _ => none

/-- The redo rule of the spec (§4.3.7, step 3) at the record `r`, for the engine `e`
as it is when the record is reached: `r` is an UPDATE or CLR record on page `p` with
the given offset and after image, `p` is in the dirty page table with a recLSN that is
at most the LSN of `r`, and the pageLSN of `p` is below the LSN of `r`. -/
def RedoDue (dpt : DirtyPageTable) (e : StorageEngine) (r : LogRecord)
    (p offset : Int) (afterImage : String) : Prop :=
  r.redoArgs = some (p, offset, afterImage) ∧
  (∃ recLSN, mfind dpt p = some recLSN ∧ recLSN ≤ r.getLSN) ∧
  e.getLSN p < r.getLSN
/-- A state before `redo`: page 1 is dirty from LSN 2 on and transaction 7 is
committed. -/
def redoExampleState : State :=
  { tx_table := [(7, ⟨3, TxStatus.C⟩)],
    dirty_page_table := [(1, 2)],
    logtail := [],
    se := { initEngine with lsnCounter := 4 } }

/-- The log that goes with `redoExampleState`. -/
def redoExampleLog : List LogRecord :=
  [LogRecord.update 1 NULL_LSN 7 1 0 " " "a", LogRecord.update 2 1 7 1 1 " " "b",
    LogRecord.plain 3 2 7 .COMMIT]

/-! ## Notions for the dirty page table along the runs -/

/-- The LSN of the first UPDATE or CLR record on page `p` in the list, if there is
one. -/
def firstTouch (p : Int) (L : List LogRecord) : Option Int :=
  (L.find? (LogRecord.touches p)).map LogRecord.getLSN

/-- The invariant of the runs for a page `p` as long as `pageFlushed(p)` is not called:
the dirty page table holds for `p` the LSN of the first UPDATE or CLR record on `p` in
the whole log (nothing when there is none), and the snapshot of the END_CKPT record
that follows the master record held the same for the log before that checkpoint. -/
def PageInv (p : Int) (s : State) : Prop :=
  mfind s.dirty_page_table p = firstTouch p (AllLog s) ∧
  (s.se.master = NULL_LSN ∨
    ∃ pre E tt dpt post,
      AllLog s = pre ++ LogRecord.plain s.se.master NULL_LSN NULL_TX .BEGIN_CKPT ::
        LogRecord.chkpt E s.se.master NULL_TX tt dpt :: post ∧
      mfind dpt p = firstTouch p pre)

/-- Lines 357-390 of `checkpoint`: the engine as a crash between `store_master` (line
390) and `flushLogTail` (line 397) leaves it.  Both LSNs are minted and the master
record is stored; the BEGIN_CKPT and END_CKPT records, which are appended to the tail
and flushed afterwards (lines 393-397), are not in the durable log. -/
def checkpointCrashEngine (s : State) : Option StorageEngine :=
  let m1 := s.se.nextLSN
  let lsn_in_begin := m1.1
  let m2 := m1.2.nextLSN
  match checkpointAnalyze { s with se := m2.2 } with
  | none => none
  | some s1 => some (s1.se.store_master lsn_in_begin)

/-! ## Facts about the association lists -/

theorem mfind_minsert_self {β : Type} (m : List (Int × β)) (k : Int) (v : β) :
    mfind (minsert m k v) k = some v := by
  induction m with
  | nil => simp [minsert, mfind]
  | cons hd tl ih =>
    obtain ⟨k', v'⟩ := hd
    by_cases h1 : k' = k
    · simp [minsert, mfind, h1]
    · by_cases h2 : k < k'
      · simp [minsert, mfind, h1, h2]
      · simp [minsert, mfind, h1, h2, ih]

theorem mfind_minsert_ne {β : Type} (m : List (Int × β)) (k j : Int) (v : β) (h : j ≠ k) :
    mfind (minsert m k v) j = mfind m j := by
  induction m with
  | nil => simp [minsert, mfind, Ne.symm h]
  | cons hd tl ih =>
    obtain ⟨k', v'⟩ := hd
    by_cases h1 : k' = k
    · subst h1
      simp [minsert, mfind, Ne.symm h]
    · by_cases h2 : k < k'
      · simp [minsert, mfind, h1, h2, Ne.symm h]
      · simp [minsert, mfind, h1, h2, ih]

theorem mfind_merase_self {β : Type} (m : List (Int × β)) (k : Int) :
    mfind (merase m k) k = none := by
  induction m with
  | nil => simp [merase, mfind]
  | cons hd tl ih =>
    obtain ⟨k', v'⟩ := hd
    by_cases h1 : k' = k
    · simpa [merase, h1] using ih
    · simpa [merase, mfind, h1] using ih

theorem mfind_merase_ne {β : Type} (m : List (Int × β)) (k j : Int) (h : j ≠ k) :
    mfind (merase m k) j = mfind m j := by
  induction m with
  | nil => simp [merase, mfind]
  | cons hd tl ih =>
    obtain ⟨k', v'⟩ := hd
    by_cases h1 : k' = k
    · subst h1
      simpa [merase, mfind, Ne.symm h] using ih
    · by_cases h2 : k' = j
      · subst h2
        simp [merase, mfind, List.filter_cons, h1]
      · simpa [merase, mfind, List.filter_cons, h1, h2] using ih

theorem mfind_tableSetLastLSN_self (t : TxTable) (k lsn : Int) :
    mfind (tableSetLastLSN t k lsn) k =
      some { (mfind t k).getD txTableEntry.fresh with lastLSN := lsn } := by
  simp [tableSetLastLSN, mfind_minsert_self]

theorem mfind_tableSetLastLSN_ne (t : TxTable) (k j lsn : Int) (h : j ≠ k) :
    mfind (tableSetLastLSN t k lsn) j = mfind t j := by
  simp [tableSetLastLSN, mfind_minsert_ne _ _ _ _ h]

theorem mfind_tableSetStatus_self (t : TxTable) (k : Int) (st : TxStatus) :
    mfind (tableSetStatus t k st) k =
      some { (mfind t k).getD txTableEntry.fresh with status := st } := by
  simp [tableSetStatus, mfind_minsert_self]

theorem mfind_tableSetStatus_ne (t : TxTable) (k j : Int) (st : TxStatus) (h : j ≠ k) :
    mfind (tableSetStatus t k st) j = mfind t j := by
  simp [tableSetStatus, mfind_minsert_ne _ _ _ _ h]

/-! ## Facts about `flushLogTail` -/

theorem flushLoop_log (maxLSN : Int) (tl : List LogRecord) (e : StorageEngine) :
    (flushLoop maxLSN tl e).1.log =
      e.log ++ tl.takeWhile (fun r => decide (r.getLSN ≤ maxLSN)) := by
  induction tl generalizing e with
  | nil => simp [flushLoop]
  | cons r rs ih =>
    by_cases h : r.getLSN ≤ maxLSN
    · simp [flushLoop, h, ih, StorageEngine.updateLog, List.takeWhile_cons]
    · simp [flushLoop, h, List.takeWhile_cons]

theorem flushLoop_rest (maxLSN : Int) (tl : List LogRecord) (e : StorageEngine) :
    (flushLoop maxLSN tl e).2 = tl.dropWhile (fun r => decide (r.getLSN ≤ maxLSN)) := by
  induction tl generalizing e with
  | nil => simp [flushLoop]
  | cons r rs ih =>
    by_cases h : r.getLSN ≤ maxLSN
    · simp [flushLoop, h, ih, List.dropWhile_cons]
    · simp [flushLoop, h, List.dropWhile_cons]

theorem flushLoop_calls (maxLSN : Int) (tl : List LogRecord) (e : StorageEngine) :
    (flushLoop maxLSN tl e).1.calls =
      e.calls ++ (tl.takeWhile (fun r => decide (r.getLSN ≤ maxLSN))).map EngineCall.updateLog := by
  induction tl generalizing e with
  | nil => simp [flushLoop]
  | cons r rs ih =>
    by_cases h : r.getLSN ≤ maxLSN
    · simp [flushLoop, h, ih, StorageEngine.updateLog, List.takeWhile_cons]
    · simp [flushLoop, h, List.takeWhile_cons]

theorem flushLoop_frame (maxLSN : Int) (tl : List LogRecord) (e : StorageEngine) :
    (flushLoop maxLSN tl e).1.lsnCounter = e.lsnCounter ∧
    (flushLoop maxLSN tl e).1.master = e.master ∧
    (flushLoop maxLSN tl e).1.pages = e.pages ∧
    (flushLoop maxLSN tl e).1.oracle = e.oracle := by
  induction tl generalizing e with
  | nil => simp [flushLoop]
  | cons r rs ih =>
    by_cases h : r.getLSN ≤ maxLSN
    · simpa [flushLoop, h, StorageEngine.updateLog] using ih (e.updateLog r)
    · simp [flushLoop, h]

theorem takeWhile_eq_filter_of_ascending (maxLSN : Int) (tl : List LogRecord)
    (h : LsnAscending tl) :
    tl.takeWhile (fun r => decide (r.getLSN ≤ maxLSN)) =
      tl.filter (fun r => decide (r.getLSN ≤ maxLSN)) := by
  induction tl with
  | nil => simp
  | cons r rs ih =>
    have hrs : LsnAscending rs := (List.pairwise_cons.mp h).2
    have hr : ∀ x ∈ rs, r.getLSN ≤ x.getLSN := (List.pairwise_cons.mp h).1
    by_cases hle : r.getLSN ≤ maxLSN
    · simp [List.takeWhile_cons, List.filter_cons, hle, ih hrs]
    · have : rs.filter (fun r => decide (r.getLSN ≤ maxLSN)) = [] := by
        rw [List.filter_eq_nil_iff]
        intro x hx
        have := hr x hx
        simp only [decide_eq_true_eq]
        omega
      simp [List.takeWhile_cons, List.filter_cons, hle, this]

theorem dropWhile_eq_filter_of_ascending (maxLSN : Int) (tl : List LogRecord)
    (h : LsnAscending tl) :
    tl.dropWhile (fun r => decide (r.getLSN ≤ maxLSN)) =
      tl.filter (fun r => decide (maxLSN < r.getLSN)) := by
  induction tl with
  | nil => simp
  | cons r rs ih =>
    have hrs : LsnAscending rs := (List.pairwise_cons.mp h).2
    have hr : ∀ x ∈ rs, r.getLSN ≤ x.getLSN := (List.pairwise_cons.mp h).1
    by_cases hle : r.getLSN ≤ maxLSN
    · have hn : ¬ maxLSN < r.getLSN := by omega
      simp [List.dropWhile_cons, List.filter_cons, hle, hn, ih hrs]
    · have hlt : maxLSN < r.getLSN := by omega
      have : rs.filter (fun r => decide (maxLSN < r.getLSN)) = rs := by
        rw [List.filter_eq_self]
        intro x hx
        have := hr x hx
        simp only [decide_eq_true_eq]
        omega
      simp [List.dropWhile_cons, List.filter_cons, hle, hlt, this]

/-! ## C2: `write` -/

/-- C2: for every state and every argument tuple, `write` returns the LSN it minted
with `nextLSN`, appends to the end of the log tail exactly one UPDATE record with that
LSN, with the previous `lastLSN` of the transaction (or `NULL_LSN` when the
transaction was not in the table) as prevLSN, and with the given txID, pageID,
offset, old bytes as before image and new bytes as after image; the transaction's
entry becomes `{lastLSN = L, status = U}`; the page gets recLSN `L` only if it was
absent from the dirty page table (an existing recLSN is kept); no other entry of
either table changes. -/
theorem write_contract (s : State) (txID pageID offset : Int) (newBytes oldBytes : String) :
    let res := write s txID pageID offset newBytes oldBytes
    let L : Int := (s.se.lsnCounter : Int)
    res.2 = L ∧ res.2 = s.se.nextLSN.1 ∧ res.1.se = s.se.nextLSN.2 ∧
    res.1.logtail = s.logtail ++
      [LogRecord.update L (getLastLSN s txID) txID pageID offset oldBytes newBytes] ∧
    (mfind s.tx_table txID = none → getLastLSN s txID = NULL_LSN) ∧
    (∀ e, mfind s.tx_table txID = some e → getLastLSN s txID = e.lastLSN) ∧
    mfind res.1.tx_table txID = some ⟨L, TxStatus.U⟩ ∧
    (∀ t, t ≠ txID → mfind res.1.tx_table t = mfind s.tx_table t) ∧
    (mfind s.dirty_page_table pageID = none →
      mfind res.1.dirty_page_table pageID = some L) ∧
    (∀ l, mfind s.dirty_page_table pageID = some l →
      mfind res.1.dirty_page_table pageID = some l) ∧
    (∀ p, p ≠ pageID → mfind res.1.dirty_page_table p = mfind s.dirty_page_table p) := by
  intro res L
  refine ⟨rfl, rfl, rfl, ?_, ?_, ?_, ?_, ?_, ?_, ?_, ?_⟩
  · simp only [res, write, getLastLSN, L, StorageEngine.nextLSN]
  · intro h
    simp [getLastLSN, h]
  · intro e h
    simp [getLastLSN, h]
  · simp only [res, write, L, StorageEngine.nextLSN]
    rw [mfind_tableSetStatus_self, mfind_tableSetLastLSN_self]
    rfl
  · intro t ht
    simp only [res, write]
    rw [mfind_tableSetStatus_ne _ _ _ _ ht, mfind_tableSetLastLSN_ne _ _ _ _ ht]
  · intro h
    simp only [res, write, h, L, StorageEngine.nextLSN]
    exact mfind_minsert_self _ _ _
  · intro l h
    simp only [res, write, h]
  · intro p hp
    simp only [res, write]
    cases h : mfind s.dirty_page_table pageID with
    | none => exact mfind_minsert_ne _ _ _ _ hp
    | some l => rfl

/-! ## C3: `pageFlushed` -/

/-- C3: for every state whose log tail is LSN-ascending and every page `p` with
`L = getLSN(p)`: when `0 ≤ L`, `pageFlushed(p)` appends to the durable log exactly
the tail records with `lsn ≤ L` in their tail order and leaves in the tail exactly
the records with `lsn > L` in their order; when `L < 0` the durable log and the tail
are unchanged; in both cases `p` is removed from the dirty page table, no other
dirty page entry changes and the transaction table is unchanged. -/
theorem pageFlushed_contract (s : State) (p : Int) (hasc : LsnAscending s.logtail) :
    let L := s.se.getLSN p
    let s1 := pageFlushed s p
    (0 ≤ L → s1.se.log = s.se.log ++ s.logtail.filter (fun r => decide (r.getLSN ≤ L)) ∧
      s1.logtail = s.logtail.filter (fun r => decide (L < r.getLSN))) ∧
    (L < 0 → s1.se.log = s.se.log ∧ s1.logtail = s.logtail ∧ s1.se = s.se) ∧
    mfind s1.dirty_page_table p = none ∧
    (∀ q, q ≠ p → mfind s1.dirty_page_table q = mfind s.dirty_page_table q) ∧
    s1.tx_table = s.tx_table := by
  intro L s1
  refine ⟨?_, ?_, ?_, ?_, ?_⟩
  · intro hL
    have hL2 : s.se.getLSN p ≥ 0 := hL
    simp only [s1, pageFlushed, flushLogTail, hL2, if_true]
    refine ⟨?_, ?_⟩
    · rw [flushLoop_log, takeWhile_eq_filter_of_ascending _ _ hasc]
    · rw [flushLoop_rest, dropWhile_eq_filter_of_ascending _ _ hasc]
  · intro hL
    have hL2 : ¬ s.se.getLSN p ≥ 0 := by
      have : s.se.getLSN p < 0 := hL
      omega
    simp [s1, pageFlushed, flushLogTail, hL2]
  · simp only [s1, pageFlushed]
    exact mfind_merase_self _ _
  · intro q hq
    simp only [s1, pageFlushed]
    rw [mfind_merase_ne _ _ _ hq]
    simp only [flushLogTail]
    split <;> rfl
  · simp only [s1, pageFlushed, flushLogTail]
    split <;> rfl

/-! ## C1: `commit` -/

/-- C1: for every state in which `txID` is in the transaction table and the log tail
is LSN-ascending with every LSN below the next minted one, `commit(txID)` mints `C`,
and on return the durable log is the old durable log, followed by every record of the
old tail in tail (LSN) order, followed by the COMMIT record `{lsn = C, prevLSN =
lastLSN, txID}`; the tail holds exactly the END record `{prevLSN = C, txID}` minted
after the COMMIT; and `txID` is no longer in the transaction table. -/
theorem commit_contract (s : State) (txID : Int) (e : txTableEntry)
    (hin : mfind s.tx_table txID = some e)
    (hasc : LsnAscending s.logtail) (hbelow : BelowNext s.logtail s.se) :
    let s1 := commit s txID
    let C : Int := (s.se.lsnCounter : Int)
    s1.se.log = s.se.log ++ s.logtail ++ [LogRecord.plain C e.lastLSN txID .COMMIT] ∧
    LsnAscending (s.logtail ++ [LogRecord.plain C e.lastLSN txID .COMMIT]) ∧
    s1.logtail = [LogRecord.plain (C + 1) C txID .END] ∧
    mfind s1.tx_table txID = none ∧
    (∀ t, t ≠ txID → mfind s1.tx_table t = mfind s.tx_table t) := by
  intro s1 C
  have hasc2 : LsnAscending (s.logtail ++ [LogRecord.plain C e.lastLSN txID .COMMIT]) := by
    unfold LsnAscending
    rw [List.pairwise_append]
    refine ⟨hasc, by simp, ?_⟩
    intro a ha b hb
    simp only [List.mem_singleton] at hb
    subst hb
    have := hbelow a ha
    show a.getLSN ≤ C
    omega
  have hall : ∀ r ∈ s.logtail ++ [LogRecord.plain C e.lastLSN txID .COMMIT],
      r.getLSN ≤ C := by
    intro r hr
    rcases List.mem_append.mp hr with h | h
    · have := hbelow r h
      simp only [C]
      omega
    · simp only [List.mem_singleton] at h
      subst h
      simp [LogRecord.getLSN]
  have hC : C ≥ 0 := by simp [C]
  have htake : (s.logtail ++ [LogRecord.plain C e.lastLSN txID .COMMIT]).takeWhile
      (fun r => decide (r.getLSN ≤ C)) =
      s.logtail ++ [LogRecord.plain C e.lastLSN txID .COMMIT] := by
    rw [List.takeWhile_eq_self_iff]
    intro r hr
    simpa using hall r hr
  have hdrop : (s.logtail ++ [LogRecord.plain C e.lastLSN txID .COMMIT]).dropWhile
      (fun r => decide (r.getLSN ≤ C)) = [] := by
    rw [List.dropWhile_eq_nil_iff]
    intro r hr
    simpa using hall r hr
  refine ⟨?_, hasc2, ?_, ?_, ?_⟩
  · simp only [s1, commit, hin, flushLogTail, StorageEngine.nextLSN]
    rw [if_pos hC]
    simp only [flushLoop_log]
    rw [htake]
    simp [List.append_assoc]
  · simp only [s1, commit, hin, flushLogTail, StorageEngine.nextLSN]
    rw [if_pos hC]
    simp only [flushLoop_rest]
    rw [hdrop]
    have := (flushLoop_frame C (s.logtail ++ [LogRecord.plain C e.lastLSN txID .COMMIT])
      { s.se with lsnCounter := s.se.lsnCounter + 1 }).1
    simp only [C] at this ⊢
    simp [this]
  · simp only [s1, commit, hin]
    exact mfind_merase_self _ _
  · intro t ht
    simp only [s1, commit, hin]
    rw [mfind_merase_ne _ _ _ ht]
    simp only [flushLogTail]
    split <;> rfl

/-! ## Witnesses for C1 and C3 -/

/-- Witness of `commit_contract` on the state with two updates of transaction `7`. -/
theorem commit_contract_witness :
    mfind twoUpdatesState.tx_table 7 = some ⟨2, TxStatus.U⟩ ∧
    LsnAscending twoUpdatesState.logtail ∧ BelowNext twoUpdatesState.logtail twoUpdatesState.se ∧
    (commit twoUpdatesState 7).se.log =
      twoUpdatesState.se.log ++ twoUpdatesState.logtail ++ [LogRecord.plain 3 2 7 .COMMIT] ∧
    (commit twoUpdatesState 7).logtail = [LogRecord.plain 4 3 7 .END] :=
  have h1 : mfind twoUpdatesState.tx_table 7 = some ⟨2, TxStatus.U⟩ := by decide
  have h2 : LsnAscending twoUpdatesState.logtail := by
    simp [LsnAscending, twoUpdatesState, LogRecord.getLSN]
  have h3 : BelowNext twoUpdatesState.logtail twoUpdatesState.se := by
    simp [BelowNext, twoUpdatesState, LogRecord.getLSN, initEngine]
  ⟨h1, h2, h3, (commit_contract twoUpdatesState 7 _ h1 h2 h3).1,
    (commit_contract twoUpdatesState 7 _ h1 h2 h3).2.2.1⟩

/-- Witness of `pageFlushed_contract`: page `1` has pageLSN `1`, so the first of the
two tail records is flushed and the second stays. -/
theorem pageFlushed_contract_witness :
    LsnAscending twoUpdatesState.logtail ∧
    (0 ≤ twoUpdatesState.se.getLSN 1 →
      (pageFlushed twoUpdatesState 1).se.log = twoUpdatesState.se.log ++
        twoUpdatesState.logtail.filter
          (fun r => decide (r.getLSN ≤ twoUpdatesState.se.getLSN 1)) ∧
      (pageFlushed twoUpdatesState 1).logtail = twoUpdatesState.logtail.filter
          (fun r => decide (twoUpdatesState.se.getLSN 1 < r.getLSN))) ∧
    mfind (pageFlushed twoUpdatesState 1).dirty_page_table 1 = none :=
  have h2 : LsnAscending twoUpdatesState.logtail := by
    simp [LsnAscending, twoUpdatesState, LogRecord.getLSN]
  ⟨h2, (pageFlushed_contract twoUpdatesState 1 h2).1,
    (pageFlushed_contract twoUpdatesState 1 h2).2.2.1⟩

/-! ## Facts about `analyze` and the master record -/

theorem analyze_frame (s s1 : State) (log : List LogRecord) (h : analyze s log = some s1) :
    s1.se = s.se ∧ s1.logtail = s.logtail := by
  unfold analyze at h
  by_cases hm : s.se.get_master ≠ NULL_LSN
  · rw [if_pos hm] at h
    cases log with
    | nil => exact absurd h (by simp)
    | cons a l =>
      dsimp only at h
      split at h
      · exact absurd h (by simp)
      · simp only [Option.some.injEq] at h
        subst h
        exact ⟨rfl, rfl⟩
  · rw [if_neg hm] at h
    simp only [Option.some.injEq] at h
    subst h
    exact ⟨rfl, rfl⟩

theorem analyze_noMaster (s : State) (log : List LogRecord) (h : s.se.master = NULL_LSN) :
    analyze s log = some { s with
      tx_table := (analyzeScan (s.tx_table, s.dirty_page_table) log).1,
      dirty_page_table := (analyzeScan (s.tx_table, s.dirty_page_table) log).2 } := by
  simp [analyze, StorageEngine.get_master, h]

theorem searchMaster_eq_zero (log : List LogRecord) (master : Int) (n : Nat)
    (h : ∀ i x, 1 ≤ i → i ≤ n → log[i]? = some x → x.getLSN ≠ master) :
    searchMaster log master n = 0 := by
  induction n with
  | zero => rfl
  | succ n ih =>
    have ih2 := ih (fun i x h1 h2 hx => h i x h1 (by omega) hx)
    unfold searchMaster
    cases hx : log[n + 1]? with
    | none => simpa using ih2
    | some r =>
      have := h (n + 1) r (by omega) (by omega) hx
      simp [this, ih2]

theorem dropToMaster_found (pre rest : List LogRecord) (r : LogRecord) (master : Int)
    (hr : r.getLSN = master) (hrest : ∀ x ∈ rest, x.getLSN ≠ master) (n : Nat)
    (h1 : pre.length + 1 ≤ n) (h2 : n ≤ (pre ++ r :: rest).length) :
    dropToMaster (pre ++ r :: rest) master n = r :: rest := by
  induction n with
  | zero => omega
  | succ n ih =>
    unfold dropToMaster
    by_cases hn : n = pre.length
    · subst hn
      have hget : (pre ++ r :: rest)[pre.length]? = some r := by
        rw [List.getElem?_append_right (le_refl _)]
        simp
      rw [hget]
      simp [hr]
    · obtain ⟨k, rfl⟩ : ∃ k, n = pre.length + 1 + k := ⟨n - pre.length - 1, by omega⟩
      have hn2 : pre.length + 1 + k < (pre ++ r :: rest).length := by omega
      have hget : (pre ++ r :: rest)[pre.length + 1 + k]? = rest[k]? := by
        rw [List.getElem?_append_right (by omega)]
        have : pre.length + 1 + k - pre.length = k + 1 := by omega
        rw [this, List.getElem?_cons_succ]
      cases hx : rest[k]? with
      | none =>
        simp only [List.length_append, List.length_cons] at hn2
        have := List.getElem?_eq_none_iff.mp hx
        omega
      | some x =>
        have hmem : x ∈ rest := List.getElem?_mem hx
        have hne := hrest x hmem
        rw [hget, hx]
        simp only [hne, if_false]
        exact ih (by omega) (by omega)

theorem dropToMaster_notFound (log : List LogRecord) (master : Int)
    (h : ∀ x ∈ log, x.getLSN ≠ master) (n : Nat) :
    dropToMaster log master n = log := by
  induction n with
  | zero => rfl
  | succ n ih =>
    unfold dropToMaster
    cases hx : log[n]? with
    | none => simpa using ih
    | some x =>
      have hne := h x (List.getElem?_mem hx)
      simp [hne, ih]

theorem analyze_atMaster (s : State) (r nxt : LogRecord) (post : List LogRecord)
    (hm : s.se.master ≠ NULL_LSN)
    (hrest : ∀ x ∈ nxt :: post, x.getLSN ≠ s.se.master) :
    analyze s (r :: nxt :: post) =
      some { s with
        tx_table := (analyzeScan (seedTables s nxt) (nxt :: post)).1,
        dirty_page_table := (analyzeScan (seedTables s nxt) (nxt :: post)).2 } := by
  have hs : searchMaster (r :: nxt :: post) s.se.master ((r :: nxt :: post).length - 1) = 0 := by
    apply searchMaster_eq_zero
    intro i x h1 _ hx
    obtain ⟨j, rfl⟩ : ∃ j, i = j + 1 := ⟨i - 1, by omega⟩
    rw [List.getElem?_cons_succ] at hx
    exact hrest x (List.getElem?_mem hx)
  unfold analyze
  simp only [StorageEngine.get_master, ne_eq, hm, not_false_eq_true, if_true, hs]
  simp

theorem flushLogTail_all (s : State) (L : Int) (hL : 0 ≤ L)
    (hall : ∀ r ∈ s.logtail, r.getLSN ≤ L) :
    (flushLogTail s L).se.log = s.se.log ++ s.logtail ∧
    (flushLogTail s L).logtail = [] ∧
    (flushLogTail s L).se.lsnCounter = s.se.lsnCounter ∧
    (flushLogTail s L).se.master = s.se.master ∧
    (flushLogTail s L).se.pages = s.se.pages ∧
    (flushLogTail s L).se.oracle = s.se.oracle ∧
    (flushLogTail s L).tx_table = s.tx_table ∧
    (flushLogTail s L).dirty_page_table = s.dirty_page_table := by
  have hL2 : L ≥ 0 := hL
  have htake : s.logtail.takeWhile (fun r => decide (r.getLSN ≤ L)) = s.logtail := by
    rw [List.takeWhile_eq_self_iff]
    intro r hr
    simpa using hall r hr
  have hdrop : s.logtail.dropWhile (fun r => decide (r.getLSN ≤ L)) = [] := by
    rw [List.dropWhile_eq_nil_iff]
    intro r hr
    simpa using hall r hr
  have hf := flushLoop_frame L s.logtail s.se
  simp only [flushLogTail, if_pos hL2, flushLoop_log, flushLoop_rest, htake, hdrop]
  exact ⟨trivial, trivial, hf.1, hf.2.1, hf.2.2.1, hf.2.2.2, trivial, trivial⟩

theorem checkpointAnalyze_defined (s0 : State) (h : MasterInLog s0) :
    ∃ s1, checkpointAnalyze s0 = some s1 ∧ s1.se = s0.se ∧ s1.logtail = s0.logtail := by
  have key : ∀ log, log = s0.se.log ++ s0.logtail →
      ∃ s1, analyze s0 (dropToMaster log s0.se.master log.length) = some s1 := by
    intro log hlog
    rcases h with h | ⟨pre, r, nxt, post, hdec, hr, hrest⟩
    · exact ⟨_, analyze_noMaster s0 _ h⟩
    · by_cases hm : s0.se.master = NULL_LSN
      · exact ⟨_, analyze_noMaster s0 _ hm⟩
      · rw [hlog, hdec, dropToMaster_found pre (nxt :: post) r _ hr hrest _ (by simp) (le_refl _)]
        exact ⟨_, analyze_atMaster s0 r nxt post hm hrest⟩
  have fin : ∀ log, (∃ s1, analyze s0 log = some s1) →
      ∃ s1, analyze s0 log = some s1 ∧ s1.se = s0.se ∧ s1.logtail = s0.logtail := by
    rintro log ⟨s1, hs1⟩
    exact ⟨s1, hs1, analyze_frame s0 s1 log hs1⟩
  unfold checkpointAnalyze
  cases htl : s0.logtail with
  | nil =>
    cases hd : s0.se.getLog with
    | nil => exact ⟨s0, rfl, rfl, htl⟩
    | cons a l =>
      have := fin _ (key (a :: l) (by rw [htl, List.append_nil]; exact hd.symm))
      simpa [StorageEngine.get_master, htl] using this
  | cons a l =>
    have := fin _ (key (s0.se.log ++ s0.logtail) rfl)
    simpa [StorageEngine.get_master, StorageEngine.getLog, htl] using this

/-! ## `checkpoint` where the master record is in the log -/

/-- The contract of `checkpoint()` where the master record is in the log: for every
state whose log tail has every LSN below the next minted one and whose master record
is NULL_LSN or is the LSN of a record of disk-log ++ tail whose last occurrence is
followed by another record, `checkpoint()` returns, mints
`B` and then `E = B + 1`, and on return the master record is `B`, the durable log is
the old durable log, then the old tail, then BEGIN_CKPT `{B, NULL_LSN, NULL_TX}`, then
END_CKPT `{E, prevLSN = B}` whose snapshot is the pair of tables held at return, and
the tail is empty. -/
theorem checkpoint_contract (s : State) (hbelow : BelowNext s.logtail s.se)
    (hmaster : MasterInLog s) :
    ∃ s1, checkpoint s = some s1 ∧
      s1.se.lsnCounter = s.se.lsnCounter + 2 ∧
      s1.se.master = (s.se.lsnCounter : Int) ∧
      s1.se.log = s.se.log ++ s.logtail ++
        [LogRecord.plain (s.se.lsnCounter : Int) NULL_LSN NULL_TX .BEGIN_CKPT,
         LogRecord.chkpt ((s.se.lsnCounter : Int) + 1) (s.se.lsnCounter : Int) NULL_TX
           s1.tx_table s1.dirty_page_table] ∧
      s1.logtail = [] := by
  have hm0 : MasterInLog { s with se := (s.se.nextLSN.2).nextLSN.2 } := hmaster
  obtain ⟨a, ha, hase, hatl⟩ := checkpointAnalyze_defined _ hm0
  have hE : (0 : Int) ≤ ((s.se.nextLSN.2).nextLSN.1) := by
    simp [StorageEngine.nextLSN]
    omega
  have hall : ∀ r ∈ a.logtail ++
      [LogRecord.plain (s.se.lsnCounter : Int) NULL_LSN NULL_TX .BEGIN_CKPT,
       LogRecord.chkpt ((s.se.lsnCounter : Int) + 1) (s.se.lsnCounter : Int) NULL_TX
         a.tx_table a.dirty_page_table], r.getLSN ≤ (s.se.lsnCounter : Int) + 1 := by
    intro r hr
    rcases List.mem_append.mp hr with h | h
    · rw [hatl] at h
      have := hbelow r h
      omega
    · simp only [List.mem_cons, List.mem_singleton, List.not_mem_nil, or_false] at h
      rcases h with h | h <;> subst h <;> simp [LogRecord.getLSN]
  have hfl := flushLogTail_all
    { a with se := a.se.store_master (s.se.lsnCounter : Int),
             logtail := a.logtail ++
      [LogRecord.plain (s.se.lsnCounter : Int) NULL_LSN NULL_TX .BEGIN_CKPT,
       LogRecord.chkpt ((s.se.lsnCounter : Int) + 1) (s.se.lsnCounter : Int) NULL_TX
         a.tx_table a.dirty_page_table] }
    ((s.se.lsnCounter : Int) + 1) (by omega) hall
  refine ⟨flushLogTail
    { a with se := a.se.store_master (s.se.lsnCounter : Int),
             logtail := a.logtail ++
      [LogRecord.plain (s.se.lsnCounter : Int) NULL_LSN NULL_TX .BEGIN_CKPT,
       LogRecord.chkpt ((s.se.lsnCounter : Int) + 1) (s.se.lsnCounter : Int) NULL_TX
         a.tx_table a.dirty_page_table] }
    ((s.se.lsnCounter : Int) + 1), ?_, ?_⟩
  · unfold checkpoint
    simp only [ha]
    simp [StorageEngine.nextLSN]
  · simp only [StorageEngine.nextLSN, Nat.cast_add, Nat.cast_one] at hfl ⊢
    obtain ⟨h1, h2, h3, h4, _, _, h7, h8⟩ := hfl
    refine ⟨?_, ?_, ?_, h2⟩
    · rw [h3]
      simp [StorageEngine.store_master, hase, StorageEngine.nextLSN]
    · rw [h4]
      simp [StorageEngine.store_master]
    · rw [h1, h7, h8]
      simp [StorageEngine.store_master, hase, hatl, StorageEngine.nextLSN]

/-- Witness of `checkpoint_contract` on a state whose master record names the
BEGIN_CKPT of an earlier checkpoint. -/
theorem checkpoint_contract_witness :
    BelowNext checkpointedState.logtail checkpointedState.se ∧
    MasterInLog checkpointedState ∧
    ∃ s1, checkpoint checkpointedState = some s1 ∧ s1.se.master = 5 ∧ s1.logtail = [] :=
  have h1 : BelowNext checkpointedState.logtail checkpointedState.se := by
    simp [BelowNext, checkpointedState, LogRecord.getLSN, initEngine]
  have h2 : MasterInLog checkpointedState :=
    Or.inr ⟨[LogRecord.update 1 NULL_LSN 7 1 0 " " "a"],
      LogRecord.plain 2 NULL_LSN NULL_TX .BEGIN_CKPT,
      LogRecord.chkpt 3 2 NULL_TX [(7, ⟨1, TxStatus.U⟩)] [(1, 1)],
      [LogRecord.update 4 1 7 1 1 " " "b"], rfl, rfl, by
        simp [checkpointedState, LogRecord.getLSN, initEngine]⟩
  ⟨h1, h2, (checkpoint_contract checkpointedState h1 h2).imp
    (fun _ h => ⟨h.1, h.2.2.1, h.2.2.2.2⟩)⟩

/-! ## C9: a refused page write in `undo` -/

/-- C9 (as stated it fails, see `undo_refused_mutates`; amended): if the storage engine
refuses the `pageWrite` issued while undoing an UPDATE record `r`, `undo` returns
immediately with the state reached at that point, whatever is left in `ToUndo`: no
END record is appended and `r`'s transaction is in the table; the CLR for `r` has
already been appended, so the log tail is the tail before `r` was processed followed
by that CLR, and the transaction's `lastLSN` is the LSN of that CLR; the other entries
of the transaction table, the dirty page table, the pages and the durable log are as
before `r` was processed. -/
theorem undo_refused_pageWrite (log : List LogRecord) (abort_one : Bool) (i : Nat)
    (top : Int) (rest : List Int) (tx_id : Int) (s : State)
    (lsn prevLSN txID pageID offset : Int) (beforeImage afterImage : String)
    (o : List Bool)
    (hrec : log[i]? = some (LogRecord.update lsn prevLSN txID pageID offset beforeImage afterImage))
    (htop : top = lsn) (horacle : s.se.oracle = false :: o) :
    ∃ s1 prev, undoLoop log abort_one (i + 1) (top :: rest) tx_id s = some s1 ∧
      s1.logtail = s.logtail ++
        [LogRecord.clr (s.se.lsnCounter : Int) prev txID pageID offset beforeImage prevLSN] ∧
      (∃ e, mfind s1.tx_table txID = some e ∧ e.lastLSN = (s.se.lsnCounter : Int)) ∧
      (∀ t, t ≠ txID → mfind s1.tx_table t = mfind s.tx_table t) ∧
      s1.dirty_page_table = s.dirty_page_table ∧
      s1.se.pages = s.se.pages ∧ s1.se.log = s.se.log ∧ s1.se.oracle = o := by
  have hw : ∀ e : StorageEngine, e.oracle = false :: o →
      (e.pageWrite pageID offset beforeImage lsn).1 = false ∧
      (e.pageWrite pageID offset beforeImage lsn).2.pages = e.pages ∧
      (e.pageWrite pageID offset beforeImage lsn).2.log = e.log ∧
      (e.pageWrite pageID offset beforeImage lsn).2.oracle = o := by
    intro e he
    simp [StorageEngine.pageWrite, he]
  have hw2 := hw s.se.nextLSN.2 horacle
  refine ⟨(undoCompensate log abort_one s lsn prevLSN txID pageID offset beforeImage).2, _,
    ?_, rfl, ?_, ?_, rfl, hw2.2.1, hw2.2.2.1, hw2.2.2.2⟩
  · rw [undoLoop, hrec]
    have : (undoCompensate log abort_one s lsn prevLSN txID pageID offset beforeImage).1
        = false := hw2.1
    simp [LogRecord.getLSN, htop, undoRecord, this]
  · exact ⟨_, mfind_tableSetLastLSN_self _ _ _, rfl⟩
  · intro t ht
    exact mfind_tableSetLastLSN_ne _ _ _ _ ht

/-- Witness of `undo_refused_pageWrite` on the state in which `abort(1)` enters
`undo` with an engine that refuses the page write. -/
theorem undo_refused_pageWrite_witness :
    ∃ s1 prev, undoLoop refusedUndoState.logtail true 1 [1] NULL_TX refusedUndoState = some s1 ∧
      s1.logtail = refusedUndoState.logtail ++ [LogRecord.clr 3 prev 1 1 0 "  " NULL_LSN] ∧
      (∃ e, mfind s1.tx_table 1 = some e ∧ e.lastLSN = 3) :=
  (undo_refused_pageWrite refusedUndoState.logtail true 0 1 [] NULL_TX refusedUndoState
    1 NULL_LSN 1 1 0 "  " "ab" [] rfl rfl rfl).imp
    (fun _ h => h.imp (fun _ h2 => ⟨h2.1, h2.2.1, h2.2.2.1⟩))

/-- C9, counterexample: `undo` for transaction `1` on the state `refusedUndoState`,
whose engine refuses the only page write.  The call returns with the CLR in the tail
and with `lastLSN = 3`, the LSN of the CLR, where both were different (tail without
the CLR, `lastLSN = 2`) immediately before the UPDATE record was processed. -/
theorem undo_refused_mutates :
    ∃ s1, undo refusedUndoState (refusedUndoState.se.log ++ refusedUndoState.logtail) 1 = some s1 ∧
      s1.se.calls = [EngineCall.pageWrite 1 0 "  " 1] ∧
      refusedUndoState.se.oracle = [false] ∧ s1.se.oracle = [] ∧
      s1.logtail = refusedUndoState.logtail ++ [LogRecord.clr 3 2 1 1 0 "  " NULL_LSN] ∧
      s1.logtail ≠ refusedUndoState.logtail ∧
      getLastLSN refusedUndoState 1 = 2 ∧ getLastLSN s1 1 = 3 ∧
      getLastLSN s1 1 ≠ getLastLSN refusedUndoState 1 :=
  ⟨_, rfl, rfl, rfl, rfl, rfl, by decide, rfl, rfl, by decide⟩

/-! ## The invariant of the runs -/

theorem flushLogTail_allLog (s : State) (L : Int) : AllLog (flushLogTail s L) = AllLog s := by
  unfold flushLogTail AllLog
  split
  · simp only [flushLoop_log, flushLoop_rest, List.append_assoc, List.takeWhile_append_dropWhile]
  · rfl

theorem flushLogTail_frame (s : State) (L : Int) :
    (flushLogTail s L).tx_table = s.tx_table ∧
    (flushLogTail s L).dirty_page_table = s.dirty_page_table ∧
    (flushLogTail s L).se.lsnCounter = s.se.lsnCounter ∧
    (flushLogTail s L).se.master = s.se.master ∧
    (flushLogTail s L).se.pages = s.se.pages ∧
    (flushLogTail s L).se.oracle = s.se.oracle := by
  unfold flushLogTail
  split
  · have hf := flushLoop_frame L s.logtail s.se
    exact ⟨rfl, rfl, hf.1, hf.2.1, hf.2.2.1, hf.2.2.2⟩
  · exact ⟨rfl, rfl, rfl, rfl, rfl, rfl⟩

theorem lsnStrict_append (L rs : List LogRecord) (c : Int) (h1 : LsnStrict L)
    (h2 : ∀ r ∈ L, r.getLSN < c) (h3 : LsnStrict rs) (h4 : ∀ r ∈ rs, c ≤ r.getLSN) :
    LsnStrict (L ++ rs) := by
  unfold LsnStrict at *
  rw [List.pairwise_append]
  refine ⟨h1, h3, ?_⟩
  intro a ha b hb
  have := h2 a ha
  have := h4 b hb
  omega

theorem isMax_append_left (t l : Int) (L rs : List LogRecord) (c : Int)
    (h : IsMaxLSNOf t l rs) (h2 : ∀ r ∈ L, r.getLSN < c) (h4 : ∀ r ∈ rs, c ≤ r.getLSN) :
    IsMaxLSNOf t l (L ++ rs) := by
  obtain ⟨⟨r, hr, hrt, hrl⟩, hmax⟩ := h
  refine ⟨⟨r, List.mem_append_right _ hr, hrt, hrl⟩, ?_⟩
  intro x hx hxt
  rcases List.mem_append.mp hx with hx | hx
  · have := h2 x hx
    have := h4 r hr
    omega
  · exact hmax x hx hxt

theorem isMax_append_right (t l : Int) (L rs : List LogRecord)
    (h : IsMaxLSNOf t l L) (h2 : ∀ r ∈ rs, r.getTxID ≠ t) :
    IsMaxLSNOf t l (L ++ rs) := by
  obtain ⟨⟨r, hr, hrt, hrl⟩, hmax⟩ := h
  refine ⟨⟨r, List.mem_append_left _ hr, hrt, hrl⟩, ?_⟩
  intro x hx hxt
  rcases List.mem_append.mp hx with hx | hx
  · exact hmax x hx hxt
  · exact absurd hxt (h2 x hx)

theorem tableMax_append (tab tab1 : TxTable) (L rs : List LogRecord) (c : Int)
    (h : TableMax tab L) (h2 : ∀ r ∈ L, r.getLSN < c) (h4 : ∀ r ∈ rs, c ≤ r.getLSN)
    (htab : ∀ t e, mfind tab1 t = some e → t ≠ NULL_TX →
      IsMaxLSNOf t e.lastLSN rs ∨
      ((∀ r ∈ rs, r.getTxID ≠ t) ∧ ∃ e0, mfind tab t = some e0 ∧ e0.lastLSN = e.lastLSN)) :
    TableMax tab1 (L ++ rs) := by
  intro t e hte htn
  rcases htab t e hte htn with h1 | ⟨h1, e0, he0, hl⟩
  · exact isMax_append_left t _ L rs c h1 h2 h4
  · rw [← hl]
    exact isMax_append_right t _ L rs (h t e0 he0 htn) h1

theorem inv_append (s s1 : State) (rs : List LogRecord) (h : Inv s)
    (hlog : AllLog s1 = AllLog s ++ rs)
    (hstrict : LsnStrict rs)
    (hlo : ∀ r ∈ rs, (s.se.lsnCounter : Int) ≤ r.getLSN ∧ r.getLSN < (s1.se.lsnCounter : Int))
    (hc : s.se.lsnCounter ≤ s1.se.lsnCounter)
    (hsys : ∀ r ∈ rs, r.isCkpt = true → r.getTxID = NULL_TX)
    (hm : s1.se.master = s.se.master)
    (htab : ∀ t e, mfind s1.tx_table t = some e → t ≠ NULL_TX →
      IsMaxLSNOf t e.lastLSN rs ∨
      ((∀ r ∈ rs, r.getTxID ≠ t) ∧ ∃ e0, mfind s.tx_table t = some e0 ∧
        e0.lastLSN = e.lastLSN)) :
    Inv s1 := by
  have hb : ∀ r ∈ AllLog s, r.getLSN < (s.se.lsnCounter : Int) := fun r hr => (h.bounds r hr).2
  refine ⟨?_, ?_, ?_, ?_, ?_⟩
  · rw [hlog]
    exact lsnStrict_append _ _ _ h.strict hb hstrict (fun r hr => (hlo r hr).1)
  · rw [hlog]
    intro r hr
    rcases List.mem_append.mp hr with hr | hr
    · have := h.bounds r hr
      have : (s.se.lsnCounter : Int) ≤ (s1.se.lsnCounter : Int) := by exact_mod_cast hc
      omega
    · have := hlo r hr
      have : (0 : Int) ≤ (s.se.lsnCounter : Int) := by positivity
      omega
  · rw [hlog]
    intro r hr
    rcases List.mem_append.mp hr with hr | hr
    · exact h.sysrec r hr
    · exact hsys r hr
  · rw [hlog]
    exact tableMax_append _ _ _ _ _ h.table hb (fun r hr => (hlo r hr).1) htab
  · rw [hm, hlog]
    rcases h.master with hmm | ⟨pre, E, tt, dpt, post, hdec, hpre⟩
    · exact Or.inl hmm
    · exact Or.inr ⟨pre, E, tt, dpt, post ++ rs, by rw [hdec]; simp, hpre⟩

theorem inv_same (s s1 : State) (h : Inv s) (hlog : AllLog s1 = AllLog s)
    (hc : s.se.lsnCounter ≤ s1.se.lsnCounter) (hm : s1.se.master = s.se.master)
    (htab : s1.tx_table = s.tx_table) : Inv s1 := by
  refine inv_append s s1 [] h (by simp [hlog]) (by simp [LsnStrict]) (by simp) hc (by simp) hm ?_
  intro t e hte _
  rw [htab] at hte
  exact Or.inr ⟨by simp, e, hte, rfl⟩

theorem inv_flushLogTail (s : State) (L : Int) (h : Inv s) : Inv (flushLogTail s L) := by
  have hf := flushLogTail_frame s L
  exact inv_same s _ h (flushLogTail_allLog s L) (by rw [hf.2.2.1]) hf.2.2.2.1 hf.1

theorem isMax_singleton (r : LogRecord) : IsMaxLSNOf r.getTxID r.getLSN [r] := by
  refine ⟨⟨r, by simp, rfl, rfl⟩, ?_⟩
  intro x hx _
  simp only [List.mem_singleton] at hx
  rw [hx]

theorem write_logtail (s : State) (txID pageID offset : Int) (nb ob : String) :
    (write s txID pageID offset nb ob).1.logtail = s.logtail ++
      [LogRecord.update (s.se.lsnCounter : Int) (getLastLSN s txID) txID pageID offset ob nb] := by
  simp only [write, getLastLSN, StorageEngine.nextLSN]

theorem write_tx_self (s : State) (txID pageID offset : Int) (nb ob : String) :
    mfind (write s txID pageID offset nb ob).1.tx_table txID =
      some ⟨(s.se.lsnCounter : Int), TxStatus.U⟩ := by
  simp only [write, StorageEngine.nextLSN]
  rw [mfind_tableSetStatus_self, mfind_tableSetLastLSN_self]
  rfl

theorem write_tx_other (s : State) (txID pageID offset : Int) (nb ob : String) (t : Int)
    (ht : t ≠ txID) :
    mfind (write s txID pageID offset nb ob).1.tx_table t = mfind s.tx_table t := by
  simp only [write]
  rw [mfind_tableSetStatus_ne _ _ _ _ ht, mfind_tableSetLastLSN_ne _ _ _ _ ht]

theorem inv_write (s : State) (txID pageID offset : Int) (nb ob : String) (h : Inv s) :
    Inv (write s txID pageID offset nb ob).1 := by
  have hse : (write s txID pageID offset nb ob).1.se = s.se.nextLSN.2 := rfl
  have htl := write_logtail s txID pageID offset nb ob
  refine inv_append s _ [LogRecord.update (s.se.lsnCounter : Int) (getLastLSN s txID) txID pageID
    offset ob nb] h ?_ (by simp [LsnStrict]) ?_ ?_ (by simp [LogRecord.isCkpt, LogRecord.getType])
    ?_ ?_
  · simp [AllLog, htl, hse, StorageEngine.nextLSN]
  · simp [hse, StorageEngine.nextLSN, LogRecord.getLSN]
  · simp [hse, StorageEngine.nextLSN]
  · simp [hse, StorageEngine.nextLSN]
  · intro t e hte _
    by_cases ht : t = txID
    · subst ht
      rw [write_tx_self] at hte
      simp only [Option.some.injEq] at hte
      subst hte
      exact Or.inl (isMax_singleton (LogRecord.update (s.se.lsnCounter : Int) (getLastLSN s t) t
        pageID offset ob nb))
    · rw [write_tx_other _ _ _ _ _ _ t ht] at hte
      exact Or.inr ⟨by simpa [LogRecord.getTxID] using fun h => ht h.symm, e, hte, rfl⟩

theorem commit_fields (s : State) (txid : Int) (e : txTableEntry)
    (hin : mfind s.tx_table txid = some e) :
    AllLog (commit s txid) = AllLog s ++
      [LogRecord.plain (s.se.lsnCounter : Int) e.lastLSN txid .COMMIT,
       LogRecord.plain ((s.se.lsnCounter : Int) + 1) (s.se.lsnCounter : Int) txid .END] ∧
    (commit s txid).se.lsnCounter = s.se.lsnCounter + 2 ∧
    (commit s txid).se.master = s.se.master ∧
    (commit s txid).tx_table = merase s.tx_table txid ∧
    (commit s txid).dirty_page_table = s.dirty_page_table := by
  have hal := flushLogTail_allLog
    { s with se := s.se.nextLSN.2,
             logtail := s.logtail ++ [LogRecord.plain s.se.nextLSN.1 e.lastLSN txid .COMMIT] }
    s.se.nextLSN.1
  have hf := flushLogTail_frame
    { s with se := s.se.nextLSN.2,
             logtail := s.logtail ++ [LogRecord.plain s.se.nextLSN.1 e.lastLSN txid .COMMIT] }
    s.se.nextLSN.1
  obtain ⟨h1, h2, h3, h4, -, -⟩ := hf
  simp only [commit, hin, AllLog, StorageEngine.nextLSN] at hal h1 h2 h3 h4 ⊢
  refine ⟨?_, ?_, ?_, ?_, ?_⟩
  · rw [← List.append_assoc, hal, h3]
    simp
  · rw [h3]
  · rw [h4]
  · rw [h1]
  · rw [h2]

theorem commit_absent (s : State) (txid : Int) (hin : mfind s.tx_table txid = none) :
    commit s txid = s := by
  simp only [commit, hin]

theorem inv_commit (s : State) (txid : Int) (h : Inv s) : Inv (commit s txid) := by
  cases hin : mfind s.tx_table txid with
  | none => rw [commit_absent s txid hin]; exact h
  | some e =>
    obtain ⟨h1, h2, h3, h4, -⟩ := commit_fields s txid e hin
    refine inv_append s _ _ h h1 ?_ ?_ (by omega) ?_ h3 ?_
    · simp [LsnStrict, LogRecord.getLSN]
    · intro r hr
      simp only [List.mem_cons, List.mem_singleton, List.not_mem_nil, or_false] at hr
      rcases hr with hr | hr <;> subst hr <;> simp [LogRecord.getLSN, h2]
    · intro r hr
      simp only [List.mem_cons, List.mem_singleton, List.not_mem_nil, or_false] at hr
      rcases hr with hr | hr <;> subst hr <;>
        simp [LogRecord.isCkpt, LogRecord.getType, HeaderType.toTxType]
    · intro t e1 hte _
      rw [h4] at hte
      by_cases ht : t = txid
      · subst ht
        rw [mfind_merase_self] at hte
        exact absurd hte (by simp)
      · rw [mfind_merase_ne _ _ _ ht] at hte
        refine Or.inr ⟨?_, e1, hte, rfl⟩
        intro r hr
        simp only [List.mem_cons, List.mem_singleton, List.not_mem_nil, or_false] at hr
        rcases hr with hr | hr <;> subst hr <;> simpa [LogRecord.getTxID] using fun h => ht h.symm

theorem inv_pageFlushed (s : State) (p : Int) (h : Inv s) : Inv (pageFlushed s p) := by
  have hi := inv_flushLogTail s (s.se.getLSN p) h
  exact inv_same _ _ hi rfl (le_refl _) rfl rfl

/-! ### The loop of `undo` -/

theorem pageWrite_frame (e : StorageEngine) (pageID offset : Int) (bytes : String) (lsn : Int) :
    (e.pageWrite pageID offset bytes lsn).2.lsnCounter = e.lsnCounter ∧
    (e.pageWrite pageID offset bytes lsn).2.log = e.log ∧
    (e.pageWrite pageID offset bytes lsn).2.master = e.master := by
  unfold StorageEngine.pageWrite
  split <;> exact ⟨rfl, rfl, rfl⟩

theorem undoRecord_preserves (log : List LogRecord) (abort_one : Bool) (I : State → Prop)
    (hc : ∀ s lsn prevLSN txID pageID offset beforeImage, I s →
      I (undoCompensate log abort_one s lsn prevLSN txID pageID offset beforeImage).2)
    (he : ∀ s prev tx, I s → I (undoEnd s prev tx))
    (r : LogRecord) (tx_id : Int) (s : State) (res : Bool × Int × State) (hI : I s)
    (h : undoRecord log abort_one r tx_id s = some res) : I res.2.2 := by
  cases r with
  | plain l p t ty => simp [undoRecord] at h
  | chkpt l p t tt dpt => simp [undoRecord] at h
  | update lsn prevLSN txID pageID offset beforeImage afterImage =>
    have hcI := hc s lsn prevLSN txID pageID offset beforeImage hI
    simp only [undoRecord] at h
    split at h
    · split at h
      · simp only [Option.some.injEq] at h
        exact h ▸ he _ _ _ hcI
      · simp only [Option.some.injEq] at h
        exact h ▸ hcI
    · simp only [Option.some.injEq] at h
      exact h ▸ hcI
  | clr lsn p t pageID offset afterImage undoNextLSN =>
    simp only [undoRecord] at h
    split at h
    · simp only [Option.some.injEq] at h
      exact h ▸ he _ _ _ hI
    · simp only [Option.some.injEq] at h
      exact h ▸ hI

theorem undoLoop_preserves (log : List LogRecord) (abort_one : Bool) (I : State → Prop)
    (hc : ∀ s lsn prevLSN txID pageID offset beforeImage, I s →
      I (undoCompensate log abort_one s lsn prevLSN txID pageID offset beforeImage).2)
    (he : ∀ s prev tx, I s → I (undoEnd s prev tx)) :
    ∀ (n : Nat) (heap : List Int) (tx_id : Int) (s s1 : State), I s →
      undoLoop log abort_one n heap tx_id s = some s1 → I s1 := by
  intro n
  induction n with
  | zero =>
    intro heap tx_id s s1 hI hrun
    cases heap with
    | nil =>
      simp only [undoLoop, Option.some.injEq] at hrun
      exact hrun ▸ hI
    | cons top rest => simp [undoLoop] at hrun
  | succ i ih =>
    intro heap tx_id s s1 hI hrun
    cases heap with
    | nil =>
      simp only [undoLoop, Option.some.injEq] at hrun
      exact hrun ▸ hI
    | cons top rest =>
      rw [undoLoop] at hrun
      cases hrec : log[i]? with
      | none => simp [hrec] at hrun
      | some r =>
        simp only [hrec] at hrun
        by_cases htop : top = r.getLSN
        · simp only [htop, if_true] at hrun
          cases hres : undoRecord log abort_one r tx_id s with
          | none => simp [hres] at hrun
          | some res =>
            obtain ⟨stop, tx1, s2⟩ := res
            have hI2 : I s2 := undoRecord_preserves log abort_one I hc he r tx_id s _ hI hres
            cases stop with
            | true =>
              simp only [hres, Option.some.injEq] at hrun
              exact hrun ▸ hI2
            | false =>
              simp only [hres] at hrun
              exact ih _ _ _ _ hI2 hrun
        · simp only [htop, if_false] at hrun
          exact ih _ _ _ _ hI hrun

theorem undoCompensate_fields (log : List LogRecord) (abort_one : Bool) (s : State)
    (lsn prevLSN txID pageID offset : Int) (beforeImage : String) :
    ∃ prev,
      (undoCompensate log abort_one s lsn prevLSN txID pageID offset beforeImage).2.logtail =
        s.logtail ++ [LogRecord.clr (s.se.lsnCounter : Int) prev txID pageID offset
          beforeImage prevLSN] ∧
      (undoCompensate log abort_one s lsn prevLSN txID pageID offset beforeImage).2.tx_table =
        tableSetLastLSN s.tx_table txID (s.se.lsnCounter : Int) ∧
      (undoCompensate log abort_one s lsn prevLSN txID pageID offset beforeImage).2.dirty_page_table
        = s.dirty_page_table ∧
      (undoCompensate log abort_one s lsn prevLSN txID pageID offset beforeImage).2.se.log
        = s.se.log ∧
      (undoCompensate log abort_one s lsn prevLSN txID pageID offset beforeImage).2.se.lsnCounter
        = s.se.lsnCounter + 1 ∧
      (undoCompensate log abort_one s lsn prevLSN txID pageID offset beforeImage).2.se.master
        = s.se.master := by
  have hw := pageWrite_frame s.se.nextLSN.2 pageID offset beforeImage lsn
  exact ⟨_, rfl, rfl, rfl, hw.2.1, hw.1, hw.2.2⟩

theorem inv_undoCompensate (log : List LogRecord) (abort_one : Bool) (s : State)
    (lsn prevLSN txID pageID offset : Int) (beforeImage : String) (h : Inv s) :
    Inv (undoCompensate log abort_one s lsn prevLSN txID pageID offset beforeImage).2 := by
  obtain ⟨prev, h1, h2, -, h4, h5, h6⟩ :=
    undoCompensate_fields log abort_one s lsn prevLSN txID pageID offset beforeImage
  refine inv_append s _ [LogRecord.clr (s.se.lsnCounter : Int) prev txID pageID offset
    beforeImage prevLSN] h ?_ (by simp [LsnStrict]) ?_ (by omega)
    (by simp [LogRecord.isCkpt, LogRecord.getType]) h6 ?_
  · simp only [AllLog, h1, h4, List.append_assoc]
  · simp [LogRecord.getLSN, h5]
  · intro t e hte _
    rw [h2] at hte
    by_cases ht : t = txID
    · subst ht
      rw [mfind_tableSetLastLSN_self] at hte
      simp only [Option.some.injEq] at hte
      subst hte
      exact Or.inl (isMax_singleton (LogRecord.clr (s.se.lsnCounter : Int) prev t pageID offset
        beforeImage prevLSN))
    · rw [mfind_tableSetLastLSN_ne _ _ _ _ ht] at hte
      exact Or.inr ⟨by simpa [LogRecord.getTxID] using fun h => ht h.symm, e, hte, rfl⟩

theorem inv_undoEnd (s : State) (prev tx : Int) (h : Inv s) : Inv (undoEnd s prev tx) := by
  refine inv_append s _ [LogRecord.plain (s.se.lsnCounter : Int) prev tx .END] h ?_
    (by simp [LsnStrict]) ?_ ?_ (by simp [LogRecord.isCkpt, LogRecord.getType, HeaderType.toTxType])
    rfl ?_
  · simp [AllLog, undoEnd, StorageEngine.nextLSN]
  · simp [LogRecord.getLSN, undoEnd, StorageEngine.nextLSN]
  · simp [undoEnd, StorageEngine.nextLSN]
  · intro t e hte _
    by_cases ht : t = tx
    · subst ht
      simp only [undoEnd] at hte
      rw [mfind_merase_self] at hte
      exact absurd hte (by simp)
    · simp only [undoEnd] at hte
      rw [mfind_merase_ne _ _ _ ht] at hte
      exact Or.inr ⟨by simpa [LogRecord.getTxID] using fun h => ht h.symm, e, hte, rfl⟩

theorem undo_preserves (I : State → Prop)
    (hc : ∀ log abort_one s lsn prevLSN txID pageID offset beforeImage, I s →
      I (undoCompensate log abort_one s lsn prevLSN txID pageID offset beforeImage).2)
    (he : ∀ s prev tx, I s → I (undoEnd s prev tx))
    (s s1 : State) (log : List LogRecord) (txnum : Int) (hI : I s)
    (h : undo s log txnum = some s1) : I s1 := by
  unfold undo at h
  split at h
  · simp only [Option.some.injEq] at h
    exact h ▸ hI
  · split at h
    · exact undoLoop_preserves log false I (hc log false) he _ _ _ _ _ hI h
    · split at h
      · exact undoLoop_preserves log true I (hc log true) he _ _ _ _ _ hI h
      · simp only [Option.some.injEq] at h
        exact h ▸ hI

theorem inv_undo (s s1 : State) (log : List LogRecord) (txnum : Int) (hI : Inv s)
    (h : undo s log txnum = some s1) : Inv s1 :=
  undo_preserves Inv (fun log ab s lsn prevLSN txID pageID offset b hs =>
    inv_undoCompensate log ab s lsn prevLSN txID pageID offset b hs)
    (fun s prev tx hs => inv_undoEnd s prev tx hs) s s1 log txnum hI h

theorem inv_abortRecord (s : State) (txid pl : Int) (h : Inv s) :
    Inv (abortRecord s txid pl) := by
  refine inv_append s _ [LogRecord.plain (s.se.lsnCounter : Int) pl txid .ABORT] h ?_
    (by simp [LsnStrict]) ?_ ?_ (by simp [LogRecord.isCkpt, LogRecord.getType, HeaderType.toTxType])
    rfl ?_
  · simp [AllLog, abortRecord, setLastLSN, StorageEngine.nextLSN]
  · simp [LogRecord.getLSN, abortRecord, setLastLSN, StorageEngine.nextLSN]
  · simp [abortRecord, setLastLSN, StorageEngine.nextLSN]
  · intro t e hte _
    simp only [abortRecord, setLastLSN, StorageEngine.nextLSN] at hte
    by_cases ht : t = txid
    · subst ht
      rw [mfind_tableSetLastLSN_self] at hte
      simp only [Option.some.injEq] at hte
      subst hte
      exact Or.inl (isMax_singleton (LogRecord.plain (s.se.lsnCounter : Int) pl t .ABORT))
    · rw [mfind_tableSetLastLSN_ne _ _ _ _ ht] at hte
      exact Or.inr ⟨by simpa [LogRecord.getTxID] using fun h => ht h.symm, e, hte, rfl⟩

theorem inv_abort (s s1 : State) (txid : Int) (hI : Inv s) (h : abort s txid = some s1) :
    Inv s1 := by
  unfold abort at h
  cases hin : mfind s.tx_table txid with
  | none =>
    simp only [hin, Option.some.injEq] at h
    exact h ▸ hI
  | some e =>
    simp only [hin] at h
    exact inv_undo _ s1 _ txid (inv_abortRecord s txid e.lastLSN hI) h

/-! ### `analyze` inside `checkpoint` -/

theorem analyzeStep_tx (tabs : TxTable × DirtyPageTable) (r : LogRecord) (t : Int)
    (e : txTableEntry) (h : mfind (analyzeStep tabs r).1 t = some e) :
    (t = r.getTxID ∧ e.lastLSN = r.getLSN) ∨
    (mfind tabs.1 t = some e ∧ (t ≠ r.getTxID ∨ r.isCkpt = true)) := by
  have hset : ∀ (tab : TxTable) (st : TxStatus),
      mfind (tableSetStatus (tableSetLastLSN tab r.getTxID r.getLSN) r.getTxID st) t = some e →
      (t = r.getTxID ∧ e.lastLSN = r.getLSN) ∨ (mfind tab t = some e ∧ t ≠ r.getTxID) := by
    intro tab st h
    by_cases ht : t = r.getTxID
    · subst ht
      rw [mfind_tableSetStatus_self, mfind_tableSetLastLSN_self] at h
      simp only [Option.getD_some, Option.some.injEq] at h
      subst h
      exact Or.inl ⟨rfl, rfl⟩
    · rw [mfind_tableSetStatus_ne _ _ _ _ ht, mfind_tableSetLastLSN_ne _ _ _ _ ht] at h
      exact Or.inr ⟨h, ht⟩
  have hset2 : ∀ (tab : TxTable) (st : TxStatus),
      mfind (tableSetLastLSN (tableSetStatus tab r.getTxID st) r.getTxID r.getLSN) t = some e →
      (t = r.getTxID ∧ e.lastLSN = r.getLSN) ∨ (mfind tab t = some e ∧ t ≠ r.getTxID) := by
    intro tab st h
    by_cases ht : t = r.getTxID
    · subst ht
      rw [mfind_tableSetLastLSN_self] at h
      simp only [Option.some.injEq] at h
      subst h
      exact Or.inl ⟨rfl, rfl⟩
    · rw [mfind_tableSetLastLSN_ne _ _ _ _ ht, mfind_tableSetStatus_ne _ _ _ _ ht] at h
      exact Or.inr ⟨h, ht⟩
  cases r with
  | plain l p tx ty =>
    cases ty with
    | COMMIT =>
      rcases hset2 tabs.1 TxStatus.C h with h1 | h1
      · exact Or.inl h1
      · exact Or.inr ⟨h1.1, Or.inl h1.2⟩
    | ABORT =>
      rcases hset tabs.1 TxStatus.U h with h1 | h1
      · exact Or.inl h1
      · exact Or.inr ⟨h1.1, Or.inl h1.2⟩
    | END =>
      simp only [analyzeStep] at h
      by_cases ht : t = tx
      · subst ht
        simp only [LogRecord.getTxID] at h
        rw [mfind_merase_self] at h
        exact absurd h (by simp)
      · simp only [LogRecord.getTxID] at h
        rw [mfind_merase_ne _ _ _ ht] at h
        exact Or.inr ⟨h, Or.inl ht⟩
    | BEGIN_CKPT =>
      exact Or.inr ⟨h, Or.inr (by simp [LogRecord.isCkpt, LogRecord.getType, HeaderType.toTxType])⟩
  | update l p tx pg off b a =>
    rcases hset tabs.1 TxStatus.U h with h1 | h1
    · exact Or.inl h1
    · exact Or.inr ⟨h1.1, Or.inl h1.2⟩
  | clr l p tx pg off a u =>
    rcases hset tabs.1 TxStatus.U h with h1 | h1
    · exact Or.inl h1
    · exact Or.inr ⟨h1.1, Or.inl h1.2⟩
  | chkpt l p tx tt dpt =>
    exact Or.inr ⟨h, Or.inr (by simp [LogRecord.isCkpt, LogRecord.getType])⟩

theorem scanInv_step (tab0 : TxTable) (tabs : TxTable × DirtyPageTable)
    (done : List LogRecord) (r : LogRecord) (h : ScanInv tab0 tabs.1 done)
    (hlt : ∀ x ∈ done, x.getLSN < r.getLSN) (hsys : r.isCkpt = true → r.getTxID = NULL_TX) :
    ScanInv tab0 (analyzeStep tabs r).1 (done ++ [r]) := by
  intro t e hte htn
  rcases analyzeStep_tx tabs r t e hte with ⟨h1, h2⟩ | ⟨h1, h2⟩
  · left
    rw [h1, h2]
    exact isMax_append_left _ _ done [r] r.getLSN (isMax_singleton r) hlt (by simp)
  · have hne : r.getTxID ≠ t := by
      rcases h2 with h2 | h2
      · exact fun h => h2 h.symm
      · rw [hsys h2]
        exact fun h => htn h.symm
    rcases h t e h1 htn with h3 | ⟨h3, h4⟩
    · left
      exact isMax_append_right t _ done [r] h3 (by simpa using hne)
    · right
      refine ⟨?_, h4⟩
      intro x hx
      rcases List.mem_append.mp hx with hx | hx
      · exact h3 x hx
      · simp only [List.mem_singleton] at hx
        rw [hx]
        exact hne

theorem scanInv_scan (tab0 : TxTable) (recs : List LogRecord) :
    ∀ (tabs : TxTable × DirtyPageTable) (done : List LogRecord),
      ScanInv tab0 tabs.1 done → LsnStrict (done ++ recs) →
      (∀ r ∈ recs, r.isCkpt = true → r.getTxID = NULL_TX) →
      ScanInv tab0 (analyzeScan tabs recs).1 (done ++ recs) := by
  induction recs with
  | nil =>
    intro tabs done h _ _
    simpa [analyzeScan] using h
  | cons r rs ih =>
    intro tabs done h hs hsys
    have hs2 : LsnStrict ((done ++ [r]) ++ rs) := by simpa using hs
    have hlt : ∀ x ∈ done, x.getLSN < r.getLSN := by
      intro x hx
      have := (List.pairwise_append.mp hs).2.2 x hx r (by simp)
      exact this
    have := ih (analyzeStep tabs r) (done ++ [r])
      (scanInv_step tab0 tabs done r h hlt (hsys r (by simp))) hs2
      (fun x hx => hsys x (List.mem_cons_of_mem _ hx))
    simpa [analyzeScan] using this

theorem scanInv_start (tab0 : TxTable) : ScanInv tab0 tab0 [] := by
  intro t e hte _
  exact Or.inr ⟨by simp, e, hte, rfl⟩

theorem analyze_tableMax (s0 s1 : State) (L : List LogRecord)
    (hstrict : LsnStrict L) (hnn : ∀ r ∈ L, 0 ≤ r.getLSN)
    (hsys : ∀ r ∈ L, r.isCkpt = true → r.getTxID = NULL_TX)
    (htab : TableMax s0.tx_table L)
    (hmaster : s0.se.master = NULL_LSN ∨
      ∃ pre E tt dpt post,
        L = pre ++ LogRecord.plain s0.se.master NULL_LSN NULL_TX .BEGIN_CKPT ::
          LogRecord.chkpt E s0.se.master NULL_TX tt dpt :: post ∧
        TableMax tt pre)
    (h : analyze s0 (dropToMaster L s0.se.master L.length) = some s1) :
    TableMax s1.tx_table L := by
  by_cases hm : s0.se.master = NULL_LSN
  · have hnf : ∀ x ∈ L, x.getLSN ≠ s0.se.master := by
      intro x hx
      have := hnn x hx
      rw [hm]
      simp only [NULL_LSN]
      omega
    rw [dropToMaster_notFound L _ hnf, analyze_noMaster s0 L hm] at h
    simp only [Option.some.injEq] at h
    subst h
    have hscan := scanInv_scan s0.tx_table L (s0.tx_table, s0.dirty_page_table) []
      (scanInv_start _) (by simpa using hstrict) hsys
    intro t e hte htn
    rcases hscan t e hte htn with h1 | ⟨h1, e0, he0, -⟩
    · simpa using h1
    · obtain ⟨⟨r, hr, hrt, -⟩, -⟩ := htab t e0 he0 htn
      exact absurd hrt (h1 r (by simpa using hr))
  · rcases hmaster with hmm | ⟨pre, E, tt, dpt, post, hdec, hpre⟩
    · exact absurd hmm hm
    · have hs2 := hstrict
      rw [hdec] at hs2
      have hp := List.pairwise_append.mp hs2
      have hB := List.pairwise_cons.mp hp.2.1
      have hrest : ∀ x ∈ LogRecord.chkpt E s0.se.master NULL_TX tt dpt :: post,
          x.getLSN ≠ s0.se.master := by
        intro x hx
        have h1 : s0.se.master < x.getLSN := hB.1 x hx
        omega
      have hd := dropToMaster_found pre (LogRecord.chkpt E s0.se.master NULL_TX tt dpt :: post)
        (LogRecord.plain s0.se.master NULL_LSN NULL_TX .BEGIN_CKPT) s0.se.master rfl hrest
        L.length (by rw [hdec]; simp) (by rw [hdec])
      rw [← hdec] at hd
      rw [hd, analyze_atMaster s0 _ _ post hm hrest] at h
      simp only [Option.some.injEq] at h
      subst h
      have hsys2 : ∀ r ∈ LogRecord.chkpt E s0.se.master NULL_TX tt dpt :: post,
          r.isCkpt = true → r.getTxID = NULL_TX := by
        intro r hr
        exact hsys r (by rw [hdec]; simp only [List.mem_append, List.mem_cons] at hr ⊢; tauto)
      have hscan := scanInv_scan tt (LogRecord.chkpt E s0.se.master NULL_TX tt dpt :: post)
        (seedTables s0 (LogRecord.chkpt E s0.se.master NULL_TX tt dpt)) []
        (scanInv_start _) (by rw [List.nil_append]; exact hB.2) hsys2
      simp only [List.nil_append] at hscan
      intro t e hte htn
      have hsplit : L = (pre ++ [LogRecord.plain s0.se.master NULL_LSN NULL_TX .BEGIN_CKPT]) ++
          (LogRecord.chkpt E s0.se.master NULL_TX tt dpt :: post) := by
        rw [hdec]; simp
      have hs3 := hstrict
      rw [hsplit] at hs3
      have hp3 := List.pairwise_append.mp hs3
      rcases hscan t e hte htn with h1 | ⟨h1, e0, he0, hl⟩
      · rw [hsplit]
        obtain ⟨⟨r, hr, hrt, hrl⟩, hmax⟩ := h1
        refine ⟨⟨r, List.mem_append_right _ hr, hrt, hrl⟩, ?_⟩
        intro x hx hxt
        rcases List.mem_append.mp hx with hx | hx
        · have := hp3.2.2 x hx r hr
          omega
        · exact hmax x hx hxt
      · rw [hdec, ← hl]
        have h2 := isMax_append_right t e0.lastLSN pre
          (LogRecord.plain s0.se.master NULL_LSN NULL_TX .BEGIN_CKPT ::
            LogRecord.chkpt E s0.se.master NULL_TX tt dpt :: post) (hpre t e0 he0 htn) ?_
        · exact h2
        · intro x hx
          rcases List.mem_cons.mp hx with hx | hx
          · rw [hx]
            exact fun h => htn h.symm
          · exact h1 x hx

theorem checkpointAnalyze_cases (s0 s1 : State) (h : checkpointAnalyze s0 = some s1) :
    (s1 = s0 ∧ AllLog s0 = []) ∨
    analyze s0 (dropToMaster (AllLog s0) s0.se.master (AllLog s0).length) = some s1 := by
  unfold checkpointAnalyze at h
  cases htl : s0.logtail with
  | nil =>
    cases hd : s0.se.log with
    | nil =>
      simp only [htl, StorageEngine.getLog, hd, Option.some.injEq] at h
      exact Or.inl ⟨h.symm, by simp [AllLog, htl, hd]⟩
    | cons a l =>
      simp only [htl, StorageEngine.getLog, hd, StorageEngine.get_master] at h
      right
      simpa [AllLog, htl, hd] using h
  | cons a l =>
    simp only [htl, StorageEngine.getLog, StorageEngine.get_master] at h
    right
    simpa [AllLog, htl] using h

theorem inv_checkpoint (s s1 : State) (hI : Inv s) (h : checkpoint s = some s1) : Inv s1 := by
  unfold checkpoint at h
  cases ha : checkpointAnalyze { s with se := s.se.nextLSN.2.nextLSN.2 } with
  | none => simp [ha] at h
  | some a =>
    simp only [ha, Option.some.injEq] at h
    subst h
    -- the state after analysis
    have hmaster0 : ({ s with se := s.se.nextLSN.2.nextLSN.2 } : State).se.master = s.se.master :=
      rfl
    have hlog0 : AllLog ({ s with se := s.se.nextLSN.2.nextLSN.2 } : State) = AllLog s := rfl
    have hfr : a.se = s.se.nextLSN.2.nextLSN.2 ∧ a.logtail = s.logtail ∧
        TableMax a.tx_table (AllLog s) := by
      rcases checkpointAnalyze_cases _ _ ha with ⟨h1, _⟩ | h1
      · subst h1
        exact ⟨rfl, rfl, hI.table⟩
      · have hf := analyze_frame _ _ _ h1
        refine ⟨hf.1, hf.2, ?_⟩
        rw [hlog0, hmaster0] at h1
        exact analyze_tableMax { s with se := s.se.nextLSN.2.nextLSN.2 } a (AllLog s) hI.strict
          (fun r hr => (hI.bounds r hr).1) hI.sysrec hI.table hI.master h1
    obtain ⟨hase, hatl, hatab⟩ := hfr
    have hAllA : AllLog a = AllLog s := by
      simp [AllLog, hase, hatl, StorageEngine.nextLSN]
    have hIa : Inv a := by
      refine ⟨by rw [hAllA]; exact hI.strict, ?_, by rw [hAllA]; exact hI.sysrec,
        by rw [hAllA]; exact hatab, ?_⟩
      · rw [hAllA]
        intro r hr
        have := hI.bounds r hr
        simp only [hase, StorageEngine.nextLSN, Nat.cast_add, Nat.cast_one]
        omega
      · rw [hAllA]
        simpa [hase, StorageEngine.nextLSN] using hI.master
    have hcnt : a.se.lsnCounter = s.se.lsnCounter + 2 := by
      simp [hase, StorageEngine.nextLSN]
    -- the two checkpoint records are appended, the master record still the old one
    have hI3 : Inv { a with logtail := a.logtail ++
        [LogRecord.plain s.se.nextLSN.1 NULL_LSN NULL_TX .BEGIN_CKPT,
         LogRecord.chkpt s.se.nextLSN.2.nextLSN.1 s.se.nextLSN.1 NULL_TX a.tx_table
           a.dirty_page_table] } := by
      refine ⟨?_, ?_, ?_, ?_, ?_⟩
      · have : AllLog { a with logtail := a.logtail ++
            [LogRecord.plain s.se.nextLSN.1 NULL_LSN NULL_TX .BEGIN_CKPT,
             LogRecord.chkpt s.se.nextLSN.2.nextLSN.1 s.se.nextLSN.1 NULL_TX a.tx_table
               a.dirty_page_table] } = AllLog s ++
            [LogRecord.plain s.se.nextLSN.1 NULL_LSN NULL_TX .BEGIN_CKPT,
             LogRecord.chkpt s.se.nextLSN.2.nextLSN.1 s.se.nextLSN.1 NULL_TX a.tx_table
               a.dirty_page_table] := by
          rw [← hAllA]
          simp [AllLog]
        rw [this]
        refine lsnStrict_append _ _ (s.se.lsnCounter : Int) hI.strict
          (fun r hr => (hI.bounds r hr).2) ?_ ?_
        · simp [LsnStrict, LogRecord.getLSN, StorageEngine.nextLSN]
        · intro r hr
          simp only [List.mem_cons, List.mem_singleton, List.not_mem_nil, or_false] at hr
          rcases hr with hr | hr <;> subst hr <;> simp [LogRecord.getLSN, StorageEngine.nextLSN]
      · intro r hr
        simp only [AllLog, ← List.append_assoc] at hr
        rcases List.mem_append.mp hr with hr | hr
        · exact hIa.bounds r hr
        · simp only [List.mem_cons, List.mem_singleton, List.not_mem_nil, or_false] at hr
          rcases hr with hr | hr <;> subst hr <;>
            (simp [LogRecord.getLSN, StorageEngine.nextLSN, hcnt]; try omega)
      · intro r hr
        simp only [AllLog, ← List.append_assoc] at hr
        rcases List.mem_append.mp hr with hr | hr
        · exact hIa.sysrec r hr
        · simp only [List.mem_cons, List.mem_singleton, List.not_mem_nil, or_false] at hr
          rcases hr with hr | hr <;> subst hr <;> simp [LogRecord.getTxID]
      · have : AllLog { a with logtail := a.logtail ++
            [LogRecord.plain s.se.nextLSN.1 NULL_LSN NULL_TX .BEGIN_CKPT,
             LogRecord.chkpt s.se.nextLSN.2.nextLSN.1 s.se.nextLSN.1 NULL_TX a.tx_table
               a.dirty_page_table] } = AllLog a ++
            [LogRecord.plain s.se.nextLSN.1 NULL_LSN NULL_TX .BEGIN_CKPT,
             LogRecord.chkpt s.se.nextLSN.2.nextLSN.1 s.se.nextLSN.1 NULL_TX a.tx_table
               a.dirty_page_table] := by
          simp [AllLog]
        rw [this]
        intro t e hte htn
        refine isMax_append_right t _ _ _ (hIa.table t e hte htn) ?_
        intro r hr
        simp only [List.mem_cons, List.mem_singleton, List.not_mem_nil, or_false] at hr
        rcases hr with hr | hr <;> subst hr <;> exact fun h => htn h.symm
      · rcases hIa.master with hmm | ⟨pre, E, tt, dpt, post, hdec, hpre⟩
        · exact Or.inl hmm
        · refine Or.inr ⟨pre, E, tt, dpt, post ++
            [LogRecord.plain s.se.nextLSN.1 NULL_LSN NULL_TX .BEGIN_CKPT,
             LogRecord.chkpt s.se.nextLSN.2.nextLSN.1 s.se.nextLSN.1 NULL_TX a.tx_table
               a.dirty_page_table], ?_, hpre⟩
          simp only [AllLog] at hdec ⊢
          rw [← List.append_assoc, hdec]
          simp
    -- the new master record
    have hI4 : Inv { a with
        se := a.se.store_master s.se.nextLSN.1,
        logtail := a.logtail ++
        [LogRecord.plain s.se.nextLSN.1 NULL_LSN NULL_TX .BEGIN_CKPT,
         LogRecord.chkpt s.se.nextLSN.2.nextLSN.1 s.se.nextLSN.1 NULL_TX a.tx_table
           a.dirty_page_table] } := by
      refine ⟨hI3.strict, hI3.bounds, hI3.sysrec, hI3.table, Or.inr ⟨AllLog a,
        s.se.nextLSN.2.nextLSN.1, a.tx_table, a.dirty_page_table, [], ?_, hIa.table⟩⟩
      simp [AllLog, StorageEngine.store_master]
    exact inv_flushLogTail _ _ hI4

theorem inv_step (s s1 : State) (op : Op) (hI : Inv s) (h : step s op = some s1) : Inv s1 := by
  cases op with
  | write txID pageID offset nb ob =>
    simp only [step, Option.some.injEq] at h
    exact h ▸ inv_write s txID pageID offset nb ob hI
  | commit txID =>
    simp only [step, Option.some.injEq] at h
    exact h ▸ inv_commit s txID hI
  | abort txID => exact inv_abort s s1 txID hI h
  | pageFlushed p =>
    simp only [step, Option.some.injEq] at h
    exact h ▸ inv_pageFlushed s p hI
  | checkpoint => exact inv_checkpoint s s1 hI h
  | engineSetPage p pg =>
    simp only [step, Option.some.injEq] at h
    exact h ▸ inv_same s _ hI rfl (le_refl _) rfl rfl
  | engineNextLSN =>
    simp only [step, Option.some.injEq] at h
    exact h ▸ inv_same s _ hI rfl (by simp [StorageEngine.nextLSN]) rfl rfl

theorem inv_run (ops : List Op) : ∀ (s s1 : State), Inv s → run s ops = some s1 → Inv s1 := by
  induction ops with
  | nil =>
    intro s s1 hI h
    simp only [run, Option.some.injEq] at h
    exact h ▸ hI
  | cons op rest ih =>
    intro s s1 hI h
    simp only [run] at h
    cases hs : step s op with
    | none => simp [hs] at h
    | some s2 =>
      simp only [hs] at h
      exact ih s2 s1 (inv_step s s2 op hI hs) h

theorem inv_initial (s : State) (h : Initial s) : Inv s := by
  obtain ⟨h1, _, h3, h4, h5⟩ := h
  have hall : AllLog s = [] := by simp [AllLog, h3, h4]
  refine ⟨by simp [hall, LsnStrict], by simp [hall], by simp [hall], ?_, Or.inl h5⟩
  intro t e hte
  rw [h1] at hte
  simp [mfind] at hte

/-! ## C6: `lastLSN` is the maximum LSN of the transaction -/

/-- C6: in every state reachable from an initial state (empty tables, empty log tail,
empty durable log, no master record) by any sequence of `write`, `commit`, `abort`,
`pageFlushed` and `checkpoint` calls (the engine may change pages and mint LSNs in
between), every transaction `t` in the transaction table has `lastLSN(t)` equal to
the maximum LSN of the records with `txID = t` in disk-log ++ log-tail.  A transaction
is named by an id other than `NULL_TX`: that value is the sentinel for "no
transaction" (lines 224 and 236) and the txID of the checkpoint records (lines
394-397), which belong to no transaction. -/
theorem lastLSN_is_max (s0 s : State) (ops : List Op) (h0 : Initial s0)
    (hrun : run s0 ops = some s) (t : Int) (e : txTableEntry)
    (hte : mfind s.tx_table t = some e) (htn : t ≠ NULL_TX) :
    (∃ r ∈ s.se.log ++ s.logtail, r.getTxID = t ∧ r.getLSN = e.lastLSN) ∧
    ∀ r ∈ s.se.log ++ s.logtail, r.getTxID = t → r.getLSN ≤ e.lastLSN := by
  have hI0 : Inv s0 := inv_initial s0 h0
  have hI : Inv s := inv_run ops s0 s hI0 hrun
  have hmax : IsMaxLSNOf t e.lastLSN (AllLog s) := hI.table t e hte htn
  exact hmax

/-- Witness of `lastLSN_is_max`: after two writes of transaction `7` and a checkpoint
from the initial state of the scenarios. -/
theorem lastLSN_is_max_witness :
    Initial initState ∧
    ∃ s, run initState [Op.write 7 1 0 "a" " ", Op.write 7 2 0 "b" " ", Op.checkpoint] = some s ∧
      mfind s.tx_table 7 = some ⟨2, TxStatus.U⟩ ∧
      ∀ r ∈ s.se.log ++ s.logtail, r.getTxID = 7 → r.getLSN ≤ 2 :=
  ⟨⟨rfl, rfl, rfl, rfl, rfl⟩, _, rfl, rfl,
    (lastLSN_is_max initState _ [Op.write 7 1 0 "a" " ", Op.write 7 2 0 "b" " ", Op.checkpoint]
      ⟨rfl, rfl, rfl, rfl, rfl⟩ rfl 7 ⟨2, TxStatus.U⟩ rfl (by decide)).2⟩

/-- The sentinel `NULL_TX` is not a transaction id: after `write(NULL_TX, 1, 0, "a",
" ")` and `checkpoint()` from the initial state the table holds an entry for `NULL_TX`
with `lastLSN = 1`, while the BEGIN_CKPT record with LSN `2` carries `txID = NULL_TX`
as well. -/
theorem lastLSN_not_max_for_NULL_TX :
    Initial initState ∧
    ∃ s, run initState [Op.write NULL_TX 1 0 "a" " ", Op.checkpoint] = some s ∧
      mfind s.tx_table NULL_TX = some ⟨1, TxStatus.U⟩ ∧
      LogRecord.plain 2 NULL_LSN NULL_TX .BEGIN_CKPT ∈ s.se.log ++ s.logtail ∧
      ¬ (∀ r ∈ s.se.log ++ s.logtail, r.getTxID = NULL_TX → r.getLSN ≤ 1) :=
  ⟨⟨rfl, rfl, rfl, rfl, rfl⟩, _, rfl, rfl, by decide,
    fun h => absurd (h (LogRecord.plain 2 NULL_LSN NULL_TX .BEGIN_CKPT) (by decide) rfl)
      (by decide)⟩

/-! ## C8: write-ahead logging -/

theorem logCalled_flushLogTail (s : State) (L : Int) (h : LogCalled s) :
    LogCalled (flushLogTail s L) := by
  unfold flushLogTail
  split
  · intro r hr
    simp only [flushLoop_log, flushLoop_calls, List.mem_append, List.mem_map] at hr ⊢
    rcases hr with hr | hr
    · exact Or.inl (h r hr)
    · exact Or.inr ⟨r, hr, rfl⟩
  · exact h

theorem pageWrite_calls (e : StorageEngine) (pageID offset : Int) (bytes : String) (lsn : Int) :
    (e.pageWrite pageID offset bytes lsn).2.calls =
      e.calls ++ [EngineCall.pageWrite pageID offset bytes lsn] := by
  unfold StorageEngine.pageWrite
  split <;> rfl

theorem logCalled_undoCompensate (log : List LogRecord) (abort_one : Bool) (s : State)
    (lsn prevLSN txID pageID offset : Int) (beforeImage : String) (h : LogCalled s) :
    LogCalled (undoCompensate log abort_one s lsn prevLSN txID pageID offset beforeImage).2 := by
  intro r hr
  have h1 : (undoCompensate log abort_one s lsn prevLSN txID pageID offset beforeImage).2.se.log
      = s.se.log := (pageWrite_frame s.se.nextLSN.2 pageID offset beforeImage lsn).2.1
  have h2 : (undoCompensate log abort_one s lsn prevLSN txID pageID offset beforeImage).2.se.calls
      = s.se.calls ++ [EngineCall.pageWrite pageID offset beforeImage lsn] :=
    pageWrite_calls s.se.nextLSN.2 pageID offset beforeImage lsn
  rw [h1] at hr
  rw [h2]
  exact List.mem_append_left _ (h r hr)

theorem logCalled_step (s s1 : State) (op : Op) (hI : LogCalled s) (h : step s op = some s1) :
    LogCalled s1 := by
  cases op with
  | write txID pageID offset nb ob =>
    simp only [step, Option.some.injEq] at h
    subst h
    exact hI
  | commit txID =>
    simp only [step, Option.some.injEq] at h
    subst h
    unfold commit
    split
    · exact logCalled_flushLogTail _ _ hI
    · exact hI
  | abort txID =>
    simp only [step, abort] at h
    split at h
    · refine undo_preserves LogCalled (fun log ab s lsn prevLSN txID pageID offset b hs =>
        logCalled_undoCompensate log ab s lsn prevLSN txID pageID offset b hs)
        (fun s prev tx hs => hs) _ s1 _ txID ?_ h
      exact hI
    · simp only [Option.some.injEq] at h
      exact h ▸ hI
  | pageFlushed p =>
    simp only [step, Option.some.injEq] at h
    subst h
    exact logCalled_flushLogTail _ _ hI
  | checkpoint =>
    simp only [step, checkpoint] at h
    split at h
    · simp at h
    · rename_i a ha
      simp only [Option.some.injEq] at h
      subst h
      apply logCalled_flushLogTail
      obtain ⟨s2, hs2, hse, -⟩ : ∃ s2, checkpointAnalyze
          { s with se := s.se.nextLSN.2.nextLSN.2 } = some s2 ∧ s2.se = s.se.nextLSN.2.nextLSN.2 ∧
          True := by
        refine ⟨a, ha, ?_, trivial⟩
        rcases checkpointAnalyze_cases _ _ ha with ⟨h1, _⟩ | h1
        · rw [h1]
        · exact (analyze_frame _ _ _ h1).1
      rw [ha] at hs2
      simp only [Option.some.injEq] at hs2
      subst hs2
      intro r hr
      simp only [StorageEngine.store_master, hse, StorageEngine.nextLSN] at hr ⊢
      exact hI r hr
  | engineSetPage p pg =>
    simp only [step, Option.some.injEq] at h
    exact h ▸ hI
  | engineNextLSN =>
    simp only [step, Option.some.injEq] at h
    exact h ▸ hI

theorem logCalled_run (ops : List Op) :
    ∀ (s s1 : State), LogCalled s → run s ops = some s1 → LogCalled s1 := by
  induction ops with
  | nil =>
    intro s s1 hI h
    simp only [run, Option.some.injEq] at h
    exact h ▸ hI
  | cons op rest ih =>
    intro s s1 hI h
    simp only [run] at h
    cases hs : step s op with
    | none => simp [hs] at h
    | some s2 =>
      simp only [hs] at h
      exact ih s2 s1 (logCalled_step s s2 op hI hs) h

/-- C8 (as stated it fails, see `pageWrite_before_updateLog`; amended): write-ahead
logging is enforced by `pageFlushed`, not at `pageWrite`: for every sequence of
`write`, `commit`, `abort`, `checkpoint` and `pageFlushed` calls from an initial
state, when a following `pageFlushed(p)` returns, every record with LSN at most
`getLSN(p)` that has been appended to the log (disk-log ++ log-tail) is in the
durable log and has been passed to `updateLog`. -/
theorem pageFlushed_forces_log (s0 s : State) (ops : List Op) (h0 : Initial s0)
    (hrun : run s0 ops = some s) (p : Int) :
    ∀ r ∈ s.se.log ++ s.logtail, r.getLSN ≤ s.se.getLSN p →
      r ∈ (pageFlushed s p).se.log ∧ EngineCall.updateLog r ∈ (pageFlushed s p).se.calls := by
  have hI : Inv s := inv_run ops s0 s (inv_initial s0 h0) hrun
  have hC : LogCalled s := by
    refine logCalled_run ops s0 s ?_ hrun
    intro r hr
    rw [h0.2.2.2.1] at hr
    simp at hr
  have hC1 : LogCalled (pageFlushed s p) := logCalled_flushLogTail s _ hC
  have hmem : ∀ r ∈ s.se.log ++ s.logtail, r.getLSN ≤ s.se.getLSN p →
      r ∈ (pageFlushed s p).se.log := by
    intro r hr hle
    have h0le : 0 ≤ s.se.getLSN p := le_trans (hI.bounds r hr).1 hle
    have hge : s.se.getLSN p ≥ 0 := h0le
    simp only [pageFlushed, flushLogTail, if_pos hge, flushLoop_log]
    have hasc : LsnAscending s.logtail := by
      have := (List.pairwise_append.mp hI.strict).2.1
      exact this.imp (fun h => le_of_lt h)
    rw [takeWhile_eq_filter_of_ascending _ _ hasc]
    rcases List.mem_append.mp hr with hr | hr
    · exact List.mem_append_left _ hr
    · exact List.mem_append_right _ (List.mem_filter.mpr ⟨hr, by simpa using hle⟩)
  intro r hr hle
  exact ⟨hmem r hr hle, hC1 r (hmem r hr hle)⟩

/-- Witness of `pageFlushed_forces_log`: after two writes and the engine's update of
page `1` to pageLSN `1`, `pageFlushed(1)` puts the first record into the durable
log. -/
theorem pageFlushed_forces_log_witness :
    Initial initState ∧
    ∃ s, run initState [Op.write 7 1 0 "a" " ", Op.write 7 2 0 "b" " ",
        Op.engineSetPage 1 ⟨fun _ => 'a', 1⟩] = some s ∧
      s.se.getLSN 1 = 1 ∧
      LogRecord.update 1 NULL_LSN 7 1 0 " " "a" ∈ (pageFlushed s 1).se.log :=
  ⟨⟨rfl, rfl, rfl, rfl, rfl⟩, _, rfl, rfl,
    (pageFlushed_forces_log initState _ [Op.write 7 1 0 "a" " ", Op.write 7 2 0 "b" " ",
        Op.engineSetPage 1 ⟨fun _ => 'a', 1⟩] ⟨rfl, rfl, rfl, rfl, rfl⟩ rfl 1
      (LogRecord.update 1 NULL_LSN 7 1 0 " " "a") (by decide) (by decide)).1⟩

/-- C8, counterexample: `write(1, 1, 0, "ab", "  ")`, which returns LSN `1`, followed
by `abort(1)`, from the initial state.  When `abort` calls `pageWrite(1, 0, "  ", 1)`
no record has been passed to `updateLog` yet (it is the first call the engine
receives, and the durable log is still empty afterwards), although the UPDATE record
with LSN `1` was appended to the log by `write`. -/
theorem pageWrite_before_updateLog :
    Initial initState ∧
    ∃ s1 s2, run initState [Op.write 1 1 0 "ab" "  "] = some s1 ∧
      step s1 (Op.abort 1) = some s2 ∧
      LogRecord.update 1 NULL_LSN 1 1 0 "  " "ab" ∈ s1.logtail ∧
      s1.se.calls = [] ∧
      s2.se.calls = [EngineCall.pageWrite 1 0 "  " 1] ∧
      s2.se.log = [] ∧
      ¬ WalRespected s2.se.calls s1.logtail :=
  ⟨⟨rfl, rfl, rfl, rfl, rfl⟩, _, _, rfl, rfl, by decide, rfl, rfl, rfl,
    fun h => absurd
      (h [] [] 1 0 "  " 1 rfl (LogRecord.update 1 NULL_LSN 1 1 0 "  " "ab") (by decide)
        (by decide))
      (by simp)⟩

/-! ## The dirty page table between two checkpoints -/

theorem run_append (a b : List Op) : ∀ (s s1 : State), run s (a ++ b) = some s1 ↔
    ∃ sm, run s a = some sm ∧ run sm b = some s1 := by
  induction a with
  | nil =>
    intro s s1
    simp [run]
  | cons op rest ih =>
    intro s s1
    simp only [List.cons_append, run]
    cases hs : step s op with
    | none => simp
    | some s2 => simpa using ih s2 s1

theorem undo_dirty_page_table (s s1 : State) (log : List LogRecord) (txnum : Int)
    (h : undo s log txnum = some s1) : s1.dirty_page_table = s.dirty_page_table :=
  undo_preserves (fun x => x.dirty_page_table = s.dirty_page_table)
    (fun _ _ _ _ _ _ _ _ _ hs => hs) (fun _ _ _ hs => hs) s s1 log txnum rfl h

theorem step_dirty_other (s s1 : State) (op : Op) (p : Int) (h : step s op = some s1)
    (hf : op.isFlushOf p = false) (hc : op.isCheckpoint = false) (hw : op.isWriteOf p = false) :
    mfind s1.dirty_page_table p = mfind s.dirty_page_table p := by
  cases op with
  | write txID pageID offset nb ob =>
    simp only [step, Option.some.injEq] at h
    subst h
    have hne : p ≠ pageID := by
      intro hpq
      simp [Op.isWriteOf, hpq] at hw
    simp only [write]
    cases hq : mfind s.dirty_page_table pageID with
    | none => exact mfind_minsert_ne _ _ _ _ hne
    | some l => rfl
  | commit txID =>
    simp only [step, Option.some.injEq] at h
    subst h
    unfold commit
    split
    · simp only [(flushLogTail_frame _ _).2.1]
    · rfl
  | abort txID =>
    simp only [step, abort] at h
    split at h
    · rw [undo_dirty_page_table _ _ _ _ h]
      rfl
    · simp only [Option.some.injEq] at h
      rw [← h]
  | pageFlushed q =>
    simp only [step, Option.some.injEq] at h
    subst h
    have hne : p ≠ q := by
      intro hpq
      simp [Op.isFlushOf, hpq] at hf
    simp only [pageFlushed]
    rw [mfind_merase_ne _ _ _ hne, (flushLogTail_frame _ _).2.1]
  | checkpoint => simp [Op.isCheckpoint] at hc
  | engineSetPage q pg =>
    simp only [step, Option.some.injEq] at h
    rw [← h]
  | engineNextLSN =>
    simp only [step, Option.some.injEq] at h
    rw [← h]

theorem step_dirty_kept (s s1 : State) (op : Op) (p l : Int) (h : step s op = some s1)
    (hf : op.isFlushOf p = false) (hc : op.isCheckpoint = false)
    (hl : mfind s.dirty_page_table p = some l) :
    mfind s1.dirty_page_table p = some l := by
  cases hw : op.isWriteOf p with
  | false => rw [step_dirty_other s s1 op p h hf hc hw, hl]
  | true =>
    cases op with
    | write txID pageID offset nb ob =>
      have hpp : pageID = p := by simpa [Op.isWriteOf] using hw
      subst hpp
      simp only [step, Option.some.injEq] at h
      subst h
      simp only [write, hl]
    | commit txID => simp [Op.isWriteOf] at hw
    | abort txID => simp [Op.isWriteOf] at hw
    | pageFlushed q => simp [Op.isWriteOf] at hw
    | checkpoint => simp [Op.isWriteOf] at hw
    | engineSetPage q pg => simp [Op.isWriteOf] at hw
    | engineNextLSN => simp [Op.isWriteOf] at hw

theorem run_dirty_kept (since : List Op) (p l : Int) :
    ∀ (s s1 : State), run s since = some s1 →
      (∀ op ∈ since, op.isFlushOf p = false) → (∀ op ∈ since, op.isCheckpoint = false) →
      mfind s.dirty_page_table p = some l → mfind s1.dirty_page_table p = some l := by
  induction since with
  | nil =>
    intro s s1 h _ _ hl
    simp only [run, Option.some.injEq] at h
    exact h ▸ hl
  | cons op rest ih =>
    intro s s1 h hf hc hl
    simp only [run] at h
    cases hs : step s op with
    | none => simp [hs] at h
    | some s2 =>
      simp only [hs] at h
      exact ih s2 s1 h (fun o ho => hf o (List.mem_cons_of_mem _ ho))
        (fun o ho => hc o (List.mem_cons_of_mem _ ho))
        (step_dirty_kept s s2 op p l hs (hf op (by simp)) (hc op (by simp)) hl)

theorem run_dirty_first_write (since : List Op) (p l : Int) :
    ∀ (sb s : State), run sb since = some s →
      (∀ op ∈ since, op.isFlushOf p = false) → (∀ op ∈ since, op.isCheckpoint = false) →
      mfind sb.dirty_page_table p = none →
      (mfind s.dirty_page_table p = some l ↔
        ∃ a c tx off nb ob si, since = a ++ Op.write tx p off nb ob :: c ∧
          (∀ op ∈ a, op.isWriteOf p = false) ∧ run sb a = some si ∧
          l = (write si tx p off nb ob).2) := by
  induction since with
  | nil =>
    intro sb s h _ _ hn
    simp only [run, Option.some.injEq] at h
    subst h
    simp [hn]
  | cons op rest ih =>
    intro sb s h hf hc hn
    simp only [run] at h
    cases hs : step sb op with
    | none => simp [hs] at h
    | some s2 =>
      simp only [hs] at h
      have hf2 : ∀ o ∈ rest, o.isFlushOf p = false := fun o ho => hf o (List.mem_cons_of_mem _ ho)
      have hc2 : ∀ o ∈ rest, o.isCheckpoint = false :=
        fun o ho => hc o (List.mem_cons_of_mem _ ho)
      cases hw : op.isWriteOf p with
      | true =>
        cases op with
        | write txID pageID offset nb ob =>
          have hpp : pageID = p := by simpa [Op.isWriteOf] using hw
          subst hpp
          have hs2 : mfind s2.dirty_page_table pageID = some (sb.se.lsnCounter : Int) := by
            simp only [step, Option.some.injEq] at hs
            subst hs
            simp only [write, hn, StorageEngine.nextLSN]
            exact mfind_minsert_self _ _ _
          have hfin := run_dirty_kept rest pageID _ s2 s h hf2 hc2 hs2
          rw [hfin]
          constructor
          · intro hl
            simp only [Option.some.injEq] at hl
            exact ⟨[], rest, txID, offset, nb, ob, sb, rfl, by simp, rfl, hl.symm⟩
          · rintro ⟨a, c, tx, off, nb2, ob2, si, hdec, hnw, hrun, hl⟩
            cases a with
            | nil =>
              simp only [run, Option.some.injEq] at hrun
              subst hrun
              rw [hl]
              rfl
            | cons o a2 =>
              simp only [List.cons_append, List.cons.injEq] at hdec
              have := hnw o (by simp)
              rw [← hdec.1] at this
              simp [Op.isWriteOf] at this
        | commit txID => simp [Op.isWriteOf] at hw
        | abort txID => simp [Op.isWriteOf] at hw
        | pageFlushed q => simp [Op.isWriteOf] at hw
        | checkpoint => simp [Op.isWriteOf] at hw
        | engineSetPage q pg => simp [Op.isWriteOf] at hw
        | engineNextLSN => simp [Op.isWriteOf] at hw
      | false =>
        have hn2 : mfind s2.dirty_page_table p = none := by
          rw [step_dirty_other sb s2 op p hs (hf op (by simp)) (hc op (by simp)) hw, hn]
        rw [ih s2 s h hf2 hc2 hn2]
        constructor
        · rintro ⟨a, c, tx, off, nb, ob, si, hdec, hnw, hrun, hl⟩
          refine ⟨op :: a, c, tx, off, nb, ob, si, by simp [hdec], ?_, ?_, hl⟩
          · intro o ho
            rcases List.mem_cons.mp ho with ho | ho
            · rw [ho]; exact hw
            · exact hnw o ho
          · simp only [run, hs]
            exact hrun
        · rintro ⟨a, c, tx, off, nb, ob, si, hdec, hnw, hrun, hl⟩
          cases a with
          | nil =>
            simp only [List.nil_append, List.cons.injEq] at hdec
            rw [hdec.1] at hw
            simp [Op.isWriteOf] at hw
          | cons o a2 =>
            simp only [List.cons_append, List.cons.injEq] at hdec
            refine ⟨a2, c, tx, off, nb, ob, si, hdec.2, fun x hx => hnw x (by simp [hx]), ?_, hl⟩
            rw [← hdec.1] at hrun
            simpa only [run, hs] using hrun

/-! ## The undo loop on a log with strictly increasing LSNs -/

theorem heapPush_below (h : List Int) (x : Int) (hx : ∀ y ∈ h, x < y) :
    heapPush h x = h ++ [x] := by
  induction h with
  | nil => rfl
  | cons y ys ih =>
    have hy : ¬ y ≤ x := by
      have := hx y (by simp)
      omega
    simp only [heapPush, hy, if_false, List.cons_append]
    rw [ih (fun z hz => hx z (List.mem_cons_of_mem _ hz))]

theorem foldl_heapPush_descending (xs : List Int) :
    ∀ (h : List Int), xs.Pairwise (fun a b => b < a) → (∀ y ∈ h, ∀ x ∈ xs, x < y) →
      xs.foldl heapPush h = h ++ xs := by
  induction xs with
  | nil =>
    intro h _ _
    simp
  | cons x rest ih =>
    intro h hp hh
    have hp2 := List.pairwise_cons.mp hp
    simp only [List.foldl_cons]
    rw [heapPush_below h x (fun y hy => hh y hy x (by simp))]
    rw [ih (h ++ [x]) hp2.2]
    · simp
    · intro y hy z hz
      rcases List.mem_append.mp hy with hy | hy
      · exact hh y hy z (List.mem_cons_of_mem _ hz)
      · simp only [List.mem_singleton] at hy
        rw [hy]
        exact hp2.1 z hz

theorem buildToUndo_heap (cond : LogRecord → Bool) (log : List LogRecord) (n : Nat) :
    ∀ (heap : List Int) (start : Int),
      (buildToUndo cond log n heap start).1 =
        (((log.take n).filter cond).reverse.map LogRecord.getLSN).foldl heapPush heap := by
  induction n with
  | zero =>
    intro heap start
    simp [buildToUndo]
  | succ n ih =>
    intro heap start
    rw [buildToUndo, List.take_succ]
    cases hr : log[n]? with
    | none => simp [ih]
    | some r =>
      by_cases hc : cond r = true
      · simp [hc, ih, List.filter_append, List.filter_cons]
      · simp [hc, ih, List.filter_append, List.filter_cons]

theorem buildToUndo_start_set (cond : LogRecord → Bool) (log : List LogRecord) (n : Nat) :
    ∀ (heap : List Int) (start : Int), start ≠ NULL_LSN →
      (buildToUndo cond log n heap start).2 = start := by
  induction n with
  | zero =>
    intro heap start _
    rfl
  | succ n ih =>
    intro heap start hs
    rw [buildToUndo]
    cases hr : log[n]? with
    | none => exact ih heap start hs
    | some r =>
      by_cases hc : cond r = true
      · simp only [hc, if_true, hs, if_false]
        exact ih _ start hs
      · simp only [hc]
        exact ih heap start hs

theorem buildToUndo_succ_none (cond : LogRecord → Bool) (log : List LogRecord) (n : Nat)
    (heap : List Int) (start : Int) (h : log[n]? = none) :
    buildToUndo cond log (n + 1) heap start = buildToUndo cond log n heap start := by
  simp [buildToUndo, h]

theorem buildToUndo_succ_skip (cond : LogRecord → Bool) (log : List LogRecord) (n : Nat)
    (heap : List Int) (start : Int) (r : LogRecord) (h : log[n]? = some r)
    (hc : ¬ cond r = true) :
    buildToUndo cond log (n + 1) heap start = buildToUndo cond log n heap start := by
  simp [buildToUndo, h, hc]

theorem buildToUndo_succ_push (cond : LogRecord → Bool) (log : List LogRecord) (n : Nat)
    (heap : List Int) (r : LogRecord) (h : log[n]? = some r) (hc : cond r = true) :
    buildToUndo cond log (n + 1) heap NULL_LSN =
      buildToUndo cond log n (heapPush heap r.getLSN) (n : Int) := by
  simp [buildToUndo, h, hc]

theorem buildToUndo_start (cond : LogRecord → Bool) (log : List LogRecord) (n : Nat) :
    ∀ (heap : List Int),
      ((buildToUndo cond log n heap NULL_LSN).2 + 1).toNat ≤ n ∧
      (log.take ((buildToUndo cond log n heap NULL_LSN).2 + 1).toNat).filter cond =
        (log.take n).filter cond ∧
      (((buildToUndo cond log n heap NULL_LSN).2 + 1).toNat = 0 ∨
        ∃ r, log[((buildToUndo cond log n heap NULL_LSN).2 + 1).toNat - 1]? = some r ∧
          cond r = true) := by
  induction n with
  | zero =>
    intro heap
    simp [buildToUndo, NULL_LSN]
  | succ n ih =>
    intro heap
    cases hr : log[n]? with
    | none =>
      obtain ⟨h1, h2, h3⟩ := ih heap
      rw [buildToUndo_succ_none cond log n heap _ hr]
      refine ⟨by omega, ?_, h3⟩
      rw [h2, List.take_succ, hr]
      simp
    | some r =>
      by_cases hc : cond r = true
      · have hne : (n : Int) ≠ NULL_LSN := by
          simp only [NULL_LSN]
          omega
        rw [buildToUndo_succ_push cond log n heap r hr hc,
          buildToUndo_start_set cond log n _ (n : Int) hne]
        have hk : ((n : Int) + 1).toNat = n + 1 := by omega
        rw [hk]
        exact ⟨le_refl _, rfl, Or.inr ⟨r, by simpa using hr, hc⟩⟩
      · obtain ⟨h1, h2, h3⟩ := ih heap
        rw [buildToUndo_succ_skip cond log n heap _ r hr hc]
        refine ⟨by omega, ?_, h3⟩
        rw [h2, List.take_succ, hr]
        simp [hc]

theorem undoLoop_eq_undoList (log : List LogRecord) (abort_one : Bool)
    (cond : LogRecord → Bool) (n : Nat) :
    n ≤ log.length → LsnStrict (log.take n) →
    ∀ (tx_id : Int) (s : State),
      undoLoop log abort_one n (((log.take n).filter cond).reverse.map LogRecord.getLSN) tx_id s
        = undoList log abort_one ((log.take n).filter cond).reverse tx_id s := by
  induction n with
  | zero =>
    intro _ _ tx_id s
    simp [undoLoop, undoList]
  | succ n ih =>
    intro hn hs tx_id s
    have hlt : n < log.length := by omega
    obtain ⟨r, hr⟩ : ∃ r, log[n]? = some r := ⟨log[n], by simp [hlt]⟩
    have htake : log.take (n + 1) = log.take n ++ [r] := by
      rw [List.take_succ, hr]
      rfl
    have hs2 : LsnStrict (log.take n) := by
      rw [htake] at hs
      exact (List.pairwise_append.mp hs).1
    have hbelow : ∀ x ∈ log.take n, x.getLSN < r.getLSN := by
      intro x hx
      rw [htake] at hs
      exact (List.pairwise_append.mp hs).2.2 x hx r (by simp)
    by_cases hc : cond r = true
    · have hf : (log.take (n + 1)).filter cond = (log.take n).filter cond ++ [r] := by
        rw [htake, List.filter_append]
        simp [hc]
      rw [hf]
      simp only [List.reverse_append, List.reverse_cons, List.reverse_nil, List.nil_append,
        List.singleton_append, List.map_cons]
      rw [undoLoop, hr, undoList]
      simp only [if_true]
      cases hres : undoRecord log abort_one r tx_id s with
      | none => rfl
      | some res =>
        obtain ⟨stop, tx1, s2⟩ := res
        cases stop with
        | true => rfl
        | false => exact ih (by omega) hs2 tx1 s2
    · have hf : (log.take (n + 1)).filter cond = (log.take n).filter cond := by
        rw [htake, List.filter_append]
        simp [hc]
      rw [hf]
      cases hh : ((log.take n).filter cond).reverse with
      | nil =>
        simp [undoLoop, undoList]
      | cons x xs =>
        have hxm : x ∈ log.take n := by
          have : x ∈ ((log.take n).filter cond).reverse := by rw [hh]; simp
          exact (List.mem_filter.mp (List.mem_reverse.mp this)).1
        have hne : ¬ x.getLSN = r.getLSN := by
          have := hbelow x hxm
          omega
        simp only [List.map_cons]
        rw [undoLoop, hr]
        simp only [hne, if_false]
        have := ih (by omega) hs2 tx_id s
        rw [hh] at this
        simpa using this

theorem buildThenLoop_eq_undoList (cond : LogRecord → Bool) (L extra : List LogRecord)
    (abort_one : Bool) (hstrict : LsnStrict L) (hextra : ∀ r ∈ extra, cond r = false)
    (tx_id : Int) (s : State) :
    undoLoop (L ++ extra) abort_one
        ((buildToUndo cond (L ++ extra) (L ++ extra).length [] NULL_LSN).2 + 1).toNat
        (buildToUndo cond (L ++ extra) (L ++ extra).length [] NULL_LSN).1 tx_id s =
      undoList (L ++ extra) abort_one (L.filter cond).reverse tx_id s := by
  have hfilter : (L ++ extra).filter cond = L.filter cond := by
    rw [List.filter_append]
    have : extra.filter cond = [] := by
      rw [List.filter_eq_nil_iff]
      intro a ha
      simp [hextra a ha]
    rw [this, List.append_nil]
  have hdesc : (((L.filter cond).reverse).map LogRecord.getLSN).Pairwise (fun a b => b < a) := by
    rw [List.pairwise_map, List.pairwise_reverse]
    exact List.Pairwise.sublist (List.filter_sublist L) hstrict
  have hheap : (buildToUndo cond (L ++ extra) (L ++ extra).length [] NULL_LSN).1 =
      ((L.filter cond).reverse).map LogRecord.getLSN := by
    rw [buildToUndo_heap, List.take_length, hfilter,
      foldl_heapPush_descending _ [] hdesc (by simp)]
    rfl
  obtain ⟨h1, h2, h3⟩ := buildToUndo_start cond (L ++ extra) (L ++ extra).length []
  rw [List.take_length, hfilter] at h2
  have hk : ((buildToUndo cond (L ++ extra) (L ++ extra).length [] NULL_LSN).2 + 1).toNat
      ≤ L.length := by
    rcases h3 with h3 | ⟨r, hr, hc⟩
    · omega
    · by_contra hgt
      rw [List.getElem?_append_right (by omega)] at hr
      have := hextra r (List.getElem?_mem hr)
      rw [this] at hc
      exact absurd hc (by simp)
  have htk : (L ++ extra).take
      ((buildToUndo cond (L ++ extra) (L ++ extra).length [] NULL_LSN).2 + 1).toNat =
      L.take ((buildToUndo cond (L ++ extra) (L ++ extra).length [] NULL_LSN).2 + 1).toNat :=
    List.take_append_of_le_length hk
  have hst : LsnStrict ((L ++ extra).take
      ((buildToUndo cond (L ++ extra) (L ++ extra).length [] NULL_LSN).2 + 1).toNat) := by
    rw [htk]
    exact List.Pairwise.sublist (List.take_sublist _ L) hstrict
  have key := undoLoop_eq_undoList (L ++ extra) abort_one cond _ h1 hst tx_id s
  rw [h2] at key
  rw [hheap]
  exact key

theorem pageWrite_accept (e : StorageEngine) (pageID offset : Int) (bytes : String) (lsn : Int)
    (h : AcceptsAll e) :
    (e.pageWrite pageID offset bytes lsn).1 = true ∧
    AcceptsAll (e.pageWrite pageID offset bytes lsn).2 ∧
    (e.pageWrite pageID offset bytes lsn).2.pages =
      StorageEngine.writePage e.pages pageID offset bytes lsn
    := by
  unfold StorageEngine.pageWrite
  cases ho : e.oracle with
  | nil =>
    refine ⟨rfl, ?_, rfl⟩
    intro b hb
    simp only [ho] at hb
    exact absurd hb (by simp)
  | cons b rest =>
    have hb : b = true := h b (by simp [ho])
    subst hb
    refine ⟨rfl, ?_, rfl⟩
    intro b hb
    exact h b (by simp only [ho]; exact List.mem_cons_of_mem _ hb)

theorem undoRecord_update_more (log : List LogRecord) (abort_one : Bool) (s : State)
    (tx_id lsn prevLSN tx pg off : Int) (before after : String)
    (hacc : AcceptsAll s.se) (hprev : prevLSN ≠ NULL_LSN) :
    ∃ s1 c, undoRecord log abort_one (LogRecord.update lsn prevLSN tx pg off before after)
        tx_id s = some (false, tx, s1) ∧
      s1.logtail = s.logtail ++ [c] ∧
      Compensates (LogRecord.update lsn prevLSN tx pg off before after) c ∧
      c.getTxID = tx ∧ AcceptsAll s1.se ∧
      ∀ t, t ≠ tx → mfind s1.tx_table t = mfind s.tx_table t := by
  have hw := pageWrite_accept s.se.nextLSN.2 pg off before lsn hacc
  have h1 : (undoCompensate log abort_one s lsn prevLSN tx pg off before).1 = true := hw.1
  obtain ⟨pl, hl, htab, -⟩ := undoCompensate_fields log abort_one s lsn prevLSN tx pg off before
  refine ⟨(undoCompensate log abort_one s lsn prevLSN tx pg off before).2,
    LogRecord.clr (s.se.lsnCounter : Int) pl tx pg off before prevLSN, ?_, hl, ?_, rfl,
    hw.2.1, ?_⟩
  · simp [undoRecord, h1, hprev]
  · exact ⟨rfl, rfl, rfl, rfl, rfl⟩
  · intro t ht
    rw [htab]
    exact mfind_tableSetLastLSN_ne _ _ _ _ ht

theorem undoRecord_update_last (log : List LogRecord) (abort_one : Bool) (s : State)
    (tx_id lsn prevLSN tx pg off : Int) (before after : String)
    (hacc : AcceptsAll s.se) (hprev : prevLSN = NULL_LSN) :
    ∃ s1 c e, undoRecord log abort_one (LogRecord.update lsn prevLSN tx pg off before after)
        tx_id s = some (abort_one, tx, s1) ∧
      s1.logtail = s.logtail ++ [c, e] ∧
      Compensates (LogRecord.update lsn prevLSN tx pg off before after) c ∧
      c.getTxID = tx ∧ e.getType = TxType.END ∧ e.getTxID = tx ∧ AcceptsAll s1.se ∧
      mfind s1.tx_table tx = none ∧
      ∀ t, t ≠ tx → mfind s1.tx_table t = mfind s.tx_table t := by
  subst hprev
  have hw := pageWrite_accept s.se.nextLSN.2 pg off before lsn hacc
  have h1 : (undoCompensate log abort_one s lsn NULL_LSN tx pg off before).1 = true := hw.1
  obtain ⟨pl, hl, htab, -⟩ := undoCompensate_fields log abort_one s lsn NULL_LSN tx pg off before
  refine ⟨undoEnd (undoCompensate log abort_one s lsn NULL_LSN tx pg off before).2
      (((undoCompensate log abort_one s lsn NULL_LSN tx pg off before).2.logtail.getLast?.map
        LogRecord.getLSN).getD NULL_LSN) tx,
    LogRecord.clr (s.se.lsnCounter : Int) pl tx pg off before NULL_LSN,
    LogRecord.plain (undoCompensate log abort_one s lsn NULL_LSN tx pg off before).2.se.nextLSN.1
      (((undoCompensate log abort_one s lsn NULL_LSN tx pg off before).2.logtail.getLast?.map
        LogRecord.getLSN).getD NULL_LSN) tx .END,
    ?_, ?_, ?_, rfl, rfl, rfl, ?_, ?_, ?_⟩
  · simp [undoRecord, h1]
  · simp only [undoEnd]
    rw [hl]
    simp
  · exact ⟨rfl, rfl, rfl, rfl, rfl⟩
  · exact hw.2.1
  · exact mfind_merase_self _ _
  · intro t ht
    simp only [undoEnd]
    rw [mfind_merase_ne _ _ _ ht, htab]
    exact mfind_tableSetLastLSN_ne _ _ _ _ ht

theorem isUndoable_cases (r : LogRecord) (h : isUndoable r = true) :
    (∃ l p t pg off b a, r = LogRecord.update l p t pg off b a) ∨
    (∃ l p t pg off a u, r = LogRecord.clr l p t pg off a u) := by
  cases r with
  | plain l p t ty => cases ty <;> simp [isUndoable, LogRecord.getType, HeaderType.toTxType] at h
  | update l p t pg off b a => exact Or.inl ⟨l, p, t, pg, off, b, a, rfl⟩
  | clr l p t pg off a u => exact Or.inr ⟨l, p, t, pg, off, a, u, rfl⟩
  | chkpt l p t tt d => simp [isUndoable, LogRecord.getType] at h

theorem undoList_other (log : List LogRecord) (T : Int) :
    ∀ (cands : List LogRecord) (tx_id : Int) (s : State), AcceptsAll s.se →
      (∀ r ∈ cands, isUndoable r = true) → (∀ r ∈ cands, r.getTxID ≠ T) →
      (∀ r ∈ cands, ∀ l p t pg off a u, r = LogRecord.clr l p t pg off a u → u ≠ NULL_LSN) →
      ∃ s1 app, undoList log false cands tx_id s = some s1 ∧ s1.logtail = s.logtail ++ app ∧
        app.filter (fun r => decide (r.getTxID = T)) = [] ∧
        (mfind s.tx_table T = none → mfind s1.tx_table T = none) := by
  intro cands
  induction cands with
  | nil =>
    intro tx_id s _ _ _ _
    exact ⟨s, [], rfl, by simp, rfl, fun h => h⟩
  | cons r rs ih =>
    intro tx_id s hacc hval hne hclr
    have hval2 : ∀ x ∈ rs, isUndoable x = true := fun x hx => hval x (List.mem_cons_of_mem _ hx)
    have hne2 : ∀ x ∈ rs, x.getTxID ≠ T := fun x hx => hne x (List.mem_cons_of_mem _ hx)
    have hclr2 : ∀ x ∈ rs, ∀ l p t pg off a u, x = LogRecord.clr l p t pg off a u →
        u ≠ NULL_LSN := fun x hx => hclr x (List.mem_cons_of_mem _ hx)
    rcases isUndoable_cases r (hval r (by simp)) with
      ⟨l, p, t, pg, off, b, a, rfl⟩ | ⟨l, p, t, pg, off, a, u, rfl⟩
    · have htT : t ≠ T := hne (LogRecord.update l p t pg off b a) (by simp)
      by_cases hp : p = NULL_LSN
      · obtain ⟨s1, c, e, hrec, htl, -, hct, -, het, hacc1, -, hother⟩ :=
          undoRecord_update_last log false s tx_id l p t pg off b a hacc hp
        obtain ⟨s2, app, hrun, htl2, hfil, hkeep⟩ := ih t s1 hacc1 hval2 hne2 hclr2
        refine ⟨s2, [c, e] ++ app, ?_, ?_, ?_, ?_⟩
        · rw [undoList, hrec]
          exact hrun
        · rw [htl2, htl]
          simp
        · rw [List.filter_append, hfil]
          simp [hct, het, htT]
        · intro hn
          exact hkeep (by rw [hother T (fun h => htT h.symm)]; exact hn)
      · obtain ⟨s1, c, hrec, htl, -, hct, hacc1, hother⟩ :=
          undoRecord_update_more log false s tx_id l p t pg off b a hacc hp
        obtain ⟨s2, app, hrun, htl2, hfil, hkeep⟩ := ih t s1 hacc1 hval2 hne2 hclr2
        refine ⟨s2, [c] ++ app, ?_, ?_, ?_, ?_⟩
        · rw [undoList, hrec]
          exact hrun
        · rw [htl2, htl]
          simp
        · rw [List.filter_append, hfil]
          simp [hct, htT]
        · intro hn
          exact hkeep (by rw [hother T (fun h => htT h.symm)]; exact hn)
    · have hu : u ≠ NULL_LSN :=
        hclr (LogRecord.clr l p t pg off a u) (by simp) l p t pg off a u rfl
      obtain ⟨s2, app, hrun, htl2, hfil, hkeep⟩ := ih tx_id s hacc hval2 hne2 hclr2
      refine ⟨s2, app, ?_, htl2, hfil, hkeep⟩
      rw [undoList]
      simp only [undoRecord, hu, if_false]
      exact hrun

theorem undoList_chain (log : List LogRecord) (abort_one : Bool) (T : Int) :
    ∀ (cands front : List LogRecord) (u1 : LogRecord) (tx_id : Int) (s : State),
      AcceptsAll s.se →
      (∀ r ∈ cands, isUndoable r = true) →
      (∀ r ∈ cands, ∀ l p t pg off a u, r = LogRecord.clr l p t pg off a u →
        t ≠ T ∧ u ≠ NULL_LSN) →
      (abort_one = true → ∀ r ∈ cands, r.getTxID = T) →
      cands.filter (fun r => decide (r.getTxID = T)) = front ++ [u1] →
      (∀ x ∈ front, x.getprevLSN ≠ NULL_LSN) → u1.getprevLSN = NULL_LSN →
      ∃ s1 app clrs en, undoList log abort_one cands tx_id s = some s1 ∧
        s1.logtail = s.logtail ++ app ∧
        app.filter (fun r => decide (r.getTxID = T)) = clrs ++ [en] ∧
        List.Forall₂ Compensates (front ++ [u1]) clrs ∧
        en.getType = TxType.END ∧ en.getTxID = T ∧
        mfind s1.tx_table T = none ∧
        (abort_one = true → app = clrs ++ [en]) := by
  intro cands
  induction cands with
  | nil =>
    intro front u1 tx_id s _ _ _ _ hfil _ _
    simp at hfil
  | cons r rs ih =>
    intro front u1 tx_id s hacc hval hclr hab hfil hfront hu1
    have hval2 : ∀ x ∈ rs, isUndoable x = true := fun x hx => hval x (List.mem_cons_of_mem _ hx)
    have hclr2 : ∀ x ∈ rs, ∀ l p t pg off a u, x = LogRecord.clr l p t pg off a u →
        t ≠ T ∧ u ≠ NULL_LSN := fun x hx => hclr x (List.mem_cons_of_mem _ hx)
    have hab2 : abort_one = true → ∀ x ∈ rs, x.getTxID = T :=
      fun h x hx => hab h x (List.mem_cons_of_mem _ hx)
    rcases isUndoable_cases r (hval r (by simp)) with
      ⟨l, p, t, pg, off, b, a, rfl⟩ | ⟨l, p, t, pg, off, a, u, rfl⟩
    · by_cases htT : t = T
      · subst htT
        have hfil1 : LogRecord.update l p t pg off b a ::
            rs.filter (fun r => decide (r.getTxID = t)) = front ++ [u1] := by
          simpa [List.filter_cons, LogRecord.getTxID] using hfil
        cases front with
        | nil =>
          simp only [List.nil_append, List.cons.injEq] at hfil1
          obtain ⟨hu, hrs⟩ := hfil1
          have hp : p = NULL_LSN := by
            rw [← hu] at hu1
            exact hu1
          cases abort_one with
          | true =>
            obtain ⟨s1, c, e, hrec, htl, hcomp, hct, hety, het, hacc1, hgone, -⟩ :=
              undoRecord_update_last log true s tx_id l p t pg off b a hacc hp
            refine ⟨s1, [c, e], [c], e, ?_, htl, ?_, ?_, hety, het, hgone, fun _ => rfl⟩
            · rw [undoList, hrec]
            · simp [hct, het]
            · rw [← hu]
              exact List.Forall₂.cons hcomp List.Forall₂.nil
          | false =>
            obtain ⟨s1, c, e, hrec, htl, hcomp, hct, hety, het, hacc1, hgone, -⟩ :=
              undoRecord_update_last log false s tx_id l p t pg off b a hacc hp
            have hne2 : ∀ x ∈ rs, x.getTxID ≠ t := by
              intro x hx hxt
              have : x ∈ rs.filter (fun r => decide (r.getTxID = t)) :=
                List.mem_filter.mpr ⟨hx, by simpa using hxt⟩
              rw [hrs] at this
              exact absurd this (by simp)
            obtain ⟨s2, app, hrun, htl2, hfil2, hkeep⟩ := undoList_other log t rs t s1 hacc1
              hval2 hne2 (fun x hx l p t pg off a u h => (hclr2 x hx l p t pg off a u h).2)
            refine ⟨s2, [c, e] ++ app, [c], e, ?_, ?_, ?_, ?_, hety, het, hkeep hgone, ?_⟩
            · rw [undoList, hrec]
              exact hrun
            · rw [htl2, htl]
              simp
            · rw [List.filter_append, hfil2]
              simp [hct, het]
            · rw [← hu]
              exact List.Forall₂.cons hcomp List.Forall₂.nil
            · intro h
              exact absurd h (by simp)
        | cons f front2 =>
          simp only [List.cons_append, List.cons.injEq] at hfil1
          obtain ⟨hf, hrs⟩ := hfil1
          have hp : p ≠ NULL_LSN := by
            have := hfront f (by simp)
            rw [← hf] at this
            exact this
          obtain ⟨s1, c, hrec, htl, hcomp, hct, hacc1, -⟩ :=
            undoRecord_update_more log abort_one s tx_id l p t pg off b a hacc hp
          obtain ⟨s2, app, clrs, en, hrun, htl2, hfil2, hall, hety, het, hgone, happ⟩ :=
            ih front2 u1 t s1 hacc1 hval2 hclr2 hab2 hrs
              (fun x hx => hfront x (List.mem_cons_of_mem _ hx)) hu1
          refine ⟨s2, [c] ++ app, c :: clrs, en, ?_, ?_, ?_, ?_, hety, het, hgone, ?_⟩
          · rw [undoList, hrec]
            exact hrun
          · rw [htl2, htl]
            simp
          · rw [List.filter_append, hfil2]
            simp [hct]
          · rw [← hf]
            exact List.Forall₂.cons hcomp hall
          · intro h
            rw [happ h]
            rfl
      · have habf : abort_one = false := by
          cases hb : abort_one with
          | false => rfl
          | true => exact absurd (hab hb (LogRecord.update l p t pg off b a) (by simp)) htT
        subst habf
        have hfil1 : rs.filter (fun r => decide (r.getTxID = T)) = front ++ [u1] := by
          simpa [List.filter_cons, LogRecord.getTxID, htT] using hfil
        by_cases hp : p = NULL_LSN
        · obtain ⟨s1, c, e, hrec, htl, -, hct, -, het, hacc1, -, -⟩ :=
            undoRecord_update_last log false s tx_id l p t pg off b a hacc hp
          obtain ⟨s2, app, clrs, en, hrun, htl2, hfil2, hall, hety, het2, hgone, -⟩ :=
            ih front u1 t s1 hacc1 hval2 hclr2 hab2 hfil1 hfront hu1
          refine ⟨s2, [c, e] ++ app, clrs, en, ?_, ?_, ?_, hall, hety, het2, hgone, ?_⟩
          · rw [undoList, hrec]
            exact hrun
          · rw [htl2, htl]
            simp
          · rw [List.filter_append, hfil2]
            simp [hct, het, htT]
          · intro h
            exact absurd h (by simp)
        · obtain ⟨s1, c, hrec, htl, -, hct, hacc1, -⟩ :=
            undoRecord_update_more log false s tx_id l p t pg off b a hacc hp
          obtain ⟨s2, app, clrs, en, hrun, htl2, hfil2, hall, hety, het2, hgone, -⟩ :=
            ih front u1 t s1 hacc1 hval2 hclr2 hab2 hfil1 hfront hu1
          refine ⟨s2, [c] ++ app, clrs, en, ?_, ?_, ?_, hall, hety, het2, hgone, ?_⟩
          · rw [undoList, hrec]
            exact hrun
          · rw [htl2, htl]
            simp
          · rw [List.filter_append, hfil2]
            simp [hct, htT]
          · intro h
            exact absurd h (by simp)
    · obtain ⟨htT, hu⟩ :=
        hclr (LogRecord.clr l p t pg off a u) (by simp) l p t pg off a u rfl
      have hfil1 : rs.filter (fun r => decide (r.getTxID = T)) = front ++ [u1] := by
        simpa [List.filter_cons, LogRecord.getTxID, htT] using hfil
      obtain ⟨s2, app, clrs, en, hrun, htl2, hfil2, hall, hety, het2, hgone, happ⟩ :=
        ih front u1 tx_id s hacc hval2 hclr2 hab2 hfil1 hfront hu1
      refine ⟨s2, app, clrs, en, ?_, htl2, hfil2, hall, hety, het2, hgone, happ⟩
      rw [undoList]
      simp only [undoRecord, hu, if_false]
      exact hrun

theorem undo_abort_eq (s : State) (log : List LogRecord) (T : Int) (e : txTableEntry)
    (hT : mfind s.tx_table T = some e) (hTn : T ≠ NULL_TX) :
    undo s log T =
      undoLoop log true ((buildToUndo (abortCond T) log log.length [] NULL_LSN).2 + 1).toNat
        (buildToUndo (abortCond T) log log.length [] NULL_LSN).1 NULL_TX s := by
  unfold undo
  cases htab : s.tx_table with
  | nil =>
    rw [htab] at hT
    simp [mfind] at hT
  | cons a l =>
    rw [htab] at hT
    simp only [hTn, if_false, hT]

theorem undo_pass_eq (s : State) (log : List LogRecord) (T : Int) (e : txTableEntry)
    (hT : mfind s.tx_table T = some e) :
    undo s log NULL_TX =
      undoLoop log false
        ((buildToUndo (undoPassCond s.tx_table) log log.length [] NULL_LSN).2 + 1).toNat
        (buildToUndo (undoPassCond s.tx_table) log log.length [] NULL_LSN).1 NULL_TX s := by
  unfold undo
  cases htab : s.tx_table with
  | nil =>
    rw [htab] at hT
    simp [mfind] at hT
  | cons a l => simp only [if_true]

theorem isUndoable_update_of_not_clr (r : LogRecord) (h : r.getType ≠ TxType.CLR) :
    isUndoable r = decide (r.getType = TxType.UPDATE) := by
  simp [isUndoable, h]

theorem abort_totality (s : State) (T : Int) (e : txTableEntry)
    (hstrict : LsnStrict (AllLog s)) (hT : mfind s.tx_table T = some e) (hTn : T ≠ NULL_TX)
    (hnoclr : ∀ r ∈ AllLog s, r.getTxID = T → r.getType ≠ TxType.CLR)
    (hchain : ChainedUpdates T (AllLog s)) (hacc : AcceptsAll s.se) :
    ∃ s1 clrs en, abort s T = some s1 ∧
      s1.logtail = s.logtail ++
        LogRecord.plain (s.se.lsnCounter : Int) e.lastLSN T .ABORT :: clrs ++ [en] ∧
      List.Forall₂ Compensates (updatesOf T (AllLog s)).reverse clrs ∧
      en.getType = TxType.END ∧ en.getTxID = T ∧ mfind s1.tx_table T = none := by
  obtain ⟨u, rest, hups, hu, hrest⟩ := hchain
  have hT2 : mfind (abortRecord s T e.lastLSN).tx_table T =
      some { e with lastLSN := s.se.nextLSN.1 } := by
    simp only [abortRecord, setLastLSN]
    rw [mfind_tableSetLastLSN_self, hT]
    rfl
  have hlog : s.se.getLog ++ (abortRecord s T e.lastLSN).logtail =
      AllLog s ++ [LogRecord.plain s.se.nextLSN.1 e.lastLSN T HeaderType.ABORT] := by
    simp [abortRecord, setLastLSN, AllLog, StorageEngine.getLog]
  have hfil : (AllLog s).filter (abortCond T) = updatesOf T (AllLog s) := by
    apply List.filter_congr
    intro r hr
    by_cases hrt : r.getTxID = T
    · simp [abortCond, hrt, isUndoable_update_of_not_clr r (hnoclr r hr hrt)]
    · simp [abortCond, hrt]
  have hcT : ∀ r ∈ ((AllLog s).filter (abortCond T)).reverse, r.getTxID = T := by
    intro r hr
    have := (List.mem_filter.mp (List.mem_reverse.mp hr)).2
    simp only [abortCond, Bool.and_eq_true, decide_eq_true_eq] at this
    exact this.1
  have hcands : (((AllLog s).filter (abortCond T)).reverse).filter
      (fun r => decide (r.getTxID = T)) = rest.reverse ++ [u] := by
    rw [List.filter_eq_self.mpr (fun r hr => by simpa using hcT r hr), hfil, hups]
    simp
  have hval : ∀ r ∈ ((AllLog s).filter (abortCond T)).reverse, isUndoable r = true := by
    intro r hr
    have := (List.mem_filter.mp (List.mem_reverse.mp hr)).2
    simp only [abortCond, Bool.and_eq_true] at this
    exact this.2
  have hclr : ∀ r ∈ ((AllLog s).filter (abortCond T)).reverse,
      ∀ l p t pg off a u, r = LogRecord.clr l p t pg off a u → t ≠ T ∧ u ≠ NULL_LSN := by
    intro r hr l p t pg off a u hreq
    have hm := List.mem_filter.mp (List.mem_reverse.mp hr)
    have := hnoclr r hm.1 (hcT r hr)
    rw [hreq] at this
    exact absurd rfl this
  obtain ⟨s1, app, clrs, en, hrun, htl, -, hall, hety, het, hgone, happ⟩ :=
    undoList_chain (AllLog s ++ [LogRecord.plain s.se.nextLSN.1 e.lastLSN T HeaderType.ABORT])
      true T _ rest.reverse u NULL_TX
      (abortRecord s T e.lastLSN)
      hacc hval hclr (fun _ => hcT) hcands
      (fun x hx => hrest x (List.mem_reverse.mp hx)) hu
  refine ⟨s1, clrs, en, ?_, ?_, ?_, hety, het, hgone⟩
  · unfold abort
    simp only [hT]
    rw [undo_abort_eq _ _ T _ hT2 hTn, hlog,
      buildThenLoop_eq_undoList (abortCond T) (AllLog s) _ true hstrict
        (by simp [abortCond, isUndoable, LogRecord.getType, HeaderType.toTxType])]
    exact hrun
  · rw [htl, happ rfl]
    simp [abortRecord, setLastLSN, StorageEngine.nextLSN]
  · rw [hups]
    simpa using hall

theorem undoPass_totality (s : State) (L : List LogRecord) (T : Int) (e : txTableEntry)
    (hstrict : LsnStrict L) (hT : mfind s.tx_table T = some e)
    (hnoclr : ∀ r ∈ L, r.getTxID = T → r.getType ≠ TxType.CLR)
    (hchain : ChainedUpdates T L) (hacc : AcceptsAll s.se)
    (hends : ∀ r ∈ L, ∀ l p t pg off a u, r = LogRecord.clr l p t pg off a u →
      (mfind s.tx_table t).isSome = true → u ≠ NULL_LSN) :
    ∃ s1 app clrs en, undo s L NULL_TX = some s1 ∧ s1.logtail = s.logtail ++ app ∧
      app.filter (fun r => decide (r.getTxID = T)) = clrs ++ [en] ∧
      List.Forall₂ Compensates (updatesOf T L).reverse clrs ∧
      en.getType = TxType.END ∧ en.getTxID = T ∧ mfind s1.tx_table T = none := by
  obtain ⟨u, rest, hups, hu, hrest⟩ := hchain
  have hfil : (L.filter (undoPassCond s.tx_table)).filter (fun r => decide (r.getTxID = T)) =
      updatesOf T L := by
    rw [List.filter_filter]
    apply List.filter_congr
    intro r hr
    by_cases hrt : r.getTxID = T
    · simp [undoPassCond, hrt, hT, isUndoable_update_of_not_clr r (hnoclr r hr hrt)]
    · simp [hrt]
  have hcands : ((L.filter (undoPassCond s.tx_table)).reverse).filter
      (fun r => decide (r.getTxID = T)) = rest.reverse ++ [u] := by
    rw [List.filter_reverse, hfil, hups]
    simp
  have hval : ∀ r ∈ (L.filter (undoPassCond s.tx_table)).reverse, isUndoable r = true := by
    intro r hr
    have := (List.mem_filter.mp (List.mem_reverse.mp hr)).2
    simp only [undoPassCond, Bool.and_eq_true] at this
    exact this.2
  have hclr : ∀ r ∈ (L.filter (undoPassCond s.tx_table)).reverse,
      ∀ l p t pg off a u, r = LogRecord.clr l p t pg off a u → t ≠ T ∧ u ≠ NULL_LSN := by
    intro r hr l p t pg off a u hreq
    have hm := List.mem_filter.mp (List.mem_reverse.mp hr)
    refine ⟨?_, ?_⟩
    · intro htT
      have := hnoclr r hm.1 (by rw [hreq]; exact htT)
      rw [hreq] at this
      exact absurd rfl this
    · refine hends r hm.1 l p t pg off a u hreq ?_
      have := hm.2
      simp only [undoPassCond, Bool.and_eq_true] at this
      rw [hreq] at this
      exact this.1
  obtain ⟨s1, app, clrs, en, hrun, htl, hfilapp, hall, hety, het, hgone, -⟩ :=
    undoList_chain L false T _ rest.reverse u NULL_TX s hacc hval hclr
      (fun h => absurd h (by simp)) hcands
      (fun x hx => hrest x (List.mem_reverse.mp hx)) hu
  refine ⟨s1, app, clrs, en, ?_, htl, hfilapp, ?_, hety, het, hgone⟩
  · rw [undo_pass_eq s L T e hT]
    have := buildThenLoop_eq_undoList (undoPassCond s.tx_table) L [] false hstrict
      (by simp) NULL_TX s
    simp only [List.append_nil] at this
    rw [this]
    exact hrun
  · rw [hups]
    simpa using hall

/-! ## Undo chain totality on one chain of UPDATEs -/

/-- Undo chain totality for a transaction with one chain of UPDATEs (a transaction id
that is used again after COMMIT and END starts a second chain, see
`abort_skips_earlier_update`): take a state whose log (disk-log ++ log-tail)
has strictly increasing LSNs, a transaction `T` of the table whose records in that log
include no CLR and whose UPDATE records form one chain (the first UPDATE of `T`, and
no other, has `prevLSN = NULL_LSN`), and an engine that accepts every `pageWrite`.
Then `abort(T)`, for `T` other than `NULL_TX`, appends the ABORT record, then exactly
one CLR for each UPDATE of `T` in the log, in descending order of the LSNs of the
UPDATEs, each CLR carrying the pageID and offset of its UPDATE, the before image as
after image and the prevLSN of the UPDATE as undoNextLSN, then one END record for
`T`, and `T` is removed from the table.  The recovery undo pass over that log does
the same among the records it appends for `T` (the records of the other transactions
it undoes lie in between), provided no CLR of a transaction of the table has
`undoNextLSN = NULL_LSN`. -/
theorem undo_chain_totality (s : State) (T : Int) (e : txTableEntry)
    (hstrict : LsnStrict (s.se.log ++ s.logtail)) (hT : mfind s.tx_table T = some e)
    (hnoclr : ∀ r ∈ s.se.log ++ s.logtail, r.getTxID = T → r.getType ≠ TxType.CLR)
    (hchain : ChainedUpdates T (s.se.log ++ s.logtail)) (hacc : AcceptsAll s.se) :
    (T ≠ NULL_TX →
      ∃ s1 clrs en, abort s T = some s1 ∧
        s1.logtail = s.logtail ++
          LogRecord.plain (s.se.lsnCounter : Int) e.lastLSN T .ABORT :: clrs ++ [en] ∧
        List.Forall₂ Compensates (updatesOf T (s.se.log ++ s.logtail)).reverse clrs ∧
        en.getType = TxType.END ∧ en.getTxID = T ∧ mfind s1.tx_table T = none) ∧
    ((∀ r ∈ s.se.log ++ s.logtail, ∀ l p t pg off a u, r = LogRecord.clr l p t pg off a u →
        (mfind s.tx_table t).isSome = true → u ≠ NULL_LSN) →
      ∃ s1 app clrs en, undo s (s.se.log ++ s.logtail) NULL_TX = some s1 ∧
        s1.logtail = s.logtail ++ app ∧
        app.filter (fun r => decide (r.getTxID = T)) = clrs ++ [en] ∧
        List.Forall₂ Compensates (updatesOf T (s.se.log ++ s.logtail)).reverse clrs ∧
        en.getType = TxType.END ∧ en.getTxID = T ∧ mfind s1.tx_table T = none) := by
  constructor
  · intro hTn
    exact abort_totality s T e hstrict hT hTn hnoclr hchain hacc
  · intro hends
    exact undoPass_totality s (s.se.log ++ s.logtail) T e hstrict hT hnoclr hchain hacc hends

/-- Witness of `undo_chain_totality`: transaction `7` with its two chained updates in
the tail is aborted. -/
theorem undo_chain_totality_witness :
    LsnStrict (twoUpdatesState.se.log ++ twoUpdatesState.logtail) ∧
    mfind twoUpdatesState.tx_table 7 = some ⟨2, TxStatus.U⟩ ∧
    ChainedUpdates 7 (twoUpdatesState.se.log ++ twoUpdatesState.logtail) ∧
    AcceptsAll twoUpdatesState.se ∧
    ∃ s1 clrs en, abort twoUpdatesState 7 = some s1 ∧
      s1.logtail = twoUpdatesState.logtail ++
        LogRecord.plain 3 2 7 .ABORT :: clrs ++ [en] ∧
      List.Forall₂ Compensates
        (updatesOf 7 (twoUpdatesState.se.log ++ twoUpdatesState.logtail)).reverse clrs ∧
      en.getType = TxType.END ∧ en.getTxID = 7 ∧ mfind s1.tx_table 7 = none :=
  have h1 : LsnStrict (twoUpdatesState.se.log ++ twoUpdatesState.logtail) := by
    unfold LsnStrict
    decide
  have h2 : mfind twoUpdatesState.tx_table 7 = some ⟨2, TxStatus.U⟩ := rfl
  have h3 : ∀ r ∈ twoUpdatesState.se.log ++ twoUpdatesState.logtail,
      r.getTxID = 7 → r.getType ≠ TxType.CLR := by decide
  have h4 : ChainedUpdates 7 (twoUpdatesState.se.log ++ twoUpdatesState.logtail) :=
    ⟨LogRecord.update 1 NULL_LSN 7 1 0 " " "a", [LogRecord.update 2 1 7 2 0 " " "b"],
      by decide, rfl, by decide⟩
  have h5 : AcceptsAll twoUpdatesState.se := by
    unfold AcceptsAll
    decide
  ⟨h1, h2, h4, h5, (undo_chain_totality twoUpdatesState 7 _ h1 h2 h3 h4 h5).1 (by decide)⟩

/-- A transaction id used again: `write(7, 1, 0, "a", " ")`, `commit(7)`, `write(7, 1,
1, "b", " ")` from the initial state, then `abort(7)`.  The log holds two UPDATE
records with txID `7` (LSNs 1 and 4), the first one of the transaction that has
committed and ended; `abort(7)` appends one CLR, for the UPDATE with LSN 4, and then
the END record. -/
theorem abort_skips_earlier_update :
    Initial initState ∧
    ∃ s s1, run initState [Op.write 7 1 0 "a" " ", Op.commit 7, Op.write 7 1 1 "b" " "] = some s ∧
      LsnStrict (s.se.log ++ s.logtail) ∧
      mfind s.tx_table 7 = some ⟨4, TxStatus.U⟩ ∧
      (∀ r ∈ s.se.log ++ s.logtail, r.getTxID = 7 → r.getType ≠ TxType.CLR) ∧
      AcceptsAll s.se ∧
      updatesOf 7 (s.se.log ++ s.logtail) =
        [LogRecord.update 1 NULL_LSN 7 1 0 " " "a", LogRecord.update 4 NULL_LSN 7 1 1 " " "b"] ∧
      abort s 7 = some s1 ∧
      s1.logtail = s.logtail ++ [LogRecord.plain 5 4 7 .ABORT,
        LogRecord.clr 6 5 7 1 1 " " NULL_LSN, LogRecord.plain 7 6 7 .END] ∧
      s1.se.log = s.se.log ∧
      ((s1.se.log ++ s1.logtail).filter (fun r => decide (r.getType = TxType.CLR))).length = 1 :=
  ⟨⟨rfl, rfl, rfl, rfl, rfl⟩, _, _, rfl, by unfold LsnStrict; decide, rfl, by decide,
    by unfold AcceptsAll; decide, by decide, rfl, rfl, rfl, by decide⟩

/-! ## Writes on one page -/

theorem applyPW_content_uncovered (pg : Page) (w : PWrite) (x : Int) (h : w.covers x = false) :
    (applyPW pg w).content x = pg.content x := by
  simp only [PWrite.covers, decide_eq_false_iff_not] at h
  simp only [applyPW, StorageEngine.writeBytes, h, if_false]

theorem applyPW_content_covered (pg pg1 : Page) (w : PWrite) (x : Int) (h : w.covers x = true) :
    (applyPW pg w).content x = (applyPW pg1 w).content x := by
  simp only [PWrite.covers, decide_eq_true_eq] at h
  simp only [applyPW, StorageEngine.writeBytes, h, and_self, if_true]

theorem foldl_applyPW_uncovered (W : List PWrite) (x : Int) :
    ∀ (pg : Page), (∀ w ∈ W, w.covers x = false) →
      (W.foldl applyPW pg).content x = pg.content x := by
  induction W with
  | nil =>
    intro pg _
    rfl
  | cons w ws ih =>
    intro pg h
    simp only [List.foldl_cons]
    rw [ih (applyPW pg w) (fun v hv => h v (List.mem_cons_of_mem _ hv))]
    exact applyPW_content_uncovered pg w x (h w (by simp))

theorem foldl_applyPW_covered (W : List PWrite) (x : Int) :
    ∀ (pg pg1 : Page), (∃ w ∈ W, w.covers x = true) →
      (W.foldl applyPW pg).content x = (W.foldl applyPW pg1).content x := by
  induction W with
  | nil =>
    intro pg pg1 h
    obtain ⟨w, hw, _⟩ := h
    simp at hw
  | cons w ws ih =>
    intro pg pg1 h
    simp only [List.foldl_cons]
    by_cases hws : ∃ v ∈ ws, v.covers x = true
    · exact ih _ _ hws
    · have hnone : ∀ v ∈ ws, v.covers x = false := by
        intro v hv
        cases hc : v.covers x with
        | false => rfl
        | true => exact absurd ⟨v, hv, hc⟩ hws
      have hw : w.covers x = true := by
        obtain ⟨v, hv, hc⟩ := h
        rcases List.mem_cons.mp hv with hv | hv
        · rw [← hv]; exact hc
        · rw [hnone v hv] at hc
          exact absurd hc (by simp)
      rw [foldl_applyPW_uncovered ws x _ hnone, foldl_applyPW_uncovered ws x _ hnone]
      exact applyPW_content_covered pg pg1 w x hw

theorem foldl_applyPW_pageLSN_indep (W : List PWrite) :
    ∀ (pg pg1 : Page), W ≠ [] → (W.foldl applyPW pg).pageLSN = (W.foldl applyPW pg1).pageLSN := by
  induction W with
  | nil =>
    intro pg pg1 h
    exact absurd rfl h
  | cons w ws ih =>
    intro pg pg1 _
    simp only [List.foldl_cons]
    cases ws with
    | nil => rfl
    | cons v vs => exact ih _ _ (by simp)

theorem foldl_applyPW_pageLSN_ge (A : List PWrite) :
    ∀ (pg : Page), A.Pairwise (fun a b => a.lsn < b.lsn) → (∀ w ∈ A, pg.pageLSN ≤ w.lsn) →
      pg.pageLSN ≤ (A.foldl applyPW pg).pageLSN ∧
      ∀ w ∈ A, w.lsn ≤ (A.foldl applyPW pg).pageLSN := by
  induction A with
  | nil =>
    intro pg _ _
    exact ⟨le_refl _, by simp⟩
  | cons w ws ih =>
    intro pg hp h0
    have hp2 := List.pairwise_cons.mp hp
    have hih := ih (applyPW pg w) hp2.2 (fun v hv => le_of_lt (hp2.1 v hv))
    simp only [List.foldl_cons]
    have hw : (applyPW pg w).pageLSN = w.lsn := rfl
    rw [hw] at hih
    refine ⟨le_trans (h0 w (by simp)) hih.1, ?_⟩
    intro v hv
    rcases List.mem_cons.mp hv with hv | hv
    · rw [hv]; exact hih.1
    · exact hih.2 v hv

theorem foldl_condPW_threshold (A : List PWrite) (q : Int) :
    ∀ (pg : Page), A.Pairwise (fun a b => a.lsn < b.lsn) → q ≤ pg.pageLSN →
      (∀ w ∈ A, pg.pageLSN < w.lsn ∨ w.lsn ≤ q) →
      A.foldl condPW pg = (A.filter (fun w => decide (q < w.lsn))).foldl applyPW pg := by
  induction A with
  | nil =>
    intro pg _ _ _
    rfl
  | cons w ws ih =>
    intro pg hp hq h
    have hp2 := List.pairwise_cons.mp hp
    simp only [List.foldl_cons]
    by_cases hlt : pg.pageLSN < w.lsn
    · have hqw : q < w.lsn := by omega
      have hc : condPW pg w = applyPW pg w := by simp [condPW, hlt]
      rw [hc, List.filter_cons_of_pos (by simpa using hqw), List.foldl_cons]
      apply ih (applyPW pg w) hp2.2
      · show q ≤ w.lsn
        omega
      · intro v hv
        left
        exact hp2.1 v hv
    · have hqw : ¬ q < w.lsn := by
        rcases h w (by simp) with h1 | h1
        · exact absurd h1 hlt
        · omega
      have hc : condPW pg w = pg := by simp [condPW, hlt]
      rw [hc, List.filter_cons_of_neg (by simpa using hqw)]
      exact ih pg hp2.2 hq (fun v hv => h v (List.mem_cons_of_mem _ hv))

theorem filter_split_ascending (A : List PWrite) (q : Int)
    (hp : A.Pairwise (fun a b => a.lsn < b.lsn)) :
    A = A.filter (fun w => decide (w.lsn ≤ q)) ++ A.filter (fun w => decide (q < w.lsn)) := by
  induction A with
  | nil => rfl
  | cons w ws ih =>
    have hp2 := List.pairwise_cons.mp hp
    by_cases hle : w.lsn ≤ q
    · have hn : ¬ q < w.lsn := by omega
      rw [List.filter_cons_of_pos (by simpa using hle),
        List.filter_cons_of_neg (by simpa using hn), List.cons_append, ← ih hp2.2]
    · have hlt : q < w.lsn := by omega
      have hnone : ws.filter (fun w => decide (w.lsn ≤ q)) = [] := by
        rw [List.filter_eq_nil_iff]
        intro v hv
        have := hp2.1 v hv
        simp only [decide_eq_true_eq]
        omega
      have hall : ws.filter (fun w => decide (q < w.lsn)) = ws := by
        rw [List.filter_eq_self]
        intro v hv
        have := hp2.1 v hv
        simp only [decide_eq_true_eq]
        omega
      rw [List.filter_cons_of_neg (by simpa using hle),
        List.filter_cons_of_pos (by simpa using hlt), hnone, hall]
      rfl

theorem page_idem (A U : List PWrite) (pg0 : Page)
    (hA : A.Pairwise (fun a b => a.lsn < b.lsn)) (h0 : ∀ w ∈ A, pg0.pageLSN < w.lsn) :
    (U.foldl applyPW (A.foldl condPW (U.foldl applyPW (A.foldl condPW pg0))) ).pageLSN =
      (U.foldl applyPW (A.foldl condPW pg0)).pageLSN ∧
    ∀ x, (U.foldl applyPW (A.foldl condPW (U.foldl applyPW (A.foldl condPW pg0)))).content x =
      (U.foldl applyPW (A.foldl condPW pg0)).content x := by
  have hR1 : A.foldl condPW pg0 = A.foldl applyPW pg0 := by
    rw [foldl_condPW_threshold A pg0.pageLSN pg0 hA (le_refl _) (fun w hw => Or.inl (h0 w hw))]
    congr 1
    rw [List.filter_eq_self]
    intro w hw
    simpa using h0 w hw
  rw [hR1]
  generalize hP1 : U.foldl applyPW (A.foldl applyPW pg0) = P1
  have hR2 : A.foldl condPW P1 =
      (A.filter (fun w => decide (P1.pageLSN < w.lsn))).foldl applyPW P1 :=
    foldl_condPW_threshold A P1.pageLSN P1 hA (le_refl _) (fun w _ => by omega)
  rw [hR2]
  have hUnil : U = [] → A.filter (fun w => decide (P1.pageLSN < w.lsn)) = [] := by
    intro hU
    subst hU
    simp only [List.foldl_nil] at hP1
    have hge := (foldl_applyPW_pageLSN_ge A pg0 hA (fun w hw => le_of_lt (h0 w hw))).2
    rw [hP1] at hge
    rw [List.filter_eq_nil_iff]
    intro w hw
    have := hge w hw
    simp only [decide_eq_true_eq]
    omega
  constructor
  · cases hU : U with
    | nil =>
      rw [hUnil hU]
      rfl
    | cons u us =>
      rw [← hP1, hU]
      exact foldl_applyPW_pageLSN_indep (u :: us) _ _ (by simp)
  · intro x
    by_cases hcU : ∃ u ∈ U, u.covers x = true
    · rw [← hP1]
      exact foldl_applyPW_covered U x _ _ hcU
    · have hnoneU : ∀ u ∈ U, u.covers x = false := by
        intro v hv
        cases hc : v.covers x with
        | false => rfl
        | true => exact absurd ⟨v, hv, hc⟩ hcU
      rw [foldl_applyPW_uncovered U x _ hnoneU]
      by_cases hcA : ∃ w ∈ A.filter (fun w => decide (P1.pageLSN < w.lsn)), w.covers x = true
      · have hP1x : P1.content x = (A.foldl applyPW pg0).content x := by
          rw [← hP1]
          exact foldl_applyPW_uncovered U x _ hnoneU
        rw [hP1x]
        conv_rhs => rw [filter_split_ascending A P1.pageLSN hA, List.foldl_append]
        exact foldl_applyPW_covered _ x _ _ hcA
      · have hnoneA : ∀ w ∈ A.filter (fun w => decide (P1.pageLSN < w.lsn)),
            w.covers x = false := by
          intro v hv
          cases hc : v.covers x with
          | false => rfl
          | true => exact absurd ⟨v, hv, hc⟩ hcA
        exact foldl_applyPW_uncovered _ x _ hnoneA

/-! ## The pages after `redo` and `undo` -/

theorem foldl_redoPageStep (dpt : DirtyPageTable) (p : Int) (R : List LogRecord) :
    ∀ (pg : Page), R.foldl (redoPageStep dpt p) pg =
      (R.filterMap (redoView dpt p)).foldl condPW pg := by
  induction R with
  | nil =>
    intro pg
    rfl
  | cons r rs ih =>
    intro pg
    cases hv : redoView dpt p r with
    | none => simp [List.filterMap_cons, hv, redoPageStep, ih]
    | some w => simp [List.filterMap_cons, hv, redoPageStep, ih]

theorem foldl_undoPageStep (p : Int) (C : List LogRecord) :
    ∀ (pg : Page), C.foldl (undoPageStep p) pg = (C.filterMap (undoView p)).foldl applyPW pg := by
  induction C with
  | nil =>
    intro pg
    rfl
  | cons r rs ih =>
    intro pg
    cases hv : undoView p r with
    | none => simp [List.filterMap_cons, hv, undoPageStep, ih]
    | some w => simp [List.filterMap_cons, hv, undoPageStep, ih]

theorem redoView_lsn (dpt : DirtyPageTable) (p : Int) (r : LogRecord) (w : PWrite)
    (h : redoView dpt p r = some w) : w.lsn = r.getLSN := by
  cases r with
  | plain l pl t ty => simp [redoView] at h
  | chkpt l pl t tt d => simp [redoView] at h
  | update l pl t pg off b a =>
    simp only [redoView] at h
    split at h
    · split at h
      · split at h
        · simp only [Option.some.injEq] at h
          rw [← h]
          rfl
        · simp at h
      · simp at h
    · simp at h
  | clr l pl t pg off a u =>
    simp only [redoView] at h
    split at h
    · split at h
      · split at h
        · simp only [Option.some.injEq] at h
          rw [← h]
          rfl
        · simp at h
      · simp at h
    · simp at h

theorem redoStep_page (dpt : DirtyPageTable) (e : StorageEngine) (pageID offset lsn : Int)
    (afterImage : String) (p : Int) (recLSN : Int) (hm : mfind dpt pageID = some recLSN) :
    (if recLSN ≤ lsn ∧ e.getLSN pageID < lsn then
        StorageEngine.writePage e.pages pageID offset afterImage lsn p
      else e.pages p) =
    (match (if pageID = p then
        (match mfind dpt pageID with
          | some recLSN => if recLSN ≤ lsn then some (⟨offset, afterImage, lsn⟩ : PWrite) else none
          | none => none)
        else none) with
      | some w => condPW (e.pages p) w
      | none => e.pages p) := by
  by_cases hp : pageID = p
  · subst hp
    by_cases h1 : recLSN ≤ lsn
    · by_cases h2 : e.getLSN pageID < lsn
      · have h3 : (e.pages pageID).pageLSN < lsn := h2
        simp [hm, h1, h2, StorageEngine.writePage, condPW, applyPW, h3]
      · have h3 : ¬ (e.pages pageID).pageLSN < lsn := h2
        simp [hm, h1, h2, condPW, h3]
    · simp [hm, h1]
  · have hp2 : ¬ p = pageID := fun h => hp h.symm
    by_cases h : recLSN ≤ lsn ∧ e.getLSN pageID < lsn
    · simp [h, hp, hp2, StorageEngine.writePage]
    · simp [h, hp]

theorem redoLoop_pages (dpt : DirtyPageTable) (recs : List LogRecord) :
    ∀ (e : StorageEngine), AcceptsAll e →
      (redoLoop dpt recs e).1 = true ∧ AcceptsAll (redoLoop dpt recs e).2 ∧
      (redoLoop dpt recs e).2.master = e.master ∧
      ∀ p, (redoLoop dpt recs e).2.pages p = recs.foldl (redoPageStep dpt p) (e.pages p) := by
  induction recs with
  | nil =>
    intro e hacc
    exact ⟨rfl, hacc, rfl, fun _ => rfl⟩
  | cons r rs ih =>
    intro e hacc
    have hstep : ∀ (pageID offset lsn : Int) (afterImage : String),
        (∀ p, redoPageStep dpt p (e.pages p) r =
          (match (if pageID = p then
            (match mfind dpt pageID with
              | some recLSN =>
                if recLSN ≤ lsn then some (⟨offset, afterImage, lsn⟩ : PWrite) else none
              | none => none)
            else none) with
          | some w => condPW (e.pages p) w
          | none => e.pages p)) →
        (redoLoop dpt (r :: rs) e =
          (match mfind dpt pageID with
          | some recLSN =>
            if recLSN ≤ lsn ∧ e.getLSN pageID < lsn then
              (if (e.pageWrite pageID offset afterImage lsn).1 then
                redoLoop dpt rs (e.pageWrite pageID offset afterImage lsn).2
              else (false, (e.pageWrite pageID offset afterImage lsn).2))
            else redoLoop dpt rs e
          | none => redoLoop dpt rs e)) →
        (redoLoop dpt (r :: rs) e).1 = true ∧ AcceptsAll (redoLoop dpt (r :: rs) e).2 ∧
        (redoLoop dpt (r :: rs) e).2.master = e.master ∧
        ∀ p, (redoLoop dpt (r :: rs) e).2.pages p =
          (r :: rs).foldl (redoPageStep dpt p) (e.pages p) := by
      intro pageID offset lsn afterImage hview hloop
      rw [hloop]
      simp only [List.foldl_cons]
      cases hm : mfind dpt pageID with
      | none =>
        obtain ⟨h1, h2, h3, h4⟩ := ih e hacc
        refine ⟨h1, h2, h3, ?_⟩
        intro p
        rw [h4 p, hview p]
        simp [hm]
      | some recLSN =>
        by_cases hc : recLSN ≤ lsn ∧ e.getLSN pageID < lsn
        · obtain ⟨hw1, hw2, hw3⟩ := pageWrite_accept e pageID offset afterImage lsn hacc
          obtain ⟨h1, h2, h3, h4⟩ := ih (e.pageWrite pageID offset afterImage lsn).2 hw2
          simp only [hc, and_self, if_true, hw1]
          refine ⟨h1, h2, ?_, ?_⟩
          · rw [h3]
            exact (pageWrite_frame e pageID offset afterImage lsn).2.2
          · intro p
            rw [h4 p, hw3, hview p, ← redoStep_page dpt e pageID offset lsn afterImage p recLSN hm]
            simp [hc]
        · obtain ⟨h1, h2, h3, h4⟩ := ih e hacc
          simp only [hc, if_false]
          refine ⟨h1, h2, h3, ?_⟩
          intro p
          rw [h4 p, hview p, ← redoStep_page dpt e pageID offset lsn afterImage p recLSN hm]
          simp [hc]
    cases r with
    | plain l pl t ty =>
      obtain ⟨h1, h2, h3, h4⟩ := ih e hacc
      simp only [redoLoop, List.foldl_cons]
      exact ⟨h1, h2, h3, fun p => by rw [h4 p]; rfl⟩
    | chkpt l pl t tt d =>
      obtain ⟨h1, h2, h3, h4⟩ := ih e hacc
      simp only [redoLoop, List.foldl_cons]
      exact ⟨h1, h2, h3, fun p => by rw [h4 p]; rfl⟩
    | update l pl t pg off b a =>
      exact hstep pg off l a (fun p => rfl) (by simp only [redoLoop])
    | clr l pl t pg off a u =>
      exact hstep pg off l a (fun p => rfl) (by simp only [redoLoop])

theorem undoRecord_pages (log : List LogRecord) (r : LogRecord) (tx_id : Int) (s : State)
    (hacc : AcceptsAll s.se) (hr : isUndoable r = true) :
    ∃ tx1 s1, undoRecord log false r tx_id s = some (false, tx1, s1) ∧ AcceptsAll s1.se ∧
      s1.se.master = s.se.master ∧
      ∀ p, s1.se.pages p = undoPageStep p (s.se.pages p) r := by
  rcases isUndoable_cases r hr with ⟨l, pl, t, pg, off, b, a, rfl⟩ | ⟨l, pl, t, pg, off, a, u, rfl⟩
  · obtain ⟨hw1, hw2, hw3⟩ := pageWrite_accept s.se.nextLSN.2 pg off b l hacc
    have hm := (pageWrite_frame s.se.nextLSN.2 pg off b l).2.2
    have h1 : (undoCompensate log false s l pl t pg off b).1 = true := hw1
    have hpages : ∀ p, (undoCompensate log false s l pl t pg off b).2.se.pages p =
        undoPageStep p (s.se.pages p) (LogRecord.update l pl t pg off b a) := by
      intro p
      have : (undoCompensate log false s l pl t pg off b).2.se.pages =
          StorageEngine.writePage s.se.pages pg off b l := hw3
      rw [this]
      by_cases hp : pg = p
      · subst hp
        simp [StorageEngine.writePage, undoPageStep, undoView, applyPW]
      · have hp2 : ¬ p = pg := fun h => hp h.symm
        simp [StorageEngine.writePage, undoPageStep, undoView, hp, hp2]
    by_cases hpl : pl = NULL_LSN
    · refine ⟨t, undoEnd (undoCompensate log false s l pl t pg off b).2
        (((undoCompensate log false s l pl t pg off b).2.logtail.getLast?.map
          LogRecord.getLSN).getD NULL_LSN) t, ?_, hw2, hm, hpages⟩
      simp only [undoRecord, h1, if_true]
      rw [if_pos hpl]
    · refine ⟨t, (undoCompensate log false s l pl t pg off b).2, ?_, hw2, hm, hpages⟩
      simp [undoRecord, h1, hpl]
  · by_cases hu : u = NULL_LSN
    · refine ⟨tx_id, undoEnd s l tx_id, ?_, hacc, rfl, fun p => rfl⟩
      simp [undoRecord, hu]
    · refine ⟨tx_id, s, ?_, hacc, rfl, fun p => rfl⟩
      simp [undoRecord, hu]

theorem undoList_pages (log : List LogRecord) (cands : List LogRecord) :
    ∀ (tx_id : Int) (s : State), AcceptsAll s.se → (∀ r ∈ cands, isUndoable r = true) →
      ∃ s1, undoList log false cands tx_id s = some s1 ∧ AcceptsAll s1.se ∧
        s1.se.master = s.se.master ∧
        ∀ p, s1.se.pages p = cands.foldl (undoPageStep p) (s.se.pages p) := by
  induction cands with
  | nil =>
    intro tx_id s hacc _
    exact ⟨s, rfl, hacc, rfl, fun _ => rfl⟩
  | cons r rs ih =>
    intro tx_id s hacc hval
    obtain ⟨tx1, s1, hrec, hacc1, hm1, hp1⟩ :=
      undoRecord_pages log r tx_id s hacc (hval r (by simp))
    obtain ⟨s2, hrun, hacc2, hm2, hp2⟩ :=
      ih tx1 s1 hacc1 (fun x hx => hval x (List.mem_cons_of_mem _ hx))
    refine ⟨s2, ?_, hacc2, by rw [hm2, hm1], ?_⟩
    · rw [undoList, hrec]
      exact hrun
    · intro p
      rw [hp2 p, hp1 p]
      rfl

theorem undoPassCond_nil (r : LogRecord) : undoPassCond [] r = false := by
  simp [undoPassCond, mfind]

theorem undoPass_pages (s : State) (L : List LogRecord) (hstrict : LsnStrict L)
    (hacc : AcceptsAll s.se) :
    ∃ s1, undo s L NULL_TX = some s1 ∧ AcceptsAll s1.se ∧ s1.se.master = s.se.master ∧
      ∀ p, s1.se.pages p =
        ((L.filter (undoPassCond s.tx_table)).reverse).foldl (undoPageStep p) (s.se.pages p) := by
  cases htab : s.tx_table with
  | nil =>
    refine ⟨s, ?_, hacc, rfl, ?_⟩
    · simp [undo, htab]
    · intro p
      have : L.filter (undoPassCond []) = [] := by
        rw [List.filter_eq_nil_iff]
        intro a _
        simp [undoPassCond_nil]
      rw [this]
      rfl
  | cons kv rest =>
    have hval : ∀ r ∈ (L.filter (undoPassCond s.tx_table)).reverse, isUndoable r = true := by
      intro r hr
      have := (List.mem_filter.mp (List.mem_reverse.mp hr)).2
      simp only [undoPassCond, Bool.and_eq_true] at this
      exact this.2
    obtain ⟨s1, hrun, hacc1, hm1, hp1⟩ := undoList_pages L _ NULL_TX s hacc hval
    refine ⟨s1, ?_, hacc1, hm1, ?_⟩
    · have heq : undo s L NULL_TX =
          undoLoop L false
            ((buildToUndo (undoPassCond s.tx_table) L L.length [] NULL_LSN).2 + 1).toNat
            (buildToUndo (undoPassCond s.tx_table) L L.length [] NULL_LSN).1 NULL_TX s := by
        simp [undo, htab]
      have := buildThenLoop_eq_undoList (undoPassCond s.tx_table) L [] false hstrict
        (by simp) NULL_TX s
      simp only [List.append_nil] at this
      rw [heq, this]
      exact hrun
    · intro p
      rw [← htab]
      exact hp1 p

theorem redoEnds_spec (tab : TxTable) :
    ∀ (tail : List LogRecord) (e : StorageEngine),
      (redoEnds tab tail e).1 = afterRedoTable tab ∧
      (redoEnds tab tail e).2.2.pages = e.pages ∧
      (redoEnds tab tail e).2.2.oracle = e.oracle ∧
      (redoEnds tab tail e).2.2.master = e.master := by
  induction tab with
  | nil =>
    intro tail e
    exact ⟨rfl, rfl, rfl, rfl⟩
  | cons kv rest ih =>
    intro tail e
    obtain ⟨txid, ent⟩ := kv
    by_cases hc : ent.status = TxStatus.C
    · obtain ⟨h1, h2, h3, h4⟩ := ih (tail ++ [LogRecord.plain e.nextLSN.1 ent.lastLSN txid .END])
        e.nextLSN.2
      simp only [redoEnds, hc, if_true, afterRedoTable, List.filter_cons, decide_True,
        Bool.not_true] at h1 ⊢
      exact ⟨h1, h2, h3, h4⟩
    · obtain ⟨h1, h2, h3, h4⟩ := ih tail e
      simp only [redoEnds, hc, if_false, afterRedoTable, List.filter_cons, decide_False,
        Bool.not_false, if_true] at h1 ⊢
      exact ⟨by rw [h1], h2, h3, h4⟩

theorem redo_pages (s : State) (L : List LogRecord) (hacc : AcceptsAll s.se) :
    (redo s L).1 = true ∧ (redo s L).2.tx_table = afterRedoTable s.tx_table ∧
    AcceptsAll (redo s L).2.se ∧ (redo s L).2.se.master = s.se.master ∧
    ∀ p, (redo s L).2.se.pages p =
      (redoRecs s.dirty_page_table L).foldl (redoPageStep s.dirty_page_table p)
        (s.se.pages p) := by
  have hloop := redoLoop_pages s.dirty_page_table (redoRecs s.dirty_page_table L) s.se hacc
  have hafter : (match s.dirty_page_table with
      | [] => ((true, s.se) : Bool × StorageEngine)
      | (_, l0) :: _ =>
        redoLoop s.dirty_page_table
          (L.drop (findStart (minRecLSN l0 s.dirty_page_table) L 0)) s.se) =
      redoLoop s.dirty_page_table (redoRecs s.dirty_page_table L) s.se := by
    cases hd : s.dirty_page_table with
    | nil => rfl
    | cons kv rest => rfl
  obtain ⟨h1, h2, h3, h4⟩ := hloop
  have hends := redoEnds_spec s.tx_table s.logtail
    (redoLoop s.dirty_page_table (redoRecs s.dirty_page_table L) s.se).2
  unfold redo
  simp only [hafter, h1, if_true]
  refine ⟨trivial, hends.1, ?_, ?_, ?_⟩
  · intro b hb
    have hb2 : b ∈ (redoEnds s.tx_table s.logtail
        (redoLoop s.dirty_page_table (redoRecs s.dirty_page_table L) s.se).2).2.2.oracle := hb
    rw [hends.2.2.1] at hb2
    exact h2 b hb2
  · show (redoEnds s.tx_table s.logtail
        (redoLoop s.dirty_page_table (redoRecs s.dirty_page_table L) s.se).2).2.2.master = _
    rw [hends.2.2.2, h3]
  · intro p
    show (redoEnds s.tx_table s.logtail
        (redoLoop s.dirty_page_table (redoRecs s.dirty_page_table L) s.se).2).2.2.pages p = _
    rw [hends.2.1, h4 p]

theorem redoRecs_sublist (dpt : DirtyPageTable) (L : List LogRecord) :
    List.Sublist (redoRecs dpt L) L := by
  unfold redoRecs
  cases dpt with
  | nil => exact List.nil_sublist L
  | cons kv rest => exact List.drop_sublist _ L

theorem recover_pages (e : StorageEngine) (L : List LogRecord) (hm : e.master = NULL_LSN)
    (hacc : AcceptsAll e) (hstrict : LsnStrict L) :
    ∃ s1, recover (freshOn e) L = some s1 ∧ AcceptsAll s1.se ∧ s1.se.master = NULL_LSN ∧
      ∀ p, s1.se.pages p =
        ((L.filter (undoPassCond (afterRedoTable (analyzeScan ([], []) L).1))).reverse).foldl
          (undoPageStep p)
          ((redoRecs (analyzeScan ([], []) L).2 L).foldl
            (redoPageStep (analyzeScan ([], []) L).2 p) (e.pages p)) := by
  have han := analyze_noMaster (freshOn e) L hm
  obtain ⟨hr1, hr2, hr3, hr4, hr5⟩ := redo_pages
    { freshOn e with
      tx_table := (analyzeScan ((freshOn e).tx_table, (freshOn e).dirty_page_table) L).1,
      dirty_page_table :=
        (analyzeScan ((freshOn e).tx_table, (freshOn e).dirty_page_table) L).2 } L hacc
  obtain ⟨s1, hu1, hu2, hu3, hu4⟩ := undoPass_pages _ L hstrict hr3
  refine ⟨s1, ?_, hu2, ?_, ?_⟩
  · unfold recover
    rw [han]
    simp only [hr1, if_true]
    exact hu1
  · rw [hu3, hr4]
    exact hm
  · intro p
    rw [hu4 p, hr5 p, hr2]
    rfl

/-! ## C7: recovery is idempotent on the pages -/

/-- C7: for every durable log `L` with strictly increasing LSNs, no master record, an
engine that accepts every `pageWrite`, and pages whose initial pageLSN is below every
LSN of `L`: `recover(L)` on a fresh log manager returns, `recover(L)` on a fresh log
manager bound to the engine the first run left returns as well, and after the second
run every page has the same pageLSN and the same content as after the first run. -/
theorem recover_idempotent_on_pages (e : StorageEngine) (L : List LogRecord)
    (hstrict : LsnStrict L) (hm : e.master = NULL_LSN) (hacc : AcceptsAll e)
    (hpages : ∀ p, ∀ r ∈ L, (e.pages p).pageLSN < r.getLSN) :
    ∃ s1 s2, recover (freshOn e) L = some s1 ∧ recover (freshOn s1.se) L = some s2 ∧
      ∀ p, (s2.se.pages p).pageLSN = (s1.se.pages p).pageLSN ∧
        ∀ x, (s2.se.pages p).content x = (s1.se.pages p).content x := by
  obtain ⟨s1, hrun1, hacc1, hm1, hp1⟩ := recover_pages e L hm hacc hstrict
  obtain ⟨s2, hrun2, -, -, hp2⟩ := recover_pages s1.se L hm1 hacc1 hstrict
  refine ⟨s1, s2, hrun1, hrun2, ?_⟩
  intro p
  have hsub := redoRecs_sublist (analyzeScan ([], []) L).2 L
  have hA : ((redoRecs (analyzeScan ([], []) L).2 L).filterMap
      (redoView (analyzeScan ([], []) L).2 p)).Pairwise (fun a b => a.lsn < b.lsn) := by
    refine List.Pairwise.filterMap _ ?_ (List.Pairwise.sublist hsub hstrict)
    intro a a1 haa b hb b1 hb1
    rw [redoView_lsn _ p a b (by simpa using hb), redoView_lsn _ p a1 b1 (by simpa using hb1)]
    exact haa
  have h0 : ∀ w ∈ (redoRecs (analyzeScan ([], []) L).2 L).filterMap
      (redoView (analyzeScan ([], []) L).2 p), (e.pages p).pageLSN < w.lsn := by
    intro w hw
    obtain ⟨r, hr, hv⟩ := List.mem_filterMap.mp hw
    rw [redoView_lsn _ p r w hv]
    exact hpages p r (hsub.subset hr)
  have key := page_idem _
    (((L.filter (undoPassCond (afterRedoTable (analyzeScan ([], []) L).1))).reverse).filterMap
      (undoView p)) (e.pages p) hA h0
  rw [hp2 p, hp1 p]
  simp only [foldl_undoPageStep, foldl_redoPageStep]
  exact key

/-- Witness of `recover_idempotent_on_pages`: a log with an update of a transaction
that is not committed (it is undone) and an update of one that is (it is redone),
on blank pages. -/
theorem recover_idempotent_on_pages_witness :
    LsnStrict [LogRecord.update 1 NULL_LSN 7 1 0 " " "a", LogRecord.update 2 NULL_LSN 8 1 1 " " "b",
      LogRecord.plain 3 2 8 .COMMIT] ∧
    ∃ s1 s2, recover (freshOn initEngine)
        [LogRecord.update 1 NULL_LSN 7 1 0 " " "a", LogRecord.update 2 NULL_LSN 8 1 1 " " "b",
          LogRecord.plain 3 2 8 .COMMIT] = some s1 ∧
      recover (freshOn s1.se)
        [LogRecord.update 1 NULL_LSN 7 1 0 " " "a", LogRecord.update 2 NULL_LSN 8 1 1 " " "b",
          LogRecord.plain 3 2 8 .COMMIT] = some s2 ∧
      ∀ p, (s2.se.pages p).pageLSN = (s1.se.pages p).pageLSN ∧
        ∀ x, (s2.se.pages p).content x = (s1.se.pages p).content x :=
  have h1 : LsnStrict [LogRecord.update 1 NULL_LSN 7 1 0 " " "a",
      LogRecord.update 2 NULL_LSN 8 1 1 " " "b", LogRecord.plain 3 2 8 .COMMIT] := by
    unfold LsnStrict
    decide
  ⟨h1, recover_idempotent_on_pages initEngine _ h1 rfl (by unfold AcceptsAll; decide)
    (by
      intro p r hr
      simp only [List.mem_cons, List.mem_singleton, List.not_mem_nil, or_false] at hr
      rcases hr with hr | hr | hr <;> subst hr <;>
        simp [initEngine, blankPages, NULL_LSN, LogRecord.getLSN])⟩

/-! ## C11: the single-commit scenario -/

/-- C11, counterexample: after `write(1, 1, 0, "ab", "  ")` and `commit(1)` from the
initial state the durable log holds the UPDATE and the COMMIT only; no record with
LSN 3 is in it. -/
theorem single_commit_END_not_durable :
    ∃ s, run initState [Op.write 1 1 0 "ab" "  ", Op.commit 1] = some s ∧
      s.se.log = [LogRecord.update 1 NULL_LSN 1 1 0 "  " "ab", LogRecord.plain 2 1 1 .COMMIT] ∧
      ¬ ∃ r ∈ s.se.log, r.getLSN = 3 :=
  ⟨_, rfl, rfl, by decide⟩

/-- C11 (amended): starting from the initial state with the engine minting LSNs 1, 2,
3, `write(T1, P1, 0, "ab", "  ")` returns 1, and after it and `commit(T1)` the durable
log is UPDATE 1, COMMIT 2, the END record 3 is the only record of the log tail, the
transaction table is empty and the dirty-page table is exactly `{P1 -> 1}`. -/
theorem single_commit_scenario (T1 P1 : Int) :
    (write initState T1 P1 0 "ab" "  ").2 = 1 ∧
    ∃ s, run initState [Op.write T1 P1 0 "ab" "  ", Op.commit T1] = some s ∧
      s.se.log = [LogRecord.update 1 NULL_LSN T1 P1 0 "  " "ab",
        LogRecord.plain 2 1 T1 .COMMIT] ∧
      s.logtail = [LogRecord.plain 3 2 T1 .END] ∧
      s.tx_table = [] ∧ s.dirty_page_table = [(P1, 1)] := by
  refine ⟨rfl, _, rfl, ?_⟩
  simp [write, commit, initState, initEngine, StorageEngine.nextLSN, tableSetLastLSN,
    tableSetStatus, mfind, minsert, merase, flushLogTail, flushLoop, StorageEngine.updateLog,
    LogRecord.getLSN, txTableEntry.fresh, NULL_LSN]

/-! ## C20: `undo` stays inside the log -/

theorem undoRecord_defined (log : List LogRecord) (abort_one : Bool) (r : LogRecord)
    (tx_id : Int) (s : State) (h : isUndoable r = true) :
    ∃ res, undoRecord log abort_one r tx_id s = some res := by
  rcases isUndoable_cases r h with ⟨l, p, t, pg, off, b, a, rfl⟩ | ⟨l, p, t, pg, off, a, u, rfl⟩
  · simp only [undoRecord]
    split
    · split
      · exact ⟨_, rfl⟩
      · exact ⟨_, rfl⟩
    · exact ⟨_, rfl⟩
  · simp only [undoRecord]
    split
    · exact ⟨_, rfl⟩
    · exact ⟨_, rfl⟩

theorem undoList_defined (log : List LogRecord) (abort_one : Bool) :
    ∀ (cands : List LogRecord) (tx_id : Int) (s : State),
      (∀ r ∈ cands, isUndoable r = true) →
      ∃ s1, undoList log abort_one cands tx_id s = some s1 := by
  intro cands
  induction cands with
  | nil =>
    intro tx_id s _
    exact ⟨s, rfl⟩
  | cons r rs ih =>
    intro tx_id s hc
    obtain ⟨⟨flag, tx1, s1⟩, hres⟩ :=
      undoRecord_defined log abort_one r tx_id s (hc r (List.mem_cons_self _ _))
    rw [undoList, hres]
    cases flag with
    | true => exact ⟨s1, rfl⟩
    | false => exact ih tx1 s1 (fun x hx => hc x (List.mem_cons_of_mem _ hx))

/-- C20: for every log whose LSNs are strictly increasing, every state of the log
manager (any transaction table, any engine) and every txID argument (`NULL_TX` for
none), `undo` returns a state: the main loop ends, and no turn of it reads `log[start]`
outside the log or with `start` below 0 while an LSN remains in `ToUndo` (in the model
both would make the result `none`). -/
theorem undo_stays_in_bounds (s : State) (log : List LogRecord) (txnum : Int)
    (hstrict : LsnStrict log) : ∃ s1, undo s log txnum = some s1 := by
  unfold undo
  cases htab : s.tx_table with
  | nil => exact ⟨s, rfl⟩
  | cons a l =>
    simp only
    by_cases hn : txnum = NULL_TX
    · simp only [hn, if_true]
      have h := buildThenLoop_eq_undoList (undoPassCond (a :: l)) log [] false hstrict
        (by simp) NULL_TX s
      simp only [List.append_nil] at h
      rw [h]
      refine undoList_defined log false _ NULL_TX s ?_
      intro r hr
      have hr1 := (List.mem_filter.mp (List.mem_reverse.mp hr)).2
      simp only [undoPassCond, Bool.and_eq_true] at hr1
      exact hr1.2
    · simp only [hn, if_false]
      cases hf : mfind (a :: l) txnum with
      | none => exact ⟨s, rfl⟩
      | some e =>
        simp only
        have h := buildThenLoop_eq_undoList (abortCond txnum) log [] true hstrict
          (by simp) NULL_TX s
        simp only [List.append_nil] at h
        rw [h]
        refine undoList_defined log true _ NULL_TX s ?_
        intro r hr
        have hr1 := (List.mem_filter.mp (List.mem_reverse.mp hr)).2
        simp only [abortCond, Bool.and_eq_true] at hr1
        exact hr1.2

/-- Witness of `undo_stays_in_bounds`: the abort of transaction 7 on a log with two of
its updates and a record of another transaction. -/
theorem undo_stays_in_bounds_witness :
    LsnStrict [LogRecord.update 1 NULL_LSN 7 1 0 " " "a", LogRecord.plain 2 NULL_LSN 8 .COMMIT,
      LogRecord.update 3 1 7 2 0 " " "b"] ∧
    ∃ s1, undo { initState with tx_table := [(7, ⟨3, TxStatus.U⟩)] }
      [LogRecord.update 1 NULL_LSN 7 1 0 " " "a", LogRecord.plain 2 NULL_LSN 8 .COMMIT,
        LogRecord.update 3 1 7 2 0 " " "b"] 7 = some s1 :=
  have h1 : LsnStrict [LogRecord.update 1 NULL_LSN 7 1 0 " " "a",
      LogRecord.plain 2 NULL_LSN 8 .COMMIT, LogRecord.update 3 1 7 2 0 " " "b"] := by
    unfold LsnStrict
    decide
  ⟨h1, undo_stays_in_bounds _ _ 7 h1⟩

/-! ## C15: `analyze` without a master record keeps the tables it finds -/

/-- C15, evaluation: without a master record `analyze` scans on top of the tables the
manager holds. On the empty log it returns every such state unchanged, and after
`write(7, 1, ..)`, `pageFlushed(1)`, `write(7, 1, ..)` from the initial state it leaves
`recLSN(1) = 2` on the log of that state, where the same log analysed from empty tables
gives `recLSN(1) = 1`. -/
theorem analyze_keeps_tables_without_master :
    (∀ s : State, s.se.master = NULL_LSN → analyze s [] = some s) ∧
    ∃ s s1 s2, run initState [Op.write 7 1 0 "a" " ", Op.pageFlushed 1, Op.write 7 1 0 "b" "a"]
        = some s ∧ s.se.master = NULL_LSN ∧
      AllLog s = [LogRecord.update 1 NULL_LSN 7 1 0 " " "a", LogRecord.update 2 1 7 1 0 "a" "b"] ∧
      analyze s (AllLog s) = some s1 ∧ s1.dirty_page_table = [(1, 2)] ∧
      analyze (freshOn s.se) (AllLog s) = some s2 ∧ s2.dirty_page_table = [(1, 1)] := by
  refine ⟨?_, _, _, _, rfl, rfl, rfl, rfl, rfl, rfl, rfl⟩
  intro s h
  rw [analyze_noMaster s [] h]
  rfl

/-! ## C16: the prevLSN of the CLRs of the undo pass -/

/-- C16, evaluation: in the recovery undo pass the CLR gets the LSN of the UPDATE it
compensates as prevLSN (line 274), whatever the transaction table holds. On the log
UPDATE 1, UPDATE 2 of transaction 7 (engine minting from 3), after the first CLR (LSN 3)
the table holds `lastLSN(7) = 3`, and the CLR appended next for UPDATE 1 has prevLSN 1.
-/
theorem undoPass_clr_prevLSN_is_update_lsn :
    (∀ (log : List LogRecord) (s : State) (lsn prevLSN txID pageID offset : Int)
        (beforeImage : String),
      (undoCompensate log false s lsn prevLSN txID pageID offset beforeImage).2.logtail =
        s.logtail ++ [LogRecord.clr (s.se.lsnCounter : Int) lsn txID pageID offset
          beforeImage prevLSN]) ∧
    ∃ s0 s1 s2,
      analyze (freshOn engineFrom3)
        [LogRecord.update 1 NULL_LSN 7 1 0 " " "a", LogRecord.update 2 1 7 1 1 " " "b"] = some s0 ∧
      undoRecord [LogRecord.update 1 NULL_LSN 7 1 0 " " "a", LogRecord.update 2 1 7 1 1 " " "b"]
        false (LogRecord.update 2 1 7 1 1 " " "b") NULL_TX
        (redo s0 [LogRecord.update 1 NULL_LSN 7 1 0 " " "a",
          LogRecord.update 2 1 7 1 1 " " "b"]).2 = some (false, 7, s1) ∧
      getLastLSN s1 7 = 3 ∧
      (undoCompensate [LogRecord.update 1 NULL_LSN 7 1 0 " " "a",
          LogRecord.update 2 1 7 1 1 " " "b"] false s1 1 NULL_LSN 7 1 0 " ").2.logtail =
        s1.logtail ++ [LogRecord.clr 4 1 7 1 0 " " NULL_LSN] ∧
      recover (freshOn engineFrom3)
        [LogRecord.update 1 NULL_LSN 7 1 0 " " "a", LogRecord.update 2 1 7 1 1 " " "b"] = some s2 ∧
      s2.logtail = [LogRecord.clr 3 2 7 1 1 " " 1, LogRecord.clr 4 1 7 1 0 " " NULL_LSN,
        LogRecord.plain 5 4 7 .END] :=
  ⟨fun _ _ _ _ _ _ _ _ => rfl, _, _, _, rfl, rfl, rfl, rfl, rfl, rfl⟩

/-! ## C17: the LSN `undo` passes to `pageWrite` -/

/-- C17, evaluation: `undo` passes the LSN of the UPDATE record to `pageWrite` (line
296), not the LSN of the CLR it has just appended. After `write(1, 1, 0, "ab", "  ")` and
`abort(1)` from the initial state the CLR has LSN 3, the call is
`pageWrite(1, 0, "  ", 1)` and the pageLSN of page 1 is 1. -/
theorem undo_pageWrite_carries_update_lsn :
    (∀ (log : List LogRecord) (abort_one : Bool) (s : State)
        (lsn prevLSN txID pageID offset : Int) (beforeImage : String),
      (undoCompensate log abort_one s lsn prevLSN txID pageID offset beforeImage).2.se.calls =
        s.se.calls ++ [EngineCall.pageWrite pageID offset beforeImage lsn]) ∧
    ∃ s, run initState [Op.write 1 1 0 "ab" "  ", Op.abort 1] = some s ∧
      s.logtail = [LogRecord.update 1 NULL_LSN 1 1 0 "  " "ab", LogRecord.plain 2 1 1 .ABORT,
        LogRecord.clr 3 2 1 1 0 "  " NULL_LSN, LogRecord.plain 4 3 1 .END] ∧
      s.se.calls = [EngineCall.pageWrite 1 0 "  " 1] ∧
      (s.se.pages 1).pageLSN = 1 :=
  ⟨fun _ _ s _ _ _ pageID offset beforeImage =>
      pageWrite_calls s.se.nextLSN.2 pageID offset beforeImage _,
    _, rfl, rfl, rfl, rfl⟩

/-! ## C18: UPDATEs that the log already compensates -/

/-- C18, evaluation: `ToUndo` holds every UPDATE and CLR of the transaction and a CLR
whose undoNextLSN is not `NULL_LSN` changes nothing (lines 301-306). After two writes of
transaction 7 and an `abort(7)` that stops at a refused page write, the tail holds CLR 4
for UPDATE 2 with undoNextLSN 1; a second `abort(7)` appends CLR 6 for UPDATE 2 again,
although 1 < 2 < 4. -/
theorem undo_compensates_update_twice :
    ∃ s1 s2,
      run refusingInitState [Op.write 7 1 0 "a" " ", Op.write 7 2 0 "b" " ", Op.abort 7]
        = some s1 ∧
      s1.tx_table = [(7, ⟨4, TxStatus.U⟩)] ∧
      AllLog s1 = [LogRecord.update 1 NULL_LSN 7 1 0 " " "a", LogRecord.update 2 1 7 2 0 " " "b",
        LogRecord.plain 3 2 7 .ABORT, LogRecord.clr 4 3 7 2 0 " " 1] ∧
      LsnStrict (AllLog s1) ∧
      abort s1 7 = some s2 ∧
      s2.logtail = s1.logtail ++ [LogRecord.plain 5 4 7 .ABORT, LogRecord.clr 6 5 7 2 0 " " 1,
        LogRecord.clr 7 6 7 1 0 " " NULL_LSN, LogRecord.plain 8 7 7 .END] :=
  ⟨_, _, rfl, rfl, rfl, by unfold LsnStrict; decide, rfl, rfl⟩

/-! ## C19: the END record after a CLR that ends the chain -/

/-- C19, evaluation: the CLR branch (lines 301-306) does not assign `tx_id`, so the END
record and the erased table entry are those of the value `tx_id` held before, whatever
the transaction of the CLR. After `write(7, 1, ..)` and an `abort(7)` that stops at a
refused page write, the tail holds CLR 3 of transaction 7 with undoNextLSN `NULL_LSN`; a
second `abort(7)` reaches it first and appends an END record with txID `NULL_TX`, and
transaction 7 stays in the table. -/
theorem undo_END_after_clr_carries_stale_txID :
    (∀ (log : List LogRecord) (abort_one : Bool) (s : State) (tx_id l p t pg off : Int)
        (a : String),
      undoRecord log abort_one (LogRecord.clr l p t pg off a NULL_LSN) tx_id s =
        some (abort_one, tx_id, undoEnd s l tx_id) ∧
      (undoEnd s l tx_id).logtail =
        s.logtail ++ [LogRecord.plain (s.se.lsnCounter : Int) l tx_id .END] ∧
      (undoEnd s l tx_id).tx_table = merase s.tx_table tx_id) ∧
    ∃ s1 s2,
      run refusingInitState [Op.write 7 1 0 "a" " ", Op.abort 7] = some s1 ∧
      s1.tx_table = [(7, ⟨3, TxStatus.U⟩)] ∧
      AllLog s1 = [LogRecord.update 1 NULL_LSN 7 1 0 " " "a", LogRecord.plain 2 1 7 .ABORT,
        LogRecord.clr 3 2 7 1 0 " " NULL_LSN] ∧
      abort s1 7 = some s2 ∧
      s2.logtail = s1.logtail ++ [LogRecord.plain 4 3 7 .ABORT,
        LogRecord.plain 5 3 NULL_TX .END] ∧
      s2.tx_table = [(7, ⟨4, TxStatus.U⟩)] :=
  ⟨fun _ _ _ _ _ _ _ _ _ _ => ⟨by simp [undoRecord], rfl, rfl⟩, _, _, rfl, rfl, rfl, rfl, rfl, rfl⟩

/-! ## C14: `analyze` from a checkpoint -/

theorem searchMaster_found (pre rest : List LogRecord) (r : LogRecord) (master : Int)
    (hr : r.getLSN = master) (hrest : ∀ x ∈ rest, x.getLSN ≠ master) (n : Nat)
    (h1 : pre.length ≤ n) (h2 : n < (pre ++ r :: rest).length) :
    searchMaster (pre ++ r :: rest) master n = pre.length := by
  induction n with
  | zero =>
    have : pre.length = 0 := by omega
    rw [this]
    rfl
  | succ n ih =>
    unfold searchMaster
    by_cases hn : n + 1 = pre.length
    · have hget : (pre ++ r :: rest)[n + 1]? = some r := by
        rw [hn, List.getElem?_append_right (le_refl _)]
        simp
      rw [hget]
      simp [hr, hn]
    · obtain ⟨k, hk⟩ : ∃ k, n + 1 = pre.length + 1 + k := ⟨n - pre.length, by omega⟩
      have hget : (pre ++ r :: rest)[n + 1]? = rest[k]? := by
        rw [hk, List.getElem?_append_right (by omega)]
        have : pre.length + 1 + k - pre.length = k + 1 := by omega
        rw [this, List.getElem?_cons_succ]
      cases hx : rest[k]? with
      | none =>
        simp only [List.length_append, List.length_cons] at h2
        have := List.getElem?_eq_none_iff.mp hx
        omega
      | some x =>
        have hne := hrest x (List.getElem?_mem hx)
        rw [hget, hx]
        simp only [hne, if_false]
        exact ih (by omega) (by omega)

/-- C14: for every log with distinct LSNs that holds a BEGIN_CKPT record whose LSN is
the master record (the master record is set, that is, not `NULL_LSN`), immediately
followed by an END_CKPT record, `analyze` returns, and its transaction table and
dirty-page table are those obtained from the snapshot of the END_CKPT by the scanning
loop over the records after the END_CKPT: whatever the index of the BEGIN_CKPT (`pre`
may be empty), whatever the records before it, and whatever the tables held before. -/
theorem analyze_from_checkpoint (s : State) (pre post : List LogRecord)
    (b bp bt e ep et : Int) (tt : TxTable) (dpt : DirtyPageTable)
    (hm : s.se.master ≠ NULL_LSN) (hb : b = s.se.master)
    (hdistinct : ((pre ++ LogRecord.plain b bp bt .BEGIN_CKPT ::
      LogRecord.chkpt e ep et tt dpt :: post).map LogRecord.getLSN).Nodup) :
    analyze s (pre ++ LogRecord.plain b bp bt .BEGIN_CKPT ::
        LogRecord.chkpt e ep et tt dpt :: post) =
      some { s with
        tx_table := (analyzeScan (tt, dpt) post).1,
        dirty_page_table := (analyzeScan (tt, dpt) post).2 } := by
  have hnd := hdistinct
  rw [List.map_append, List.nodup_append] at hnd
  obtain ⟨-, hnd2, -⟩ := hnd
  rw [List.map_cons, List.nodup_cons] at hnd2
  have hrest : ∀ x ∈ LogRecord.chkpt e ep et tt dpt :: post, x.getLSN ≠ s.se.master := by
    intro x hx heq
    apply hnd2.1
    rw [List.mem_map]
    exact ⟨x, hx, by rw [heq, ← hb]; rfl⟩
  have hs := searchMaster_found pre (LogRecord.chkpt e ep et tt dpt :: post)
    (LogRecord.plain b bp bt .BEGIN_CKPT) s.se.master hb hrest
    ((pre ++ LogRecord.plain b bp bt .BEGIN_CKPT ::
      LogRecord.chkpt e ep et tt dpt :: post).length - 1)
    (by simp only [List.length_append, List.length_cons]; omega)
    (by simp only [List.length_append, List.length_cons]; omega)
  have hget : (pre ++ LogRecord.plain b bp bt .BEGIN_CKPT ::
      LogRecord.chkpt e ep et tt dpt :: post)[pre.length + 1]? =
      some (LogRecord.chkpt e ep et tt dpt) := by
    rw [List.getElem?_append_right (by omega)]
    have : pre.length + 1 - pre.length = 1 := by omega
    rw [this]
    simp
  have hdrop : (pre ++ LogRecord.plain b bp bt .BEGIN_CKPT ::
      LogRecord.chkpt e ep et tt dpt :: post).drop (pre.length + 1) =
      LogRecord.chkpt e ep et tt dpt :: post := by
    rw [List.drop_append_eq_append_drop]
    have h1 : pre.drop (pre.length + 1) = [] := List.drop_eq_nil_of_le (by omega)
    have h2 : pre.length + 1 - pre.length = 1 := by omega
    rw [h1, h2]
    rfl
  unfold analyze
  simp only [StorageEngine.get_master, ne_eq, hm, not_false_eq_true, if_true]
  cases hlog : pre ++ LogRecord.plain b bp bt .BEGIN_CKPT ::
      LogRecord.chkpt e ep et tt dpt :: post with
  | nil => simp at hlog
  | cons a l =>
    rw [hlog] at hs hget hdrop
    simp only [hs, hget, hdrop]
    rfl

/-- Witness of `analyze_from_checkpoint`: the BEGIN_CKPT is the first record of the
log, the snapshot holds transaction 7 and page 1, and the manager holds other tables
before the call. -/
theorem analyze_from_checkpoint_witness :
    ({ initState with
        tx_table := [(9, ⟨1, TxStatus.U⟩)],
        se := { initEngine with master := 2 } } : State).se.master ≠ NULL_LSN ∧
    (([] ++ LogRecord.plain 2 NULL_LSN NULL_TX .BEGIN_CKPT ::
      LogRecord.chkpt 3 2 NULL_TX [(7, ⟨1, TxStatus.U⟩)] [(1, 1)] ::
      [LogRecord.update 4 1 7 2 0 " " "b"]).map LogRecord.getLSN).Nodup ∧
    analyze { initState with
        tx_table := [(9, ⟨1, TxStatus.U⟩)],
        se := { initEngine with master := 2 } }
      ([] ++ LogRecord.plain 2 NULL_LSN NULL_TX .BEGIN_CKPT ::
        LogRecord.chkpt 3 2 NULL_TX [(7, ⟨1, TxStatus.U⟩)] [(1, 1)] ::
        [LogRecord.update 4 1 7 2 0 " " "b"]) =
      some { ({ initState with
          tx_table := [(9, ⟨1, TxStatus.U⟩)],
          se := { initEngine with master := 2 } } : State) with
        tx_table := (analyzeScan ([(7, ⟨1, TxStatus.U⟩)], [(1, 1)])
          [LogRecord.update 4 1 7 2 0 " " "b"]).1,
        dirty_page_table := (analyzeScan ([(7, ⟨1, TxStatus.U⟩)], [(1, 1)])
          [LogRecord.update 4 1 7 2 0 " " "b"]).2 } :=
  ⟨by decide, by decide,
    analyze_from_checkpoint _ [] [LogRecord.update 4 1 7 2 0 " " "b"] 2 NULL_LSN NULL_TX 3 2
      NULL_TX [(7, ⟨1, TxStatus.U⟩)] [(1, 1)] (by decide) rfl (by decide)⟩

/-! ## C13: `analyze` without a master record, from empty tables -/

theorem snoc_eq_append_cons {α : Type} (l pre post : List α) (a r : α)
    (h : l ++ [a] = pre ++ r :: post) :
    (post = [] ∧ pre = l ∧ r = a) ∨ ∃ post1, post = post1 ++ [a] ∧ l = pre ++ r :: post1 := by
  rcases List.eq_nil_or_concat post with hp | ⟨post1, b, hp⟩
  · subst hp
    have h2 : l ++ [a] = pre ++ [r] := h
    obtain ⟨h3, h4⟩ := List.append_inj' h2 rfl
    simp only [List.cons.injEq, and_true] at h4
    exact Or.inl ⟨rfl, h3.symm, h4.symm⟩
  · rw [List.concat_eq_append] at hp
    subst hp
    have h2 : l ++ [a] = (pre ++ r :: post1) ++ [b] := by
      rw [h]
      simp
    obtain ⟨h3, h4⟩ := List.append_inj' h2 rfl
    simp only [List.cons.injEq, and_true] at h4
    subst h4
    exact Or.inr ⟨post1, rfl, h3⟩

theorem analyzeStep_tx_self (tabs : TxTable × DirtyPageTable) (r : LogRecord) (t : Int)
    (h : r.isTxRecordOf t = true) :
    mfind (analyzeStep tabs r).1 t =
      some ⟨r.getLSN, if r.getType = TxType.COMMIT then TxStatus.C else TxStatus.U⟩ := by
  cases r with
  | plain l p tx ty =>
    cases ty <;>
      simp [LogRecord.isTxRecordOf, LogRecord.getType, LogRecord.getTxID,
        HeaderType.toTxType] at h
    · subst h
      simp [analyzeStep, LogRecord.getTxID, LogRecord.getLSN, LogRecord.getType,
        HeaderType.toTxType, mfind_tableSetLastLSN_self, mfind_tableSetStatus_self]
    · subst h
      simp [analyzeStep, LogRecord.getTxID, LogRecord.getLSN, LogRecord.getType,
        HeaderType.toTxType, mfind_tableSetLastLSN_self, mfind_tableSetStatus_self]
  | update l p tx pg off b a =>
    simp [LogRecord.isTxRecordOf, LogRecord.getType, LogRecord.getTxID] at h
    subst h
    simp [analyzeStep, LogRecord.getTxID, LogRecord.getLSN, LogRecord.getType,
      mfind_tableSetLastLSN_self, mfind_tableSetStatus_self]
  | clr l p tx pg off a u =>
    simp [LogRecord.isTxRecordOf, LogRecord.getType, LogRecord.getTxID] at h
    subst h
    simp [analyzeStep, LogRecord.getTxID, LogRecord.getLSN, LogRecord.getType,
      mfind_tableSetLastLSN_self, mfind_tableSetStatus_self]
  | chkpt l p tx tt d => simp [LogRecord.isTxRecordOf, LogRecord.getType] at h

theorem analyzeStep_tx_end (tabs : TxTable × DirtyPageTable) (r : LogRecord) (t : Int)
    (h : r.isEndOf t = true) : mfind (analyzeStep tabs r).1 t = none := by
  cases r with
  | plain l p tx ty =>
    cases ty <;>
      simp [LogRecord.isEndOf, LogRecord.getType, LogRecord.getTxID, HeaderType.toTxType] at h
    subst h
    simp [analyzeStep, LogRecord.getTxID, mfind_merase_self]
  | update l p tx pg off b a => simp [LogRecord.isEndOf, LogRecord.getType] at h
  | clr l p tx pg off a u => simp [LogRecord.isEndOf, LogRecord.getType] at h
  | chkpt l p tx tt d => simp [LogRecord.isEndOf, LogRecord.getType] at h

theorem analyzeStep_tx_other (tabs : TxTable × DirtyPageTable) (r : LogRecord) (t : Int)
    (h1 : r.isTxRecordOf t = false) (h2 : r.isEndOf t = false) :
    mfind (analyzeStep tabs r).1 t = mfind tabs.1 t := by
  cases r with
  | plain l p tx ty =>
    cases ty <;>
      simp [LogRecord.isTxRecordOf, LogRecord.isEndOf, LogRecord.getType, LogRecord.getTxID,
        HeaderType.toTxType] at h1 h2
    · have ht : t ≠ tx := fun hh => h1 hh.symm
      simp [analyzeStep, LogRecord.getTxID, mfind_tableSetLastLSN_ne _ _ _ _ ht,
        mfind_tableSetStatus_ne _ _ _ _ ht]
    · have ht : t ≠ tx := fun hh => h1 hh.symm
      simp [analyzeStep, LogRecord.getTxID, mfind_tableSetLastLSN_ne _ _ _ _ ht,
        mfind_tableSetStatus_ne _ _ _ _ ht]
    · have ht : t ≠ tx := fun hh => h2 hh.symm
      simp [analyzeStep, LogRecord.getTxID, mfind_merase_ne _ _ _ ht]
    · simp [analyzeStep]
  | update l p tx pg off b a =>
    simp [LogRecord.isTxRecordOf, LogRecord.getType, LogRecord.getTxID] at h1
    have ht : t ≠ tx := fun hh => h1 hh.symm
    simp [analyzeStep, LogRecord.getTxID, mfind_tableSetLastLSN_ne _ _ _ _ ht,
      mfind_tableSetStatus_ne _ _ _ _ ht]
  | clr l p tx pg off a u =>
    simp [LogRecord.isTxRecordOf, LogRecord.getType, LogRecord.getTxID] at h1
    have ht : t ≠ tx := fun hh => h1 hh.symm
    simp [analyzeStep, LogRecord.getTxID, mfind_tableSetLastLSN_ne _ _ _ _ ht,
      mfind_tableSetStatus_ne _ _ _ _ ht]
  | chkpt l p tx tt d => simp [analyzeStep]

theorem analyzeStep_dpt_self (tabs : TxTable × DirtyPageTable) (r : LogRecord) (p : Int)
    (h : r.touches p = true) :
    mfind (analyzeStep tabs r).2 p = some ((mfind tabs.2 p).getD r.getLSN) := by
  cases r with
  | plain l q tx ty => simp [LogRecord.touches] at h
  | update l q tx pg off b a =>
    simp [LogRecord.touches] at h
    subst h
    cases hf : mfind tabs.2 pg <;>
      simp [analyzeStep, hf, LogRecord.getLSN, mfind_minsert_self]
  | clr l q tx pg off a u =>
    simp [LogRecord.touches] at h
    subst h
    cases hf : mfind tabs.2 pg <;>
      simp [analyzeStep, hf, LogRecord.getLSN, mfind_minsert_self]
  | chkpt l q tx tt d => simp [LogRecord.touches] at h

theorem analyzeStep_dpt_other (tabs : TxTable × DirtyPageTable) (r : LogRecord) (p : Int)
    (h : r.touches p = false) :
    mfind (analyzeStep tabs r).2 p = mfind tabs.2 p := by
  cases r with
  | plain l q tx ty => cases ty <;> simp [analyzeStep]
  | update l q tx pg off b a =>
    simp [LogRecord.touches] at h
    have hp : p ≠ pg := fun hh => h hh.symm
    cases hf : mfind tabs.2 pg <;>
      simp [analyzeStep, hf, mfind_minsert_ne _ _ _ _ hp]
  | clr l q tx pg off a u =>
    simp [LogRecord.touches] at h
    have hp : p ≠ pg := fun hh => h hh.symm
    cases hf : mfind tabs.2 pg <;>
      simp [analyzeStep, hf, mfind_minsert_ne _ _ _ _ hp]
  | chkpt l q tx tt d => simp [analyzeStep]
theorem isTxRecordOf_not_isEndOf (r : LogRecord) (t : Int) (h : r.isTxRecordOf t = true) :
    r.isEndOf t = false := by
  cases r with
  | plain l p tx ty =>
    cases ty <;>
      simp [LogRecord.isTxRecordOf, LogRecord.isEndOf, LogRecord.getType,
        HeaderType.toTxType] at h ⊢
  | update l p tx pg off b a => simp [LogRecord.isEndOf, LogRecord.getType]
  | clr l p tx pg off a u => simp [LogRecord.isEndOf, LogRecord.getType]
  | chkpt l p tx tt d => simp [LogRecord.isEndOf, LogRecord.getType]

theorem analyzeScan_snoc (tabs : TxTable × DirtyPageTable) (log : List LogRecord)
    (a : LogRecord) :
    analyzeScan tabs (log ++ [a]) = analyzeStep (analyzeScan tabs log) a := by
  simp [analyzeScan, List.foldl_append]

theorem analyzeScan_tx_spec (log : List LogRecord) :
    (∀ t e, mfind (analyzeScan ([], []) log).1 t = some e →
      ∃ pre r post, log = pre ++ r :: post ∧ r.isTxRecordOf t = true ∧
        (∀ x ∈ post, x.isTxRecordOf t = false ∧ x.isEndOf t = false) ∧
        e = ⟨r.getLSN, if r.getType = TxType.COMMIT then TxStatus.C else TxStatus.U⟩) ∧
    (∀ t, (∃ pre r post, log = pre ++ r :: post ∧ r.isTxRecordOf t = true ∧
        ∀ x ∈ post, x.isEndOf t = false) →
      ∃ e, mfind (analyzeScan ([], []) log).1 t = some e) := by
  induction log using List.reverseRecOn with
  | nil =>
    refine ⟨?_, ?_⟩
    · intro t e h
      simp [analyzeScan, mfind] at h
    · rintro t ⟨pre, r, post, h, -⟩
      simp at h
  | append_singleton log a ih =>
    obtain ⟨ih1, ih2⟩ := ih
    refine ⟨?_, ?_⟩
    · intro t e h
      rw [analyzeScan_snoc] at h
      cases hA : a.isTxRecordOf t with
      | true =>
        rw [analyzeStep_tx_self _ a t hA] at h
        exact ⟨log, a, [], rfl, hA, by simp, (Option.some.inj h).symm⟩
      | false =>
        cases hE : a.isEndOf t with
        | true =>
          rw [analyzeStep_tx_end _ a t hE] at h
          exact absurd h (by simp)
        | false =>
          rw [analyzeStep_tx_other _ a t hA hE] at h
          obtain ⟨pre, r, post, hdec, hr, hpost, he⟩ := ih1 t e h
          refine ⟨pre, r, post ++ [a], by rw [hdec]; simp, hr, ?_, he⟩
          intro x hx
          rcases List.mem_append.mp hx with hx | hx
          · exact hpost x hx
          · rw [List.mem_singleton] at hx
            subst hx
            exact ⟨hA, hE⟩
    · rintro t ⟨pre, r, post, hdec, hr, hpost⟩
      rw [analyzeScan_snoc]
      cases hA : a.isTxRecordOf t with
      | true => exact ⟨_, analyzeStep_tx_self _ a t hA⟩
      | false =>
        rcases snoc_eq_append_cons log pre post a r hdec with ⟨-, -, hra⟩ | ⟨post1, hp, hl⟩
        · rw [hra, hA] at hr
          exact absurd hr (by simp)
        · have hE : a.isEndOf t = false := hpost a (by rw [hp]; simp)
          rw [analyzeStep_tx_other _ a t hA hE]
          exact ih2 t ⟨pre, r, post1, hl, hr, fun x hx => hpost x (by rw [hp]; simp [hx])⟩

theorem analyzeScan_dpt_spec (log : List LogRecord) :
    (∀ p l, mfind (analyzeScan ([], []) log).2 p = some l →
      ∃ pre r post, log = pre ++ r :: post ∧ r.touches p = true ∧
        (∀ x ∈ pre, x.touches p = false) ∧ l = r.getLSN) ∧
    (∀ p, (∃ r ∈ log, r.touches p = true) →
      ∃ l, mfind (analyzeScan ([], []) log).2 p = some l) := by
  induction log using List.reverseRecOn with
  | nil =>
    refine ⟨?_, ?_⟩
    · intro p l h
      simp [analyzeScan, mfind] at h
    · rintro p ⟨r, hr, -⟩
      simp at hr
  | append_singleton log a ih =>
    obtain ⟨ih1, ih2⟩ := ih
    refine ⟨?_, ?_⟩
    · intro p l h
      rw [analyzeScan_snoc] at h
      cases hA : a.touches p with
      | true =>
        rw [analyzeStep_dpt_self _ a p hA] at h
        cases hf : mfind (analyzeScan ([], []) log).2 p with
        | none =>
          rw [hf] at h
          simp only [Option.getD_none, Option.some.injEq] at h
          refine ⟨log, a, [], rfl, hA, ?_, h.symm⟩
          intro x hx
          cases hx2 : x.touches p with
          | false => rfl
          | true =>
            obtain ⟨l1, hl1⟩ := ih2 p ⟨x, hx, hx2⟩
            rw [hf] at hl1
            exact absurd hl1 (by simp)
        | some l0 =>
          rw [hf] at h
          simp only [Option.getD_some, Option.some.injEq] at h
          subst h
          obtain ⟨pre, r, post, hdec, hr, hpre, hl⟩ := ih1 p l0 hf
          exact ⟨pre, r, post ++ [a], by rw [hdec]; simp, hr, hpre, hl⟩
      | false =>
        rw [analyzeStep_dpt_other _ a p hA] at h
        obtain ⟨pre, r, post, hdec, hr, hpre, hl⟩ := ih1 p l h
        exact ⟨pre, r, post ++ [a], by rw [hdec]; simp, hr, hpre, hl⟩
    · rintro p ⟨r, hr, hrp⟩
      rw [analyzeScan_snoc]
      cases hA : a.touches p with
      | true => exact ⟨_, analyzeStep_dpt_self _ a p hA⟩
      | false =>
        rw [analyzeStep_dpt_other _ a p hA]
        rcases List.mem_append.mp hr with hr | hr
        · exact ih2 p ⟨r, hr, hrp⟩
        · rw [List.mem_singleton] at hr
          subst hr
          rw [hA] at hrp
          exact absurd hrp (by simp)

/-- C13: for every log, when no master record exists and both tables are empty before
the call, `analyze` returns, and afterwards: a transaction `t` is in the transaction
table if and only if the log holds a COMMIT, ABORT, UPDATE or CLR record of `t` with no
END record of `t` after it; the entry of `t` has the LSN of the last COMMIT, ABORT,
UPDATE or CLR record of `t` as lastLSN (no END record of `t` follows that record), and
status C if and only if that record is a COMMIT, status U if and only if it is not; a
page `p` is in the dirty-page table if and only if some UPDATE or CLR record of the log
is on `p`; and recLSN(p) is the LSN of the first such record in log order. -/
theorem analyze_from_empty_tables (s : State) (log : List LogRecord)
    (hm : s.se.master = NULL_LSN) (htx : s.tx_table = []) (hdpt : s.dirty_page_table = []) :
    ∃ s1, analyze s log = some s1 ∧
      (∀ t, (∃ e, mfind s1.tx_table t = some e) ↔
        ∃ pre r post, log = pre ++ r :: post ∧ r.isTxRecordOf t = true ∧
          ∀ x ∈ post, x.isEndOf t = false) ∧
      (∀ t e, mfind s1.tx_table t = some e →
        ∃ pre r post, log = pre ++ r :: post ∧ r.isTxRecordOf t = true ∧
          (∀ x ∈ post, x.isTxRecordOf t = false ∧ x.isEndOf t = false) ∧
          e.lastLSN = r.getLSN ∧
          (e.status = TxStatus.C ↔ r.getType = TxType.COMMIT) ∧
          (e.status = TxStatus.U ↔ r.getType ≠ TxType.COMMIT)) ∧
      (∀ p, (∃ l, mfind s1.dirty_page_table p = some l) ↔
        ∃ r ∈ log, r.touches p = true) ∧
      (∀ p l, mfind s1.dirty_page_table p = some l →
        ∃ pre r post, log = pre ++ r :: post ∧ r.touches p = true ∧
          (∀ x ∈ pre, x.touches p = false) ∧ l = r.getLSN) := by
  obtain ⟨t1, t2⟩ := analyzeScan_tx_spec log
  obtain ⟨d1, d2⟩ := analyzeScan_dpt_spec log
  refine ⟨_, analyze_noMaster s log hm, ?_, ?_, ?_, ?_⟩
  · intro t
    simp only [htx, hdpt]
    constructor
    · rintro ⟨e, he⟩
      obtain ⟨pre, r, post, hdec, hr, hpost, -⟩ := t1 t e he
      exact ⟨pre, r, post, hdec, hr, fun x hx => (hpost x hx).2⟩
    · exact t2 t
  · intro t e he
    simp only [htx, hdpt] at he
    obtain ⟨pre, r, post, hdec, hr, hpost, hent⟩ := t1 t e he
    refine ⟨pre, r, post, hdec, hr, hpost, ?_, ?_, ?_⟩
    · rw [hent]
    · rw [hent]
      by_cases hc : r.getType = TxType.COMMIT <;> simp [hc]
    · rw [hent]
      by_cases hc : r.getType = TxType.COMMIT <;> simp [hc]
  · intro p
    simp only [htx, hdpt]
    constructor
    · rintro ⟨l, hl⟩
      obtain ⟨pre, r, post, hdec, hr, -, -⟩ := d1 p l hl
      exact ⟨r, by rw [hdec]; simp, hr⟩
    · exact d2 p
  · intro p l hl
    simp only [htx, hdpt] at hl
    exact d1 p l hl

/-- Witness of `analyze_from_empty_tables`: transaction 7 commits and ends, transaction
8 updates page 1 after it and stays. -/
theorem analyze_from_empty_tables_witness :
    initState.se.master = NULL_LSN ∧ initState.tx_table = [] ∧
    initState.dirty_page_table = [] ∧
    ∃ s1, analyze initState [LogRecord.update 1 NULL_LSN 7 1 0 " " "a",
        LogRecord.plain 2 1 7 .COMMIT, LogRecord.update 3 NULL_LSN 8 1 1 " " "b",
        LogRecord.plain 4 2 7 .END] = some s1 ∧
      (∀ t, (∃ e, mfind s1.tx_table t = some e) ↔
        ∃ pre r post, [LogRecord.update 1 NULL_LSN 7 1 0 " " "a",
            LogRecord.plain 2 1 7 .COMMIT, LogRecord.update 3 NULL_LSN 8 1 1 " " "b",
            LogRecord.plain 4 2 7 .END] = pre ++ r :: post ∧ r.isTxRecordOf t = true ∧
          ∀ x ∈ post, x.isEndOf t = false) ∧
      (∀ t e, mfind s1.tx_table t = some e →
        ∃ pre r post, [LogRecord.update 1 NULL_LSN 7 1 0 " " "a",
            LogRecord.plain 2 1 7 .COMMIT, LogRecord.update 3 NULL_LSN 8 1 1 " " "b",
            LogRecord.plain 4 2 7 .END] = pre ++ r :: post ∧ r.isTxRecordOf t = true ∧
          (∀ x ∈ post, x.isTxRecordOf t = false ∧ x.isEndOf t = false) ∧
          e.lastLSN = r.getLSN ∧
          (e.status = TxStatus.C ↔ r.getType = TxType.COMMIT) ∧
          (e.status = TxStatus.U ↔ r.getType ≠ TxType.COMMIT)) ∧
      (∀ p, (∃ l, mfind s1.dirty_page_table p = some l) ↔
        ∃ r ∈ [LogRecord.update 1 NULL_LSN 7 1 0 " " "a",
            LogRecord.plain 2 1 7 .COMMIT, LogRecord.update 3 NULL_LSN 8 1 1 " " "b",
            LogRecord.plain 4 2 7 .END], r.touches p = true) ∧
      (∀ p l, mfind s1.dirty_page_table p = some l →
        ∃ pre r post, [LogRecord.update 1 NULL_LSN 7 1 0 " " "a",
            LogRecord.plain 2 1 7 .COMMIT, LogRecord.update 3 NULL_LSN 8 1 1 " " "b",
            LogRecord.plain 4 2 7 .END] = pre ++ r :: post ∧ r.touches p = true ∧
          (∀ x ∈ pre, x.touches p = false) ∧ l = r.getLSN) :=
  ⟨rfl, rfl, rfl, analyze_from_empty_tables initState _ rfl rfl rfl⟩

/-! ## C12: the redo pass -/

theorem minRecLSN_spec (dpt : DirtyPageTable) :
    ∀ c : Int, (minRecLSN c dpt = c ∨ ∃ kv ∈ dpt, kv.2 = minRecLSN c dpt) ∧
      minRecLSN c dpt ≤ c ∧ ∀ kv ∈ dpt, minRecLSN c dpt ≤ kv.2 := by
  induction dpt with
  | nil =>
    intro c
    exact ⟨Or.inl rfl, le_refl _, fun kv hkv => absurd hkv (List.not_mem_nil _)⟩
  | cons kv rest ih =>
    intro c
    obtain ⟨k, l⟩ := kv
    obtain ⟨h1, h2, h3⟩ := ih (if l < c then l else c)
    have hdef : minRecLSN c ((k, l) :: rest) = minRecLSN (if l < c then l else c) rest := rfl
    rw [hdef]
    by_cases hlc : l < c
    · simp only [hlc, if_true] at h1 h2 h3 ⊢
      refine ⟨Or.inr ?_, by omega, ?_⟩
      · rcases h1 with h1 | ⟨kv, hkv, heq⟩
        · exact ⟨(k, l), List.mem_cons_self _ _, h1.symm⟩
        · exact ⟨kv, List.mem_cons_of_mem _ hkv, heq⟩
      · intro kv hkv
        rcases List.mem_cons.mp hkv with hkv | hkv
        · subst hkv
          exact h2
        · exact h3 kv hkv
    · simp only [hlc, if_false] at h1 h2 h3 ⊢
      refine ⟨?_, h2, ?_⟩
      · rcases h1 with h1 | ⟨kv, hkv, heq⟩
        · exact Or.inl h1
        · exact Or.inr ⟨kv, List.mem_cons_of_mem _ hkv, heq⟩
      · intro kv hkv
        rcases List.mem_cons.mp hkv with hkv | hkv
        · subst hkv
          show minRecLSN c rest ≤ l
          omega
        · exact h3 kv hkv

theorem findStart_spec (m : Int) (l : List LogRecord) :
    ∀ i : Nat,
      (∃ k r, l[k]? = some r ∧ r.getLSN = m ∧ (∀ j x, j < k → l[j]? = some x → x.getLSN ≠ m) ∧
        findStart m l i = i + k) ∨
      ((∀ x ∈ l, x.getLSN ≠ m) ∧ findStart m l i = 0) := by
  induction l with
  | nil =>
    intro i
    exact Or.inr ⟨fun x hx => absurd hx (List.not_mem_nil _), rfl⟩
  | cons a rest ih =>
    intro i
    by_cases ha : a.getLSN = m
    · refine Or.inl ⟨0, a, by simp, ha, fun j x hj _ => absurd hj (by omega), ?_⟩
      simp [findStart, ha]
    · have hdef : findStart m (a :: rest) i = findStart m rest (i + 1) := by
        simp [findStart, ha]
      rw [hdef]
      rcases ih (i + 1) with ⟨k, r, hk, hr, hbefore, hres⟩ | ⟨hnone, hres⟩
      · refine Or.inl ⟨k + 1, r, by simpa using hk, hr, ?_, by omega⟩
        intro j x hj hx
        cases j with
        | zero =>
          simp only [List.getElem?_cons_zero, Option.some.injEq] at hx
          subst hx
          exact ha
        | succ j =>
          rw [List.getElem?_cons_succ] at hx
          exact hbefore j x (by omega) hx
      · refine Or.inr ⟨?_, hres⟩
        intro x hx
        rcases List.mem_cons.mp hx with hx | hx
        · subst hx
          exact ha
        · exact hnone x hx

theorem redoLoop_cons_due (dpt : DirtyPageTable) (e : StorageEngine) (r : LogRecord)
    (rs : List LogRecord) (p offset : Int) (afterImage : String)
    (h : RedoDue dpt e r p offset afterImage) :
    redoLoop dpt (r :: rs) e =
      if (e.pageWrite p offset afterImage r.getLSN).1 then
        redoLoop dpt rs (e.pageWrite p offset afterImage r.getLSN).2
      else (false, (e.pageWrite p offset afterImage r.getLSN).2) := by
  obtain ⟨hargs, ⟨recLSN, hfind, hle⟩, hlt⟩ := h
  cases r with
  | plain l q tx ty => simp [LogRecord.redoArgs] at hargs
  | update l q tx pg off b a =>
    simp only [LogRecord.redoArgs, Option.some.injEq, Prod.mk.injEq] at hargs
    obtain ⟨rfl, rfl, rfl⟩ := hargs
    have hle1 : recLSN ≤ l := hle
    have hlt1 : e.getLSN pg < l := hlt
    simp only [redoLoop, hfind, hle1, hlt1, and_self, if_true, LogRecord.getLSN]
  | clr l q tx pg off a u =>
    simp only [LogRecord.redoArgs, Option.some.injEq, Prod.mk.injEq] at hargs
    obtain ⟨rfl, rfl, rfl⟩ := hargs
    have hle1 : recLSN ≤ l := hle
    have hlt1 : e.getLSN pg < l := hlt
    simp only [redoLoop, hfind, hle1, hlt1, and_self, if_true, LogRecord.getLSN]
  | chkpt l q tx tt d => simp [LogRecord.redoArgs] at hargs

theorem redoLoop_cons_skip (dpt : DirtyPageTable) (e : StorageEngine) (r : LogRecord)
    (rs : List LogRecord) (h : ¬ ∃ p offset afterImage, RedoDue dpt e r p offset afterImage) :
    redoLoop dpt (r :: rs) e = redoLoop dpt rs e := by
  cases r with
  | plain l q tx ty => simp [redoLoop]
  | update l q tx pg off b a =>
    cases hf : mfind dpt pg with
    | none => simp [redoLoop, hf]
    | some recLSN =>
      by_cases hc : recLSN ≤ l ∧ e.getLSN pg < l
      · exact absurd ⟨pg, off, a, rfl, ⟨recLSN, hf, hc.1⟩, hc.2⟩ h
      · simp only [redoLoop, hf, hc, if_false]
  | clr l q tx pg off a u =>
    cases hf : mfind dpt pg with
    | none => simp [redoLoop, hf]
    | some recLSN =>
      by_cases hc : recLSN ≤ l ∧ e.getLSN pg < l
      · exact absurd ⟨pg, off, a, rfl, ⟨recLSN, hf, hc.1⟩, hc.2⟩ h
      · simp only [redoLoop, hf, hc, if_false]
  | chkpt l q tx tt d => simp [redoLoop]

theorem redoLoop_append (dpt : DirtyPageTable) (xs ys : List LogRecord) :
    ∀ e : StorageEngine, redoLoop dpt (xs ++ ys) e =
      if (redoLoop dpt xs e).1 then redoLoop dpt ys (redoLoop dpt xs e).2
      else redoLoop dpt xs e := by
  induction xs with
  | nil =>
    intro e
    simp [redoLoop]
  | cons r rs ih =>
    intro e
    by_cases hd : ∃ p offset afterImage, RedoDue dpt e r p offset afterImage
    · obtain ⟨p, offset, afterImage, hdue⟩ := hd
      rw [List.cons_append, redoLoop_cons_due dpt e r _ p offset afterImage hdue,
        redoLoop_cons_due dpt e r _ p offset afterImage hdue]
      by_cases hw : (e.pageWrite p offset afterImage r.getLSN).1 = true
      · simp only [hw, if_true]
        exact ih _
      · simp [hw]
    · rw [List.cons_append, redoLoop_cons_skip dpt e r _ hd, redoLoop_cons_skip dpt e r _ hd]
      exact ih e
theorem redoLoop_all_accepted (dpt : DirtyPageTable) (recs : List LogRecord) :
    ∀ e : StorageEngine,
      (∀ pre r post p offset afterImage, recs = pre ++ r :: post →
        (redoLoop dpt pre e).1 = true →
        RedoDue dpt (redoLoop dpt pre e).2 r p offset afterImage →
        ((redoLoop dpt pre e).2.pageWrite p offset afterImage r.getLSN).1 = true) →
      (redoLoop dpt recs e).1 = true := by
  induction recs with
  | nil =>
    intro e _
    rfl
  | cons r rs ih =>
    intro e h
    by_cases hd : ∃ p offset afterImage, RedoDue dpt e r p offset afterImage
    · obtain ⟨p, offset, afterImage, hdue⟩ := hd
      have hw := h [] r rs p offset afterImage rfl rfl hdue
      have hw1 : (e.pageWrite p offset afterImage r.getLSN).1 = true := hw
      rw [redoLoop_cons_due dpt e r rs p offset afterImage hdue]
      simp only [hw1, if_true]
      apply ih
      intro pre x post q off2 img hdec hpre hdue2
      have hcons : redoLoop dpt (r :: pre) e =
          redoLoop dpt pre (e.pageWrite p offset afterImage r.getLSN).2 := by
        rw [redoLoop_cons_due dpt e r pre p offset afterImage hdue]
        simp only [hw1, if_true]
      have := h (r :: pre) x post q off2 img (by rw [hdec]; rfl)
        (by rw [hcons]; exact hpre) (by rw [hcons]; exact hdue2)
      rw [hcons] at this
      exact this
    · rw [redoLoop_cons_skip dpt e r rs hd]
      apply ih
      intro pre x post q off2 img hdec hpre hdue2
      have hcons : redoLoop dpt (r :: pre) e = redoLoop dpt pre e :=
        redoLoop_cons_skip dpt e r pre hd
      have := h (r :: pre) x post q off2 img (by rw [hdec]; rfl)
        (by rw [hcons]; exact hpre) (by rw [hcons]; exact hdue2)
      rw [hcons] at this
      exact this

theorem redoEnds_engine (tab : TxTable) :
    ∀ (tail : List LogRecord) (e : StorageEngine),
      (redoEnds tab tail e).2.2.calls = e.calls ∧ (redoEnds tab tail e).2.2.log = e.log := by
  induction tab with
  | nil =>
    intro tail e
    exact ⟨rfl, rfl⟩
  | cons kv rest ih =>
    intro tail e
    obtain ⟨txid, ent⟩ := kv
    by_cases hc : ent.status = TxStatus.C
    · obtain ⟨h1, h2⟩ := ih (tail ++ [LogRecord.plain e.nextLSN.1 ent.lastLSN txid .END])
        e.nextLSN.2
      simp only [redoEnds, hc, if_true]
      exact ⟨h1, h2⟩
    · obtain ⟨h1, h2⟩ := ih tail e
      simp only [redoEnds, hc, if_false]
      exact ⟨h1, h2⟩

theorem redo_flag (s : State) (log : List LogRecord) (k0 l0 : Int) (rest : DirtyPageTable)
    (hd : s.dirty_page_table = (k0, l0) :: rest) :
    (redo s log).1 = (redoLoop s.dirty_page_table
      (log.drop (findStart (minRecLSN l0 s.dirty_page_table) log 0)) s.se).1 ∧
    ((redo s log).1 = false →
      redo s log = (false, { s with se := (redoLoop s.dirty_page_table
        (log.drop (findStart (minRecLSN l0 s.dirty_page_table) log 0)) s.se).2 })) ∧
    ((redo s log).1 = true →
      (redo s log).2.se = (redoEnds s.tx_table s.logtail (redoLoop s.dirty_page_table
        (log.drop (findStart (minRecLSN l0 s.dirty_page_table) log 0)) s.se).2).2.2 ∧
      (redo s log).2.dirty_page_table = s.dirty_page_table) := by
  obtain ⟨tx, dpt, tail, e⟩ := s
  simp only at hd
  subst hd
  by_cases hf : (redoLoop ((k0, l0) :: rest)
      (log.drop (findStart (minRecLSN l0 ((k0, l0) :: rest)) log 0)) e).1 = true
  · simp [redo, hf]
  · simp [redo, hf]

/-- C12: for every log and every non-empty dirty-page table, with `m` the minimum
recLSN of the table, `redo` scans the log from the first record whose LSN is `m` (from
index 0 if no record has that LSN) to the end.  When it reaches a record `r` (the
records `pre` before it in the scan being done without a refusal), it calls
`pageWrite(p, offset, afterImage, L)` for `r` an UPDATE or CLR record with LSN `L` on
page `p` if `p` is in the dirty-page table, `DPT[p] <= L` and `getLSN(p) < L` for the
engine as it is then, and makes no call and goes on otherwise; if the call is refused
`redo` returns false at once, with the transaction table, the log tail and the
dirty-page table as they were (no END record is appended); and if no call is refused
`redo` returns true.  When `redo` returns true the engine it leaves has received the
calls of the whole scan and no other, and its pages are those the scan left. -/
theorem redo_contract (s : State) (log : List LogRecord) (hne : s.dirty_page_table ≠ []) :
    ∃ (m : Int) (start : Nat),
      ((∃ kv ∈ s.dirty_page_table, kv.2 = m) ∧ ∀ kv ∈ s.dirty_page_table, m ≤ kv.2) ∧
      ((∃ r, log[start]? = some r ∧ r.getLSN = m ∧
          ∀ j x, j < start → log[j]? = some x → x.getLSN ≠ m) ∨
        (start = 0 ∧ ∀ x ∈ log, x.getLSN ≠ m)) ∧
      (redo s log).1 = (redoLoop s.dirty_page_table (log.drop start) s.se).1 ∧
      ((redo s log).1 = true →
        (redo s log).2.se.calls =
          (redoLoop s.dirty_page_table (log.drop start) s.se).2.calls ∧
        (redo s log).2.se.pages =
          (redoLoop s.dirty_page_table (log.drop start) s.se).2.pages ∧
        (redo s log).2.dirty_page_table = s.dirty_page_table) ∧
      (∀ pre r post, log.drop start = pre ++ r :: post →
        (redoLoop s.dirty_page_table pre s.se).1 = true →
        (∀ p offset afterImage,
          RedoDue s.dirty_page_table (redoLoop s.dirty_page_table pre s.se).2 r
            p offset afterImage →
          redoLoop s.dirty_page_table (pre ++ [r]) s.se =
            (redoLoop s.dirty_page_table pre s.se).2.pageWrite p offset afterImage r.getLSN ∧
          (redoLoop s.dirty_page_table (pre ++ [r]) s.se).2.calls =
            (redoLoop s.dirty_page_table pre s.se).2.calls ++
              [EngineCall.pageWrite p offset afterImage r.getLSN] ∧
          (((redoLoop s.dirty_page_table pre s.se).2.pageWrite p offset afterImage
              r.getLSN).1 = false →
            redo s log = (false, { s with
              se := ((redoLoop s.dirty_page_table pre s.se).2.pageWrite p offset afterImage
                r.getLSN).2 }))) ∧
        ((¬ ∃ p offset afterImage,
            RedoDue s.dirty_page_table (redoLoop s.dirty_page_table pre s.se).2 r
              p offset afterImage) →
          redoLoop s.dirty_page_table (pre ++ [r]) s.se =
            (true, (redoLoop s.dirty_page_table pre s.se).2))) ∧
      ((redo s log).1 = false →
        (redo s log).2.tx_table = s.tx_table ∧ (redo s log).2.logtail = s.logtail ∧
        (redo s log).2.dirty_page_table = s.dirty_page_table) ∧
      ((∀ pre r post p offset afterImage, log.drop start = pre ++ r :: post →
          (redoLoop s.dirty_page_table pre s.se).1 = true →
          RedoDue s.dirty_page_table (redoLoop s.dirty_page_table pre s.se).2 r
            p offset afterImage →
          ((redoLoop s.dirty_page_table pre s.se).2.pageWrite p offset afterImage
            r.getLSN).1 = true) →
        (redo s log).1 = true) := by
  cases hd : s.dirty_page_table with
  | nil => exact absurd hd hne
  | cons kv rest =>
    obtain ⟨k0, l0⟩ := kv
    obtain ⟨hflag, hfalse, htrue⟩ := redo_flag s log k0 l0 rest hd
    rw [hd] at hflag hfalse htrue
    obtain ⟨hm1, -, hm3⟩ := minRecLSN_spec ((k0, l0) :: rest) l0
    refine ⟨minRecLSN l0 ((k0, l0) :: rest), findStart (minRecLSN l0 ((k0, l0) :: rest)) log 0,
      ⟨?_, hm3⟩, ?_, hflag, ?_, ?_, ?_, ?_⟩
    · rcases hm1 with h | h
      · exact ⟨(k0, l0), List.mem_cons_self _ _, h.symm⟩
      · exact h
    · rcases findStart_spec (minRecLSN l0 ((k0, l0) :: rest)) log 0 with
        ⟨k, r, hk, hr, hbefore, hres⟩ | ⟨hnone, hres⟩
      · rw [hres, Nat.zero_add]
        exact Or.inl ⟨r, hk, hr, hbefore⟩
      · exact Or.inr ⟨hres, hnone⟩
    · intro ht
      obtain ⟨hse, hdp⟩ := htrue ht
      refine ⟨?_, ?_, hdp⟩
      · rw [hse]
        exact (redoEnds_engine _ _ _).1
      · rw [hse]
        exact (redoEnds_spec _ _ _).2.1
    · intro pre r post hdec hpre
      refine ⟨?_, ?_⟩
      · intro p offset afterImage hdue
        have h1 : redoLoop ((k0, l0) :: rest) [r] (redoLoop ((k0, l0) :: rest) pre s.se).2 =
            (redoLoop ((k0, l0) :: rest) pre s.se).2.pageWrite p offset afterImage r.getLSN := by
          rw [redoLoop_cons_due _ _ r [] p offset afterImage hdue]
          cases hw : ((redoLoop ((k0, l0) :: rest) pre s.se).2.pageWrite p offset afterImage
            r.getLSN).1 with
          | true =>
            simp only [if_true, redoLoop]
            rw [← hw]
          | false =>
            simp only [Bool.false_eq_true, if_false]
            rw [← hw]
        have h2 : redoLoop ((k0, l0) :: rest) (pre ++ [r]) s.se =
            (redoLoop ((k0, l0) :: rest) pre s.se).2.pageWrite p offset afterImage r.getLSN := by
          rw [redoLoop_append, if_pos hpre, h1]
        refine ⟨h2, ?_, ?_⟩
        · rw [h2, pageWrite_calls]
        · intro hw
          have h3 : redoLoop ((k0, l0) :: rest)
              (log.drop (findStart (minRecLSN l0 ((k0, l0) :: rest)) log 0)) s.se =
              (false, ((redoLoop ((k0, l0) :: rest) pre s.se).2.pageWrite p offset afterImage
                r.getLSN).2) := by
            rw [hdec, redoLoop_append, if_pos hpre,
              redoLoop_cons_due _ _ r post p offset afterImage hdue]
            simp [hw]
          have h4 := hfalse (by rw [hflag, h3])
          rw [h4, h3]
      · intro hnd
        rw [redoLoop_append, if_pos hpre, redoLoop_cons_skip _ _ r [] hnd]
        rfl
    · intro hf
      rw [hfalse hf]
      exact ⟨rfl, rfl, rfl⟩
    · intro hall
      rw [hflag]
      exact redoLoop_all_accepted _ _ s.se hall

/-- Witness of `redo_contract`: page 1 is dirty from LSN 2 on, so the scan starts at
the second record of the log; `redo` returns true and the engine has received the one
call `pageWrite(1, 1, "b", 2)`. -/
theorem redo_contract_witness :
    redoExampleState.dirty_page_table ≠ [] ∧
    (redo redoExampleState redoExampleLog).1 = true ∧
    (redo redoExampleState redoExampleLog).2.se.calls = [EngineCall.pageWrite 1 1 "b" 2] ∧
    ∃ (m : Int) (start : Nat),
      ((∃ kv ∈ redoExampleState.dirty_page_table, kv.2 = m) ∧ ∀ kv ∈
          redoExampleState.dirty_page_table, m ≤ kv.2) ∧
      ((∃ r, redoExampleLog[start]? = some r ∧ r.getLSN = m ∧
          ∀ j x, j < start → redoExampleLog[j]? = some x → x.getLSN ≠ m) ∨
        (start = 0 ∧ ∀ x ∈ redoExampleLog, x.getLSN ≠ m)) ∧
      (redo redoExampleState redoExampleLog).1 = (redoLoop redoExampleState.dirty_page_table
          (redoExampleLog.drop start) redoExampleState.se).1 ∧
      ((redo redoExampleState redoExampleLog).1 = true →
        (redo redoExampleState redoExampleLog).2.se.calls =
          (redoLoop redoExampleState.dirty_page_table (redoExampleLog.drop start)
            redoExampleState.se).2.calls ∧
        (redo redoExampleState redoExampleLog).2.se.pages =
          (redoLoop redoExampleState.dirty_page_table (redoExampleLog.drop start)
            redoExampleState.se).2.pages ∧
        (redo redoExampleState redoExampleLog).2.dirty_page_table =
          redoExampleState.dirty_page_table) ∧
      (∀ pre r post, redoExampleLog.drop start = pre ++ r :: post →
        (redoLoop redoExampleState.dirty_page_table pre redoExampleState.se).1 = true →
        (∀ p offset afterImage,
          RedoDue redoExampleState.dirty_page_table (redoLoop redoExampleState.dirty_page_table pre
              redoExampleState.se).2 r
            p offset afterImage →
          redoLoop redoExampleState.dirty_page_table (pre ++ [r]) redoExampleState.se =
            (redoLoop redoExampleState.dirty_page_table pre redoExampleState.se).2.pageWrite p
                offset afterImage r.getLSN ∧
          (redoLoop redoExampleState.dirty_page_table (pre ++ [r]) redoExampleState.se).2.calls =
            (redoLoop redoExampleState.dirty_page_table pre redoExampleState.se).2.calls ++
              [EngineCall.pageWrite p offset afterImage r.getLSN] ∧
          (((redoLoop redoExampleState.dirty_page_table pre redoExampleState.se).2.pageWrite p
              offset afterImage
              r.getLSN).1 = false →
            redo redoExampleState redoExampleLog = (false, { redoExampleState with
              se := ((redoLoop redoExampleState.dirty_page_table pre
                  redoExampleState.se).2.pageWrite p offset afterImage
                r.getLSN).2 }))) ∧
        ((¬ ∃ p offset afterImage,
            RedoDue redoExampleState.dirty_page_table (redoLoop redoExampleState.dirty_page_table
                pre redoExampleState.se).2 r
              p offset afterImage) →
          redoLoop redoExampleState.dirty_page_table (pre ++ [r]) redoExampleState.se =
            (true, (redoLoop redoExampleState.dirty_page_table pre redoExampleState.se).2))) ∧
      ((redo redoExampleState redoExampleLog).1 = false →
        (redo redoExampleState redoExampleLog).2.tx_table = redoExampleState.tx_table ∧ (redo
            redoExampleState redoExampleLog).2.logtail = redoExampleState.logtail ∧
        (redo redoExampleState redoExampleLog).2.dirty_page_table =
            redoExampleState.dirty_page_table) ∧
      ((∀ pre r post p offset afterImage, redoExampleLog.drop start = pre ++ r :: post →
          (redoLoop redoExampleState.dirty_page_table pre redoExampleState.se).1 = true →
          RedoDue redoExampleState.dirty_page_table (redoLoop redoExampleState.dirty_page_table pre
              redoExampleState.se).2 r
            p offset afterImage →
          ((redoLoop redoExampleState.dirty_page_table pre redoExampleState.se).2.pageWrite p
              offset afterImage
            r.getLSN).1 = true) →
        (redo redoExampleState redoExampleLog).1 = true) :=
  ⟨by decide, rfl, rfl, redo_contract redoExampleState redoExampleLog (by decide)⟩

/-! ## The prevLSN of the CLRs under `abort` -/

theorem abortRecord_last (s : State) (T prev : Int) :
    (abortRecord s T prev).logtail.getLast? =
      some (LogRecord.plain (s.se.lsnCounter : Int) prev T .ABORT) ∧
    getLastLSN (abortRecord s T prev) T = (s.se.lsnCounter : Int) := by
  refine ⟨?_, ?_⟩
  · simp [abortRecord, setLastLSN, StorageEngine.nextLSN]
  · simp [abortRecord, setLastLSN, getLastLSN, StorageEngine.nextLSN,
      mfind_tableSetLastLSN_self]

theorem undoCompensate_abort_prevLSN (log : List LogRecord) (s : State)
    (lsn prevLSN T pageID offset : Int) (beforeImage : String) (r0 : LogRecord)
    (hlast : s.logtail.getLast? = some r0) (hJ : r0.getLSN = getLastLSN s T) :
    (undoCompensate log true s lsn prevLSN T pageID offset beforeImage).2.logtail =
      s.logtail ++ [LogRecord.clr (s.se.lsnCounter : Int) (getLastLSN s T) T pageID offset
        beforeImage prevLSN] ∧
    (undoCompensate log true s lsn prevLSN T pageID offset beforeImage).2.logtail.getLast? =
      some (LogRecord.clr (s.se.lsnCounter : Int) (getLastLSN s T) T pageID offset
        beforeImage prevLSN) ∧
    getLastLSN (undoCompensate log true s lsn prevLSN T pageID offset beforeImage).2 T =
      (s.se.lsnCounter : Int) := by
  have h1 : (undoCompensate log true s lsn prevLSN T pageID offset beforeImage).2.logtail =
      s.logtail ++ [LogRecord.clr (s.se.lsnCounter : Int) (getLastLSN s T) T pageID offset
        beforeImage prevLSN] := by
    simp [undoCompensate, hlast, hJ, StorageEngine.nextLSN]
  refine ⟨h1, ?_, ?_⟩
  · rw [h1]
    simp
  · simp [undoCompensate, getLastLSN, StorageEngine.nextLSN, mfind_tableSetLastLSN_self]

/-! ## The dirty page table of a page that is never flushed -/

theorem firstTouch_append_some (p l : Int) (A B : List LogRecord)
    (h : firstTouch p A = some l) : firstTouch p (A ++ B) = some l := by
  unfold firstTouch at h ⊢
  rw [List.find?_append]
  cases hf : A.find? (LogRecord.touches p) with
  | none => simp [hf] at h
  | some r =>
    rw [hf] at h
    simpa using h

theorem firstTouch_append_none (p : Int) (A B : List LogRecord)
    (h : firstTouch p A = none) : firstTouch p (A ++ B) = firstTouch p B := by
  unfold firstTouch at h ⊢
  rw [List.find?_append]
  cases hf : A.find? (LogRecord.touches p) with
  | none => simp
  | some r => simp [hf] at h

theorem firstTouch_eq_none (p : Int) (B : List LogRecord) :
    firstTouch p B = none ↔ ∀ r ∈ B, r.touches p = false := by
  unfold firstTouch
  simp [List.find?_eq_none]

theorem firstTouch_append_untouched (p : Int) (A B : List LogRecord)
    (h : ∀ r ∈ B, r.touches p = false) : firstTouch p (A ++ B) = firstTouch p A := by
  cases hA : firstTouch p A with
  | none => rw [firstTouch_append_none p A B hA, (firstTouch_eq_none p B).mpr h]
  | some l => exact firstTouch_append_some p l A B hA

theorem firstTouch_cons (p : Int) (a : LogRecord) (L : List LogRecord) :
    firstTouch p (a :: L) = if a.touches p = true then some a.getLSN else firstTouch p L := by
  unfold firstTouch
  cases ha : a.touches p <;> simp [List.find?_cons, ha]

theorem analyzeScan_dpt_page (p : Int) (L : List LogRecord) :
    ∀ tabs : TxTable × DirtyPageTable,
      mfind (analyzeScan tabs L).2 p =
        match mfind tabs.2 p with
        | some l => some l
        | none => firstTouch p L := by
  induction L with
  | nil =>
    intro tabs
    cases hf : mfind tabs.2 p <;> simp [analyzeScan, firstTouch, hf]
  | cons a L ih =>
    intro tabs
    have hstep : analyzeScan tabs (a :: L) = analyzeScan (analyzeStep tabs a) L := rfl
    rw [hstep, ih (analyzeStep tabs a), firstTouch_cons]
    cases ha : a.touches p with
    | true =>
      rw [analyzeStep_dpt_self tabs a p ha]
      cases hf : mfind tabs.2 p <;> simp
    | false =>
      rw [analyzeStep_dpt_other tabs a p ha]
      simp
theorem touches_plain (p l q t : Int) (ty : HeaderType) :
    (LogRecord.plain l q t ty).touches p = false := rfl

theorem touches_chkpt (p l q t : Int) (tt : TxTable) (d : DirtyPageTable) :
    (LogRecord.chkpt l q t tt d).touches p = false := rfl

theorem analyze_page (s0 s1 : State) (L : List LogRecord) (p : Int)
    (hstrict : LsnStrict L) (hnn : ∀ r ∈ L, 0 ≤ r.getLSN)
    (hpage : mfind s0.dirty_page_table p = firstTouch p L)
    (hmaster : s0.se.master = NULL_LSN ∨
      ∃ pre E tt dpt post,
        L = pre ++ LogRecord.plain s0.se.master NULL_LSN NULL_TX .BEGIN_CKPT ::
          LogRecord.chkpt E s0.se.master NULL_TX tt dpt :: post ∧
        mfind dpt p = firstTouch p pre)
    (h : analyze s0 (dropToMaster L s0.se.master L.length) = some s1) :
    mfind s1.dirty_page_table p = firstTouch p L := by
  by_cases hm : s0.se.master = NULL_LSN
  · have hnf : ∀ x ∈ L, x.getLSN ≠ s0.se.master := by
      intro x hx
      have := hnn x hx
      rw [hm]
      simp only [NULL_LSN]
      omega
    rw [dropToMaster_notFound L _ hnf, analyze_noMaster s0 L hm] at h
    simp only [Option.some.injEq] at h
    subst h
    simp only
    rw [analyzeScan_dpt_page p L (s0.tx_table, s0.dirty_page_table)]
    simp only
    rw [hpage]
    cases firstTouch p L <;> rfl
  · rcases hmaster with hmm | ⟨pre, E, tt, dpt, post, hdec, hpre⟩
    · exact absurd hmm hm
    · have hs2 := hstrict
      rw [hdec] at hs2
      have hp := List.pairwise_append.mp hs2
      have hB := List.pairwise_cons.mp hp.2.1
      have hrest : ∀ x ∈ LogRecord.chkpt E s0.se.master NULL_TX tt dpt :: post,
          x.getLSN ≠ s0.se.master := by
        intro x hx
        have h1 : s0.se.master < x.getLSN := hB.1 x hx
        omega
      have hd := dropToMaster_found pre (LogRecord.chkpt E s0.se.master NULL_TX tt dpt :: post)
        (LogRecord.plain s0.se.master NULL_LSN NULL_TX .BEGIN_CKPT) s0.se.master rfl hrest
        L.length (by rw [hdec]; simp) (by rw [hdec])
      rw [← hdec] at hd
      rw [hd, analyze_atMaster s0 _ _ post hm hrest] at h
      simp only [Option.some.injEq] at h
      subst h
      simp only
      rw [analyzeScan_dpt_page p _ (seedTables s0 (LogRecord.chkpt E s0.se.master NULL_TX tt dpt))]
      have hseed : (seedTables s0 (LogRecord.chkpt E s0.se.master NULL_TX tt dpt)).2 = dpt := rfl
      rw [hseed, hpre, hdec]
      cases hfp : firstTouch p pre with
      | some l =>
        simp only
        exact (firstTouch_append_some p l pre _ hfp).symm
      | none =>
        simp only
        rw [firstTouch_append_none p pre _ hfp, firstTouch_cons, firstTouch_cons]
        simp [touches_plain, touches_chkpt, firstTouch_cons]
theorem pageInv_checkpoint (s s1 : State) (p : Int) (hI : Inv s) (hP : PageInv p s)
    (h : checkpoint s = some s1) :
    PageInv p s1 ∧ mfind s1.dirty_page_table p = mfind s.dirty_page_table p := by
  unfold checkpoint at h
  cases ha : checkpointAnalyze { s with se := s.se.nextLSN.2.nextLSN.2 } with
  | none => simp [ha] at h
  | some a =>
    simp only [ha, Option.some.injEq] at h
    subst h
    have hlog0 : AllLog ({ s with se := s.se.nextLSN.2.nextLSN.2 } : State) = AllLog s := rfl
    have hfr : a.se = s.se.nextLSN.2.nextLSN.2 ∧ a.logtail = s.logtail ∧
        mfind a.dirty_page_table p = firstTouch p (AllLog s) := by
      rcases checkpointAnalyze_cases _ _ ha with ⟨h1, _⟩ | h1
      · subst h1
        exact ⟨rfl, rfl, hP.1⟩
      · have hf := analyze_frame _ _ _ h1
        refine ⟨hf.1, hf.2, ?_⟩
        rw [hlog0] at h1
        exact analyze_page { s with se := s.se.nextLSN.2.nextLSN.2 } a (AllLog s) p hI.strict
          (fun r hr => (hI.bounds r hr).1) hP.1 hP.2 h1
    obtain ⟨hase, hatl, hapage⟩ := hfr
    have hAll : AllLog (flushLogTail { a with
        se := a.se.store_master s.se.nextLSN.1,
        logtail := a.logtail ++
          [LogRecord.plain s.se.nextLSN.1 NULL_LSN NULL_TX .BEGIN_CKPT,
           LogRecord.chkpt s.se.nextLSN.2.nextLSN.1 s.se.nextLSN.1 NULL_TX a.tx_table
             a.dirty_page_table] } s.se.nextLSN.2.nextLSN.1) =
        AllLog s ++ [LogRecord.plain s.se.nextLSN.1 NULL_LSN NULL_TX .BEGIN_CKPT,
           LogRecord.chkpt s.se.nextLSN.2.nextLSN.1 s.se.nextLSN.1 NULL_TX a.tx_table
             a.dirty_page_table] := by
      rw [flushLogTail_allLog]
      simp [AllLog, hase, hatl, StorageEngine.store_master, StorageEngine.nextLSN]
    have hdpt := (flushLogTail_frame { a with
        se := a.se.store_master s.se.nextLSN.1,
        logtail := a.logtail ++
          [LogRecord.plain s.se.nextLSN.1 NULL_LSN NULL_TX .BEGIN_CKPT,
           LogRecord.chkpt s.se.nextLSN.2.nextLSN.1 s.se.nextLSN.1 NULL_TX a.tx_table
             a.dirty_page_table] } s.se.nextLSN.2.nextLSN.1).2.1
    have hmas := (flushLogTail_frame { a with
        se := a.se.store_master s.se.nextLSN.1,
        logtail := a.logtail ++
          [LogRecord.plain s.se.nextLSN.1 NULL_LSN NULL_TX .BEGIN_CKPT,
           LogRecord.chkpt s.se.nextLSN.2.nextLSN.1 s.se.nextLSN.1 NULL_TX a.tx_table
             a.dirty_page_table] } s.se.nextLSN.2.nextLSN.1).2.2.2.1
    have hunt : ∀ r ∈ [LogRecord.plain s.se.nextLSN.1 NULL_LSN NULL_TX .BEGIN_CKPT,
        LogRecord.chkpt s.se.nextLSN.2.nextLSN.1 s.se.nextLSN.1 NULL_TX a.tx_table
          a.dirty_page_table], r.touches p = false := by
      intro r hr
      simp only [List.mem_cons, List.mem_singleton, List.not_mem_nil, or_false] at hr
      rcases hr with hr | hr <;> subst hr <;> rfl
    refine ⟨⟨?_, Or.inr ⟨AllLog s, s.se.nextLSN.2.nextLSN.1, a.tx_table, a.dirty_page_table, [],
      ?_, hapage⟩⟩, ?_⟩
    · rw [hAll, hdpt, firstTouch_append_untouched p _ _ hunt]
      exact hapage
    · rw [hAll, hmas]
      rfl
    · rw [hdpt]
      show mfind a.dirty_page_table p = mfind s.dirty_page_table p
      rw [hapage, hP.1]
theorem undoRecord_preserves_mem (log : List LogRecord) (abort_one : Bool) (I : State → Prop)
    (hc : ∀ s lsn prevLSN txID pageID offset beforeImage afterImage,
      LogRecord.update lsn prevLSN txID pageID offset beforeImage afterImage ∈ log → I s →
      I (undoCompensate log abort_one s lsn prevLSN txID pageID offset beforeImage).2)
    (he : ∀ s prev tx, I s → I (undoEnd s prev tx))
    (r : LogRecord) (hr : r ∈ log) (tx_id : Int) (s : State) (res : Bool × Int × State)
    (hI : I s) (h : undoRecord log abort_one r tx_id s = some res) : I res.2.2 := by
  cases r with
  | plain l p t ty => simp [undoRecord] at h
  | chkpt l p t tt dpt => simp [undoRecord] at h
  | update lsn prevLSN txID pageID offset beforeImage afterImage =>
    have hcI := hc s lsn prevLSN txID pageID offset beforeImage afterImage hr hI
    simp only [undoRecord] at h
    split at h
    · split at h
      · simp only [Option.some.injEq] at h
        exact h ▸ he _ _ _ hcI
      · simp only [Option.some.injEq] at h
        exact h ▸ hcI
    · simp only [Option.some.injEq] at h
      exact h ▸ hcI
  | clr lsn p t pageID offset afterImage undoNextLSN =>
    simp only [undoRecord] at h
    split at h
    · simp only [Option.some.injEq] at h
      exact h ▸ he _ _ _ hI
    · simp only [Option.some.injEq] at h
      exact h ▸ hI

theorem undoLoop_preserves_mem (log : List LogRecord) (abort_one : Bool) (I : State → Prop)
    (hc : ∀ s lsn prevLSN txID pageID offset beforeImage afterImage,
      LogRecord.update lsn prevLSN txID pageID offset beforeImage afterImage ∈ log → I s →
      I (undoCompensate log abort_one s lsn prevLSN txID pageID offset beforeImage).2)
    (he : ∀ s prev tx, I s → I (undoEnd s prev tx)) :
    ∀ (n : Nat) (heap : List Int) (tx_id : Int) (s s1 : State), I s →
      undoLoop log abort_one n heap tx_id s = some s1 → I s1 := by
  intro n
  induction n with
  | zero =>
    intro heap tx_id s s1 hI hrun
    cases heap with
    | nil =>
      simp only [undoLoop, Option.some.injEq] at hrun
      exact hrun ▸ hI
    | cons top rest => simp [undoLoop] at hrun
  | succ i ih =>
    intro heap tx_id s s1 hI hrun
    cases heap with
    | nil =>
      simp only [undoLoop, Option.some.injEq] at hrun
      exact hrun ▸ hI
    | cons top rest =>
      rw [undoLoop] at hrun
      cases hrec : log[i]? with
      | none => simp [hrec] at hrun
      | some r =>
        simp only [hrec] at hrun
        by_cases htop : top = r.getLSN
        · simp only [htop, if_true] at hrun
          cases hres : undoRecord log abort_one r tx_id s with
          | none => simp [hres] at hrun
          | some res =>
            obtain ⟨stop, tx1, s2⟩ := res
            have hI2 : I s2 := undoRecord_preserves_mem log abort_one I hc he r
              (List.getElem?_mem hrec) tx_id s _ hI hres
            cases stop with
            | true =>
              simp only [hres, Option.some.injEq] at hrun
              exact hrun ▸ hI2
            | false =>
              simp only [hres] at hrun
              exact ih _ _ _ _ hI2 hrun
        · simp only [htop, if_false] at hrun
          exact ih _ _ _ _ hI hrun

theorem undo_preserves_mem (log : List LogRecord) (I : State → Prop)
    (hc : ∀ abort_one s lsn prevLSN txID pageID offset beforeImage afterImage,
      LogRecord.update lsn prevLSN txID pageID offset beforeImage afterImage ∈ log → I s →
      I (undoCompensate log abort_one s lsn prevLSN txID pageID offset beforeImage).2)
    (he : ∀ s prev tx, I s → I (undoEnd s prev tx))
    (s s1 : State) (txnum : Int) (hI : I s)
    (h : undo s log txnum = some s1) : I s1 := by
  unfold undo at h
  split at h
  · simp only [Option.some.injEq] at h
    exact h ▸ hI
  · split at h
    · exact undoLoop_preserves_mem log false I (hc false) he _ _ _ _ _ hI h
    · split at h
      · exact undoLoop_preserves_mem log true I (hc true) he _ _ _ _ _ hI h
      · simp only [Option.some.injEq] at h
        exact h ▸ hI

theorem undo_appends (s s1 : State) (log : List LogRecord) (txnum p : Int)
    (h : undo s log txnum = some s1) :
    ∃ app, s1.logtail = s.logtail ++ app ∧ s1.se.log = s.se.log ∧
      s1.se.master = s.se.master ∧
      ∀ r ∈ app, r.touches p = true → ∃ u ∈ log, u.touches p = true := by
  refine undo_preserves_mem log (fun x => ∃ app, x.logtail = s.logtail ++ app ∧
    x.se.log = s.se.log ∧ x.se.master = s.se.master ∧
    ∀ r ∈ app, r.touches p = true → ∃ u ∈ log, u.touches p = true) ?_ ?_ s s1 txnum
    ⟨[], by simp, rfl, rfl, by simp⟩ h
  · rintro ab x lsn prevLSN txID pageID offset b a hmem ⟨app, h1, h2, h3, h4⟩
    obtain ⟨pl, hl, -, -, hlog, -, hmas⟩ :=
      undoCompensate_fields log ab x lsn prevLSN txID pageID offset b
    refine ⟨app ++ [LogRecord.clr (x.se.lsnCounter : Int) pl txID pageID offset b prevLSN],
      by rw [hl, h1, List.append_assoc], by rw [hlog, h2], by rw [hmas, h3], ?_⟩
    intro r hr ht
    rcases List.mem_append.mp hr with hr | hr
    · exact h4 r hr ht
    · rw [List.mem_singleton] at hr
      subst hr
      exact ⟨_, hmem, ht⟩
  · rintro x prev tx ⟨app, h1, h2, h3, h4⟩
    refine ⟨app ++ [LogRecord.plain x.se.nextLSN.1 prev tx .END],
      by simp [undoEnd, h1], by simp [undoEnd, h2, StorageEngine.nextLSN],
      by simp [undoEnd, h3, StorageEngine.nextLSN], ?_⟩
    intro r hr ht
    rcases List.mem_append.mp hr with hr | hr
    · exact h4 r hr ht
    · rw [List.mem_singleton] at hr
      subst hr
      simp [LogRecord.touches] at ht
theorem pageInv_append (p : Int) (s s1 : State) (app : List LogRecord) (hP : PageInv p s)
    (hm : s1.se.master = s.se.master) (hlog : AllLog s1 = AllLog s ++ app)
    (hd : mfind s1.dirty_page_table p = firstTouch p (AllLog s ++ app)) : PageInv p s1 := by
  refine ⟨by rw [hlog]; exact hd, ?_⟩
  rcases hP.2 with h | ⟨pre, E, tt, dpt, post, hdec, hpre⟩
  · exact Or.inl (by rw [hm]; exact h)
  · refine Or.inr ⟨pre, E, tt, dpt, post ++ app, ?_, hpre⟩
    rw [hlog, hdec, hm]
    simp

theorem pageInv_same (p : Int) (s s1 : State) (hP : PageInv p s)
    (hm : s1.se.master = s.se.master) (hlog : AllLog s1 = AllLog s)
    (hd : mfind s1.dirty_page_table p = mfind s.dirty_page_table p) : PageInv p s1 :=
  pageInv_append p s s1 [] hP hm (by rw [hlog, List.append_nil])
    (by rw [hd, List.append_nil]; exact hP.1)

theorem pageInv_untouched (p : Int) (s s1 : State) (app : List LogRecord) (hP : PageInv p s)
    (hm : s1.se.master = s.se.master) (hlog : AllLog s1 = AllLog s ++ app)
    (hunt : ∀ r ∈ app, r.touches p = false)
    (hd : mfind s1.dirty_page_table p = mfind s.dirty_page_table p) : PageInv p s1 :=
  pageInv_append p s s1 app hP hm hlog
    (by rw [hd, firstTouch_append_untouched p _ _ hunt]; exact hP.1)

theorem pageInv_write (p : Int) (s : State) (txID pageID offset : Int) (nb ob : String)
    (hP : PageInv p s) : PageInv p (write s txID pageID offset nb ob).1 := by
  have hlog : AllLog (write s txID pageID offset nb ob).1 = AllLog s ++
      [LogRecord.update (s.se.lsnCounter : Int) (getLastLSN s txID) txID pageID offset ob nb] := by
    simp only [AllLog, write_logtail, List.append_assoc]
    rfl
  have hm : (write s txID pageID offset nb ob).1.se.master = s.se.master := rfl
  by_cases hq : pageID = p
  · subst hq
    refine pageInv_append pageID s _ _ hP hm hlog ?_
    cases hf : mfind s.dirty_page_table pageID with
    | none =>
      have h1 : firstTouch pageID (AllLog s) = none := by rw [← hP.1, hf]
      rw [firstTouch_append_none _ _ _ h1, firstTouch_cons]
      simp only [write, hf, StorageEngine.nextLSN, LogRecord.touches, decide_True, if_true,
        LogRecord.getLSN]
      exact mfind_minsert_self _ _ _
    | some l =>
      have h1 : firstTouch pageID (AllLog s) = some l := by rw [← hP.1, hf]
      rw [firstTouch_append_some _ l _ _ h1]
      simp only [write, hf]
  · refine pageInv_untouched p s _ _ hP hm hlog ?_ ?_
    · intro r hr
      rw [List.mem_singleton] at hr
      subst hr
      simp [LogRecord.touches, hq]
    · exact step_dirty_other s _ (Op.write txID pageID offset nb ob) p rfl rfl rfl
        (by simp [Op.isWriteOf, hq])

theorem pageInv_commit (p : Int) (s : State) (txid : Int) (hP : PageInv p s) :
    PageInv p (commit s txid) := by
  cases hin : mfind s.tx_table txid with
  | none =>
    rw [commit_absent s txid hin]
    exact hP
  | some e =>
    obtain ⟨h1, -, h3, -, h5⟩ := commit_fields s txid e hin
    refine pageInv_untouched p s _ _ hP h3 h1 ?_ (by rw [h5])
    intro r hr
    simp only [List.mem_cons, List.mem_singleton, List.not_mem_nil, or_false] at hr
    rcases hr with hr | hr <;> subst hr <;> rfl

theorem pageInv_pageFlushed (p : Int) (s : State) (q : Int) (hP : PageInv p s) (hq : p ≠ q) :
    PageInv p (pageFlushed s q) := by
  refine pageInv_same p s _ hP ?_ ?_ ?_
  · exact (flushLogTail_frame s _).2.2.2.1
  · exact flushLogTail_allLog s _
  · simp only [pageFlushed]
    rw [mfind_merase_ne _ _ _ hq, (flushLogTail_frame _ _).2.1]

theorem pageInv_abort (p : Int) (s s1 : State) (txid : Int) (hP : PageInv p s)
    (h : abort s txid = some s1) : PageInv p s1 := by
  simp only [abort] at h
  split at h
  · rename_i e he
    obtain ⟨app, h1, h2, h3, h4⟩ := undo_appends _ _ _ _ p h
    have hd : s1.dirty_page_table = s.dirty_page_table := by
      rw [undo_dirty_page_table _ _ _ _ h]
      rfl
    have hlog : AllLog s1 = AllLog s ++
        (LogRecord.plain (s.se.lsnCounter : Int) e.lastLSN txid .ABORT :: app) := by
      simp only [AllLog, h1, h2]
      simp [abortRecord, setLastLSN, StorageEngine.nextLSN]
    have hm : s1.se.master = s.se.master := by
      rw [h3]
      rfl
    refine pageInv_append p s s1 _ hP hm hlog ?_
    rw [hd, hP.1]
    cases hf : firstTouch p (AllLog s) with
    | some l => exact (firstTouch_append_some p l _ _ hf).symm
    | none =>
      rw [firstTouch_append_none p _ _ hf]
      symm
      rw [firstTouch_eq_none]
      intro r hr
      rcases List.mem_cons.mp hr with hr | hr
      · subst hr
        rfl
      · cases ht : r.touches p with
        | false => rfl
        | true =>
          obtain ⟨u, hu, hut⟩ := h4 r hr ht
          have hu2 : u ∈ AllLog s ++
              [LogRecord.plain (s.se.lsnCounter : Int) e.lastLSN txid .ABORT] := by
            simpa [AllLog, abortRecord, setLastLSN, StorageEngine.nextLSN,
              StorageEngine.getLog] using hu
          rcases List.mem_append.mp hu2 with hu3 | hu3
          · have := (firstTouch_eq_none p (AllLog s)).mp hf u hu3
            rw [this] at hut
            exact absurd hut (by simp)
          · rw [List.mem_singleton] at hu3
            subst hu3
            simp [LogRecord.touches] at hut
  · simp only [Option.some.injEq] at h
    exact h ▸ hP

theorem pageInv_step (p : Int) (s s1 : State) (op : Op) (hI : Inv s) (hP : PageInv p s)
    (hf : op.isFlushOf p = false) (h : step s op = some s1) : PageInv p s1 := by
  cases op with
  | write txID pageID offset nb ob =>
    simp only [step, Option.some.injEq] at h
    exact h ▸ pageInv_write p s txID pageID offset nb ob hP
  | commit txID =>
    simp only [step, Option.some.injEq] at h
    exact h ▸ pageInv_commit p s txID hP
  | abort txID => exact pageInv_abort p s s1 txID hP h
  | pageFlushed q =>
    simp only [step, Option.some.injEq] at h
    have hq : p ≠ q := by
      intro hpq
      simp [Op.isFlushOf, hpq] at hf
    exact h ▸ pageInv_pageFlushed p s q hP hq
  | checkpoint => exact (pageInv_checkpoint s s1 p hI hP h).1
  | engineSetPage q pg =>
    simp only [step, Option.some.injEq] at h
    exact h ▸ pageInv_same p s _ hP rfl rfl rfl
  | engineNextLSN =>
    simp only [step, Option.some.injEq] at h
    exact h ▸ pageInv_same p s _ hP rfl rfl rfl
theorem step_page_kept (s s1 : State) (op : Op) (p l : Int) (hI : Inv s) (hP : PageInv p s)
    (h : step s op = some s1) (hf : op.isFlushOf p = false)
    (hl : mfind s.dirty_page_table p = some l) :
    mfind s1.dirty_page_table p = some l := by
  cases hc : op.isCheckpoint with
  | false => exact step_dirty_kept s s1 op p l h hf hc hl
  | true =>
    cases op with
    | checkpoint =>
      rw [(pageInv_checkpoint s s1 p hI hP h).2]
      exact hl
    | write txID pageID offset nb ob => simp [Op.isCheckpoint] at hc
    | commit txID => simp [Op.isCheckpoint] at hc
    | abort txID => simp [Op.isCheckpoint] at hc
    | pageFlushed q => simp [Op.isCheckpoint] at hc
    | engineSetPage q pg => simp [Op.isCheckpoint] at hc
    | engineNextLSN => simp [Op.isCheckpoint] at hc

theorem step_page_other (s s1 : State) (op : Op) (p : Int) (hI : Inv s) (hP : PageInv p s)
    (h : step s op = some s1) (hf : op.isFlushOf p = false) (hw : op.isWriteOf p = false) :
    mfind s1.dirty_page_table p = mfind s.dirty_page_table p := by
  cases hc : op.isCheckpoint with
  | false => exact step_dirty_other s s1 op p h hf hc hw
  | true =>
    cases op with
    | checkpoint => exact (pageInv_checkpoint s s1 p hI hP h).2
    | write txID pageID offset nb ob => simp [Op.isCheckpoint] at hc
    | commit txID => simp [Op.isCheckpoint] at hc
    | abort txID => simp [Op.isCheckpoint] at hc
    | pageFlushed q => simp [Op.isCheckpoint] at hc
    | engineSetPage q pg => simp [Op.isCheckpoint] at hc
    | engineNextLSN => simp [Op.isCheckpoint] at hc

theorem run_page_kept (since : List Op) (p l : Int) :
    ∀ (s s1 : State), run s since = some s1 → Inv s → PageInv p s →
      (∀ op ∈ since, op.isFlushOf p = false) →
      mfind s.dirty_page_table p = some l → mfind s1.dirty_page_table p = some l := by
  induction since with
  | nil =>
    intro s s1 h _ _ _ hl
    simp only [run, Option.some.injEq] at h
    exact h ▸ hl
  | cons op rest ih =>
    intro s s1 h hI hP hf hl
    simp only [run] at h
    cases hs : step s op with
    | none => simp [hs] at h
    | some s2 =>
      simp only [hs] at h
      exact ih s2 s1 h (inv_step s s2 op hI hs)
        (pageInv_step p s s2 op hI hP (hf op (by simp)) hs)
        (fun o ho => hf o (List.mem_cons_of_mem _ ho))
        (step_page_kept s s2 op p l hI hP hs (hf op (by simp)) hl)

theorem run_page_first_write (since : List Op) (p l : Int) :
    ∀ (sb s : State), run sb since = some s → Inv sb → PageInv p sb →
      (∀ op ∈ since, op.isFlushOf p = false) →
      mfind sb.dirty_page_table p = none →
      (mfind s.dirty_page_table p = some l ↔
        ∃ a c tx off nb ob si, since = a ++ Op.write tx p off nb ob :: c ∧
          (∀ op ∈ a, op.isWriteOf p = false) ∧ run sb a = some si ∧
          l = (write si tx p off nb ob).2) := by
  induction since with
  | nil =>
    intro sb s h _ _ _ hn
    simp only [run, Option.some.injEq] at h
    subst h
    simp [hn]
  | cons op rest ih =>
    intro sb s h hI hP hf hn
    simp only [run] at h
    cases hs : step sb op with
    | none => simp [hs] at h
    | some s2 =>
      simp only [hs] at h
      have hf2 : ∀ o ∈ rest, o.isFlushOf p = false := fun o ho => hf o (List.mem_cons_of_mem _ ho)
      have hI2 : Inv s2 := inv_step sb s2 op hI hs
      have hP2 : PageInv p s2 := pageInv_step p sb s2 op hI hP (hf op (by simp)) hs
      cases hw : op.isWriteOf p with
      | true =>
        cases op with
        | write txID pageID offset nb ob =>
          have hpp : pageID = p := by simpa [Op.isWriteOf] using hw
          subst hpp
          have hs2 : mfind s2.dirty_page_table pageID = some (sb.se.lsnCounter : Int) := by
            simp only [step, Option.some.injEq] at hs
            subst hs
            simp only [write, hn, StorageEngine.nextLSN]
            exact mfind_minsert_self _ _ _
          have hfin := run_page_kept rest pageID _ s2 s h hI2 hP2 hf2 hs2
          rw [hfin]
          constructor
          · intro hl
            simp only [Option.some.injEq] at hl
            exact ⟨[], rest, txID, offset, nb, ob, sb, rfl, by simp, rfl, hl.symm⟩
          · rintro ⟨a, c, tx, off, nb2, ob2, si, hdec, hnw, hrun, hl⟩
            cases a with
            | nil =>
              simp only [run, Option.some.injEq] at hrun
              subst hrun
              rw [hl]
              rfl
            | cons o a2 =>
              simp only [List.cons_append, List.cons.injEq] at hdec
              have := hnw o (by simp)
              rw [← hdec.1] at this
              simp [Op.isWriteOf] at this
        | commit txID => simp [Op.isWriteOf] at hw
        | abort txID => simp [Op.isWriteOf] at hw
        | pageFlushed q => simp [Op.isWriteOf] at hw
        | checkpoint => simp [Op.isWriteOf] at hw
        | engineSetPage q pg => simp [Op.isWriteOf] at hw
        | engineNextLSN => simp [Op.isWriteOf] at hw
      | false =>
        have hn2 : mfind s2.dirty_page_table p = none := by
          rw [step_page_other sb s2 op p hI hP hs (hf op (by simp)) hw, hn]
        rw [ih s2 s h hI2 hP2 hf2 hn2]
        constructor
        · rintro ⟨a, c, tx, off, nb, ob, si, hdec, hnw, hrun, hl⟩
          refine ⟨op :: a, c, tx, off, nb, ob, si, by simp [hdec], ?_, ?_, hl⟩
          · intro o ho
            rcases List.mem_cons.mp ho with ho | ho
            · rw [ho]; exact hw
            · exact hnw o ho
          · simp only [run, hs]
            exact hrun
        · rintro ⟨a, c, tx, off, nb, ob, si, hdec, hnw, hrun, hl⟩
          cases a with
          | nil =>
            simp only [List.nil_append, List.cons.injEq] at hdec
            rw [hdec.1] at hw
            simp [Op.isWriteOf] at hw
          | cons o a2 =>
            simp only [List.cons_append, List.cons.injEq] at hdec
            refine ⟨a2, c, tx, off, nb, ob, si, hdec.2, fun x hx => hnw x (by simp [hx]), ?_, hl⟩
            rw [← hdec.1] at hrun
            simpa only [run, hs] using hrun

theorem pageInv_initial (p : Int) (s : State) (h : Initial s) : PageInv p s := by
  obtain ⟨-, h2, h3, h4, h5⟩ := h
  refine ⟨?_, Or.inl h5⟩
  simp [AllLog, h2, h3, h4, firstTouch, mfind]
theorem step_page_unwritten (s s1 : State) (op : Op) (p : Int) (hI : Inv s)
    (hP : PageInv p s) (h : step s op = some s1) (hw : op.isWriteOf p = false)
    (hn : mfind s.dirty_page_table p = none) :
    PageInv p s1 ∧ mfind s1.dirty_page_table p = none := by
  cases hf : op.isFlushOf p with
  | false =>
    exact ⟨pageInv_step p s s1 op hI hP hf h,
      by rw [step_page_other s s1 op p hI hP h hf hw, hn]⟩
  | true =>
    cases op with
    | pageFlushed q =>
      have hq : q = p := by simpa [Op.isFlushOf] using hf
      subst hq
      simp only [step, Option.some.injEq] at h
      subst h
      have hnone : mfind (pageFlushed s q).dirty_page_table q = none := by
        simp only [pageFlushed]
        exact mfind_merase_self _ _
      exact ⟨pageInv_same q s _ hP (flushLogTail_frame s _).2.2.2.1 (flushLogTail_allLog s _)
        (by rw [hnone, hn]), hnone⟩
    | write txID pageID offset nb ob => simp [Op.isFlushOf] at hf
    | commit txID => simp [Op.isFlushOf] at hf
    | abort txID => simp [Op.isFlushOf] at hf
    | checkpoint => simp [Op.isFlushOf] at hf
    | engineSetPage q pg => simp [Op.isFlushOf] at hf
    | engineNextLSN => simp [Op.isFlushOf] at hf

theorem run_page_unwritten (ops : List Op) (p : Int) :
    ∀ (s s1 : State), run s ops = some s1 → Inv s → PageInv p s →
      (∀ op ∈ ops, op.isWriteOf p = false) → mfind s.dirty_page_table p = none →
      Inv s1 ∧ PageInv p s1 ∧ mfind s1.dirty_page_table p = none := by
  induction ops with
  | nil =>
    intro s s1 h hI hP _ hn
    simp only [run, Option.some.injEq] at h
    subst h
    exact ⟨hI, hP, hn⟩
  | cons op rest ih =>
    intro s s1 h hI hP hw hn
    simp only [run] at h
    cases hs : step s op with
    | none => simp [hs] at h
    | some s2 =>
      simp only [hs] at h
      obtain ⟨hP2, hn2⟩ := step_page_unwritten s s2 op p hI hP hs (hw op (by simp)) hn
      exact ih s2 s1 h (inv_step s s2 op hI hs) hP2
        (fun o ho => hw o (List.mem_cons_of_mem _ ho)) hn2

/-! ## C10: the dirty page table -/

/-- C10, counterexample: `write(7, 1, 0, "a", " ")`, `pageFlushed(1)`, `checkpoint()`
from the initial state.  After `pageFlushed(1)` page `1` is absent from the dirty
page table; the checkpoint, which analyses the log again, puts it back with recLSN
`1`, in the table and in the snapshot of its END_CKPT record, although the page has
not been written since it was flushed. -/
theorem checkpoint_reinserts_flushed_page :
    Initial initState ∧
    ∃ s1 s2, run initState [Op.write 7 1 0 "a" " ", Op.pageFlushed 1] = some s1 ∧
      mfind s1.dirty_page_table 1 = none ∧
      run s1 [Op.checkpoint] = some s2 ∧
      mfind s2.dirty_page_table 1 = some 1 ∧
      LogRecord.chkpt 3 2 NULL_TX [(7, ⟨1, TxStatus.U⟩)] [(1, 1)] ∈ s2.se.log :=
  ⟨⟨rfl, rfl, rfl, rfl, rfl⟩, _, _, rfl, rfl, rfl, rfl, by decide⟩

/-- C10 (as stated it fails when `checkpoint()` is called after `pageFlushed(p)`, see
`checkpoint_reinserts_flushed_page`; amended): take a run from an initial state and
split it at the last `pageFlushed(p)` (`before` is empty when `p` was never flushed,
and else ends with that call).  If no `checkpoint()` was called since that
`pageFlushed(p)`, or if `p` had not been written before it (in particular if `p` was
never flushed), whatever the calls of `checkpoint()`, then `p` is in the dirty-page
table iff `p` has been written since then, and its recLSN is the LSN returned by the
first such write: `DPT[p] = l` holds iff the calls since then are
`a ++ write(_, p, ...) :: c`, where `a` has no write of `p`, and that write returned
`l`. -/
theorem dirtyPage_iff_written (s0 s : State) (before since : List Op) (p l : Int)
    (h0 : Initial s0) (hrun : run s0 (before ++ since) = some s)
    (hlast : before = [] ∨ ∃ b, before = b ++ [Op.pageFlushed p])
    (hnoflush : ∀ op ∈ since, op.isFlushOf p = false)
    (hnockpt : (∃ op ∈ before, op.isWriteOf p = true) →
      ∀ op ∈ since, op.isCheckpoint = false) :
    mfind s.dirty_page_table p = some l ↔
      ∃ a c tx off nb ob si, since = a ++ Op.write tx p off nb ob :: c ∧
        (∀ op ∈ a, op.isWriteOf p = false) ∧ run s0 (before ++ a) = some si ∧
        l = (write si tx p off nb ob).2 := by
  obtain ⟨sb, hsb, hrest⟩ := (run_append before since s0 s).mp hrun
  have hkey : mfind s.dirty_page_table p = some l ↔
      ∃ a c tx off nb ob si, since = a ++ Op.write tx p off nb ob :: c ∧
        (∀ op ∈ a, op.isWriteOf p = false) ∧ run sb a = some si ∧
        l = (write si tx p off nb ob).2 := by
    by_cases hw : ∃ op ∈ before, op.isWriteOf p = true
    · obtain ⟨o, ho, hwo⟩ := hw
      rcases hlast with hb | ⟨b, hb⟩
      · rw [hb] at ho
        exact absurd ho (List.not_mem_nil _)
      · have hn : mfind sb.dirty_page_table p = none := by
          subst hb
          obtain ⟨sm, _, hlastStep⟩ := (run_append b [Op.pageFlushed p] s0 sb).mp hsb
          simp only [run, step, Option.some.injEq] at hlastStep
          subst hlastStep
          exact mfind_merase_self _ _
        exact run_dirty_first_write since p l sb s hrest hnoflush
          (hnockpt ⟨o, ho, hwo⟩) hn
    · have hnw : ∀ op ∈ before, op.isWriteOf p = false := by
        intro o ho
        cases hio : o.isWriteOf p with
        | false => rfl
        | true => exact absurd ⟨o, ho, hio⟩ hw
      obtain ⟨hIb, hPb, hnb⟩ := run_page_unwritten before p s0 sb hsb (inv_initial s0 h0)
        (pageInv_initial p s0 h0) hnw (by rw [h0.2.1]; rfl)
      exact run_page_first_write since p l sb s hrest hIb hPb hnoflush hnb
  rw [hkey]
  constructor
  · rintro ⟨a, c, tx, off, nb, ob, si, hdec, hnw, hra, hl⟩
    exact ⟨a, c, tx, off, nb, ob, si, hdec, hnw,
      (run_append before a s0 si).mpr ⟨sb, hsb, hra⟩, hl⟩
  · rintro ⟨a, c, tx, off, nb, ob, si, hdec, hnw, hra, hl⟩
    obtain ⟨sb2, hsb2, hra2⟩ := (run_append before a s0 si).mp hra
    rw [hsb] at hsb2
    simp only [Option.some.injEq] at hsb2
    subst hsb2
    exact ⟨a, c, tx, off, nb, ob, si, hdec, hnw, hra2, hl⟩

/-- Witness of `dirtyPage_iff_written`, in its three cases.  Page `1` is written (LSN 1)
and never flushed, with two checkpoints and a write of page `2` after it: its recLSN
is `1`.  Page `1` is flushed before it was ever written, then a checkpoint (LSNs 1 and
2) and a write of page `1` (LSN 3) follow: its recLSN is `3`.  And page `1` is written
(LSN 1), flushed, and written twice more (LSNs 2 and 3) without a checkpoint: its
recLSN is `2`. -/
theorem dirtyPage_iff_written_witness :
    Initial initState ∧
    (∃ s, run initState ([] ++ [Op.write 7 1 0 "a" " ", Op.checkpoint, Op.write 7 2 0 "b" " ",
        Op.checkpoint]) = some s ∧
      (mfind s.dirty_page_table 1 = some 1 ↔
        ∃ a c tx off nb ob si,
          [Op.write 7 1 0 "a" " ", Op.checkpoint, Op.write 7 2 0 "b" " ", Op.checkpoint] =
            a ++ Op.write tx 1 off nb ob :: c ∧
          (∀ op ∈ a, op.isWriteOf 1 = false) ∧
          run initState ([] ++ a) = some si ∧
          1 = (write si tx 1 off nb ob).2) ∧
      mfind s.dirty_page_table 1 = some 1) ∧
    (∃ s, run initState ([Op.pageFlushed 1] ++ [Op.checkpoint, Op.write 7 1 0 "a" " "])
        = some s ∧
      (mfind s.dirty_page_table 1 = some 3 ↔
        ∃ a c tx off nb ob si,
          [Op.checkpoint, Op.write 7 1 0 "a" " "] = a ++ Op.write tx 1 off nb ob :: c ∧
          (∀ op ∈ a, op.isWriteOf 1 = false) ∧
          run initState ([Op.pageFlushed 1] ++ a) = some si ∧
          3 = (write si tx 1 off nb ob).2) ∧
      mfind s.dirty_page_table 1 = some 3) ∧
    ∃ s, run initState ([Op.write 7 1 0 "a" " ", Op.pageFlushed 1] ++
        [Op.write 7 1 0 "b" "a", Op.write 7 1 0 "c" "b"]) = some s ∧
      (mfind s.dirty_page_table 1 = some 2 ↔
        ∃ a c tx off nb ob si,
          [Op.write 7 1 0 "b" "a", Op.write 7 1 0 "c" "b"] = a ++ Op.write tx 1 off nb ob :: c ∧
          (∀ op ∈ a, op.isWriteOf 1 = false) ∧
          run initState ([Op.write 7 1 0 "a" " ", Op.pageFlushed 1] ++ a) = some si ∧
          2 = (write si tx 1 off nb ob).2) ∧
      mfind s.dirty_page_table 1 = some 2 :=
  ⟨⟨rfl, rfl, rfl, rfl, rfl⟩,
    ⟨_, rfl,
      dirtyPage_iff_written initState _ []
        [Op.write 7 1 0 "a" " ", Op.checkpoint, Op.write 7 2 0 "b" " ", Op.checkpoint] 1 1
        ⟨rfl, rfl, rfl, rfl, rfl⟩ rfl (Or.inl rfl) (by simp [Op.isFlushOf])
        (fun h => by simp at h),
      rfl⟩,
    ⟨_, rfl,
      dirtyPage_iff_written initState _ [Op.pageFlushed 1]
        [Op.checkpoint, Op.write 7 1 0 "a" " "] 1 3
        ⟨rfl, rfl, rfl, rfl, rfl⟩ rfl (Or.inr ⟨[], rfl⟩) (by simp [Op.isFlushOf])
        (fun h => by simp [Op.isWriteOf] at h),
      rfl⟩,
    _, rfl,
    dirtyPage_iff_written initState _ [Op.write 7 1 0 "a" " ", Op.pageFlushed 1]
      [Op.write 7 1 0 "b" "a", Op.write 7 1 0 "c" "b"] 1 2 ⟨rfl, rfl, rfl, rfl, rfl⟩ rfl
      (Or.inr ⟨[Op.write 7 1 0 "a" " "], rfl⟩)
      (by simp [Op.isFlushOf]) (fun _ => by simp [Op.isCheckpoint]),
    rfl⟩

/-! ## C5: `checkpoint` after a crash between `store_master` and the flush -/

theorem checkpointCrashEngine_spec (s s1 : State) (h : checkpoint s = some s1) :
    ∃ e, checkpointCrashEngine s = some e ∧ e.master = s1.se.master ∧
      e.lsnCounter = s1.se.lsnCounter ∧ e.log = s.se.log := by
  unfold checkpoint at h
  unfold checkpointCrashEngine
  cases ha : checkpointAnalyze { s with se := s.se.nextLSN.2.nextLSN.2 } with
  | none => simp [ha] at h
  | some a =>
    simp only [ha, Option.some.injEq] at h
    subst h
    have hase : a.se = s.se.nextLSN.2.nextLSN.2 := by
      rcases checkpointAnalyze_cases _ _ ha with ⟨h1, _⟩ | h1
      · rw [h1]
      · exact (analyze_frame _ _ _ h1).1
    refine ⟨a.se.store_master s.se.nextLSN.1, by simp only [ha], ?_, ?_, ?_⟩
    · rw [(flushLogTail_frame _ _).2.2.2.1]
    · rw [(flushLogTail_frame _ _).2.2.1]
    · show a.se.log = s.se.log
      rw [hase]
      rfl

/-- C5, evaluation: `write(7, 1, 0, "a", " ")` (LSN 1), the engine writes page 1 out,
`pageFlushed(1)` (the durable log is UPDATE 1), then `checkpoint()` mints 2 and 3 and
stores the master record 2, and the run stops there, before the flush of line 397.  The
engine is left with master record 2, durable log UPDATE 1 and next LSN 4.  On a log
manager started on that engine (empty tables, empty tail, so the tail is LSN-ascending
and below the next LSN) `checkpoint()` reads `log[1]` in `analyze` (line 65) on a log
of one record, and so does `recover` on that durable log. -/
theorem checkpoint_undefined_after_crash :
    ∃ s e, run initState [Op.write 7 1 0 "a" " ", Op.engineSetPage 1 ⟨fun _ => 'a', 1⟩,
        Op.pageFlushed 1] = some s ∧
      checkpointCrashEngine s = some e ∧
      e.log = [LogRecord.update 1 NULL_LSN 7 1 0 " " "a"] ∧ e.master = 2 ∧
      e.lsnCounter = 4 ∧
      LsnAscending (freshOn e).logtail ∧ BelowNext (freshOn e).logtail (freshOn e).se ∧
      checkpoint (freshOn e) = none ∧ recover (freshOn e) e.log = none :=
  ⟨_, _, rfl, rfl, rfl, rfl, rfl, by simp [LsnAscending, freshOn],
    by simp [BelowNext, freshOn], rfl, rfl⟩

/-! ## C4: the undo pass with a CLR of another transaction that ends its chain -/

/-- C4, evaluation: on an engine that refuses the first page write, `write(1, 1, ..)`
(LSN 1), `write(2, 2, ..)` (LSN 2), `abort(2)` (ABORT 3, CLR 4 with undoNextLSN
`NULL_LSN`, stopped by the refusal) and `write(1, 1, ..)` (LSN 5) from the initial
state.  The log has strictly increasing LSNs, transaction 1 is in the table, none of
its records is a CLR, and the engine accepts every further page write.  The undo pass
over that log appends, for transaction 1, CLR 6 for UPDATE 5, then END 7, then CLR 10
for UPDATE 1, then END 11: at CLR 4 of transaction 2 the variable `tx_id` still holds
transaction 1 (lines 301-311).  The same happens in `recover` after the log has been
forced by the commit of a third transaction. -/
theorem undoPass_ends_transaction_twice :
    (∃ s s1, run refusingInitState [Op.write 1 1 0 "a" " ", Op.write 2 2 0 "b" " ", Op.abort 2,
        Op.write 1 1 1 "c" " "] = some s ∧
      LsnStrict (AllLog s) ∧ mfind s.tx_table 1 = some ⟨5, TxStatus.U⟩ ∧
      (∀ r ∈ AllLog s, r.getTxID = 1 → r.getType ≠ TxType.CLR) ∧ AcceptsAll s.se ∧
      updatesOf 1 (AllLog s) = [LogRecord.update 1 NULL_LSN 1 1 0 " " "a",
        LogRecord.update 5 1 1 1 1 " " "c"] ∧
      undo s (AllLog s) NULL_TX = some s1 ∧
      s1.logtail = s.logtail ++ [LogRecord.clr 6 5 1 1 1 " " 1, LogRecord.plain 7 4 1 .END,
        LogRecord.clr 8 2 2 2 0 " " NULL_LSN, LogRecord.plain 9 8 2 .END,
        LogRecord.clr 10 1 1 1 0 " " NULL_LSN, LogRecord.plain 11 10 1 .END]) ∧
    ∃ s s1, run refusingInitState [Op.write 1 1 0 "a" " ", Op.write 2 2 0 "b" " ", Op.abort 2,
        Op.write 1 1 1 "c" " ", Op.write 3 3 0 "d" " ", Op.commit 3] = some s ∧
      s.se.log = [LogRecord.update 1 NULL_LSN 1 1 0 " " "a",
        LogRecord.update 2 NULL_LSN 2 2 0 " " "b", LogRecord.plain 3 2 2 .ABORT,
        LogRecord.clr 4 3 2 2 0 " " NULL_LSN, LogRecord.update 5 1 1 1 1 " " "c",
        LogRecord.update 6 NULL_LSN 3 3 0 " " "d", LogRecord.plain 7 6 3 .COMMIT] ∧
      recover (freshOn s.se) s.se.log = some s1 ∧
      s1.logtail = [LogRecord.plain 9 7 3 .END,
        LogRecord.clr 10 5 1 1 1 " " 1, LogRecord.plain 11 4 1 .END,
        LogRecord.clr 12 2 2 2 0 " " NULL_LSN, LogRecord.plain 13 12 2 .END,
        LogRecord.clr 14 1 1 1 0 " " NULL_LSN, LogRecord.plain 15 14 1 .END] :=
  ⟨⟨_, _, rfl, by unfold LsnStrict; decide, rfl, by decide, by unfold AcceptsAll; decide,
      by decide, rfl, rfl⟩,
    _, _, rfl, rfl, rfl, rfl⟩

end LogMgr
